import Mathlib

/-!
# Clock tree manager of arch/arm/mach-ux500/clock.c

A shallow embedding of the reference-counted clock tree of `clock.c`.

* A `struct clk *` is an `Option Nat`: `none` is `NULL`, `some n` is the address of the
  statically allocated node `n`.  The memory holding the nodes is the function
  `State.clks : Nat → clk`.
* The functions of the external PRCMU interface are not part of the file.  Each call of
  one of them takes its return value from `State.oracle` (the values the environment is
  going to return, in call order; an exhausted oracle returns `0`, i.e. success) and is
  recorded in `State.log`.
* The recursion of `__clk_enable`, `__clk_disable`, `__clk_get_rate` and of the `_rec`
  rate operations is not bounded by the C code (a cyclic topology recurses for ever), so
  the embedded functions take the remaining call depth as their first argument and
  return `none` when it is exhausted.
-/

namespace Ux500Clock

/-! ## Constants -/

def EINVAL : Int := 22
def ENOSYS : Int := 38

def PRCC_PCKEN : Nat := 0x0
def PRCC_PCKDIS : Nat := 0x4
def PRCC_KCKEN : Nat := 0x8
def PRCC_KCKDIS : Nat := 0xC
def PRCC_PCKSR : Nat := 0x10
def PRCC_KCKSR : Nat := 0x14

/-! ## Data model -/

/-- A lock reference of type `void *` as passed in `current_lock` / `last_lock`:
`NULL`, the address of the process-wide `clk_spin_lock`, or the address of mutex `m`. -/
inductive LockPtr where
  | NULL
  | clk_spin_lock
  | mutex (m : Nat)
deriving DecidableEq, Repr

/-- The macro `NO_LOCK`, defined as `&clk_spin_lock`. -/
def NO_LOCK : LockPtr := LockPtr.clk_spin_lock

/-- The functions of `clock.c` that are stored in `clkops.enable`. -/
inductive EnableFn where
  | prcmu_clk_enable
  | prcmu_opp100_clk_enable
  | prcc_pclk_enable
  | prcc_kclk_enable
deriving DecidableEq, Repr

/-- The functions of `clock.c` that are stored in `clkops.disable`. -/
inductive DisableFn where
  | prcmu_clk_disable
  | prcmu_opp100_clk_disable
  | prcc_pclk_disable
  | prcc_kclk_disable
deriving DecidableEq, Repr

/-- The functions of `clock.c` that are stored in `clkops.get_rate`. -/
inductive GetRateFn where
  | prcmu_clk_get_rate
  | clk_smp_twd_get_rate
deriving DecidableEq, Repr

/-- The functions of `clock.c` that are stored in `clkops.round_rate`. -/
inductive RoundRateFn where
  | prcmu_clk_round_rate
  | clk_round_rate_rec
deriving DecidableEq, Repr

/-- The functions of `clock.c` that are stored in `clkops.set_rate`. -/
inductive SetRateFn where
  | prcmu_clk_set_rate
  | clk_set_rate_rec
deriving DecidableEq, Repr

/-- Modelled from the spec: `struct clkops` is declared in `clock.h`, which is not part of
the source tree; the fields are the six optional operations the code of `clock.c`
reads.  `clock.c` defines no `set_parent` implementation, so a `set_parent` pointer is
the identifier of a function defined elsewhere. -/
structure clkops where
  enable : Option EnableFn := none
  disable : Option DisableFn := none
  get_rate : Option GetRateFn := none
  round_rate : Option RoundRateFn := none
  set_rate : Option SetRateFn := none
  set_parent : Option Nat := none
deriving DecidableEq, Repr

/-- Modelled from the spec: `struct clk` is declared in `clock.h`, which is not part of
the source tree; the fields are the ones `clock.c` reads and writes.  `enabled` is the
spec's `enableCount`, a non-negative integer.  `parents` is the `NULL`-terminated array
of parent candidates: `none` is a `NULL` array pointer, `some l` lists the entries that
precede the terminating `NULL`. -/
structure clk where
  ops : Option clkops := none
  name : String := ""
  enabled : Nat := 0
  rate : Nat := 0
  io_base : Nat := 0
  cg_sel : Nat := 0
  mutex : Option Nat := none
  parent : Option Nat := none
  bus_parent : Option Nat := none
  clock : Option Nat := none
  parents : Option (List Nat) := none
deriving DecidableEq, Repr

/-- Observable events, in the order in which the code produces them. -/
inductive Ev where
  | spin_lock_irqsave
  | spin_unlock_irqrestore
  | mutex_lock (m : Nat)
  | mutex_unlock (m : Nat)
  | WARN_ON
  | pr_err (n : Nat)
  | writel (val : Nat) (addr : Nat)
  | prcmu_request_clock (cg_sel : Nat) (enable : Bool) (ret : Int)
  | prcmu_qos_add_requirement (ret : Int)
  | prcmu_qos_remove_requirement
  | prcmu_clock_rate (cg_sel : Nat) (ret : Nat)
  | prcmu_round_clock_rate (cg_sel : Nat) (rate : Nat) (ret : Int)
  | prcmu_set_clock_rate (cg_sel : Nat) (rate : Nat) (ret : Int)
  | dbx500_cpufreq_getfreq (ret : Nat)
  | ops_enable (n : Nat) (ret : Int)
  | ops_disable (n : Nat)
  | ops_set_parent (n : Nat) (parent : Option Nat) (ret : Int)
deriving DecidableEq, Repr

/-- The state the code of `clock.c` works on: the clock nodes, the function-static
counter `requests` of `request_ape_opp100`, the values the external interfaces are going
to return, and the events produced so far (oldest first). -/
structure State where
  clks : Nat → clk
  requests : Nat := 0
  oracle : List Int := []
  log : List Ev := []

/-- The lock reference `clk->mutex` seen as a `void *`. -/
def lockOf (m : Option Nat) : LockPtr :=
  match m with
  | none => LockPtr.NULL
  | some m => LockPtr.mutex m

/-- Append an event to the log. -/
def emit (e : Ev) (s : State) : State :=
  { s with log := s.log ++ [e] }

/-- The store `clk->enabled = v` for node `n`. -/
def set_enabled (n : Nat) (v : Nat) (s : State) : State :=
  { s with clks := fun m => if m = n then { s.clks n with enabled := v } else s.clks m }

/-- The store `clk->parent = parent` for node `n`. -/
def set_parent_field (n : Nat) (parent : Option Nat) (s : State) : State :=
  { s with clks := fun m => if m = n then { s.clks n with parent := parent } else s.clks m }

/-- The store `requests = v` to the function-static counter of `request_ape_opp100`. -/
def set_requests (v : Nat) (s : State) : State :=
  { s with requests := v }

/-- The next return value of an external function of integer result. -/
def next_ret (s : State) : Int := s.oracle.headD 0

/-- The next return value of an external function of `unsigned long` result (32 bits on
the ARM target). -/
def next_ulong (s : State) : Nat := (s.oracle.headD 0 % 4294967296).toNat

/-- Consume one value of the oracle. -/
def pop_oracle (s : State) : State :=
  { s with oracle := s.oracle.tail }

/-! ## External interfaces -/

/-- Modelled from the spec: `requestClock(selector, enable) -> status` of the external
clock-control unit; the body is not in the source tree. -/
def prcmu_request_clock (cg_sel : Nat) (enable : Bool) (s : State) : Int × State :=
  (next_ret s, emit (Ev.prcmu_request_clock cg_sel enable (next_ret s)) (pop_oracle s))

/-- Modelled from the spec: `requestPerformanceFloor(domain, owner, level) -> status`;
the body is not in the source tree. -/
def prcmu_qos_add_requirement (s : State) : Int × State :=
  (next_ret s, emit (Ev.prcmu_qos_add_requirement (next_ret s)) (pop_oracle s))

/-- Modelled from the spec: `releasePerformanceFloor(domain, owner)`; the body is not in
the source tree and the code uses no result of it. -/
def prcmu_qos_remove_requirement (s : State) : State :=
  emit Ev.prcmu_qos_remove_requirement s

/-- Modelled from the spec: `clockRate(selector) -> rate`; the body is not in the source
tree. -/
def prcmu_clock_rate (cg_sel : Nat) (s : State) : Nat × State :=
  (next_ulong s, emit (Ev.prcmu_clock_rate cg_sel (next_ulong s)) (pop_oracle s))

/-- Modelled from the spec: `roundClockRate(selector, rate) -> rate`; the body is not in
the source tree. -/
def prcmu_round_clock_rate (cg_sel : Nat) (rate : Nat) (s : State) : Int × State :=
  (next_ret s, emit (Ev.prcmu_round_clock_rate cg_sel rate (next_ret s)) (pop_oracle s))

/-- Modelled from the spec: `setClockRate(selector, rate) -> status`; the body is not in
the source tree. -/
def prcmu_set_clock_rate (cg_sel : Nat) (rate : Nat) (s : State) : Int × State :=
  (next_ret s, emit (Ev.prcmu_set_clock_rate cg_sel rate (next_ret s)) (pop_oracle s))

/-- Modelled from the spec: the cpufreq query used by `clk_smp_twd_get_rate`; the body is
not in the source tree. -/
def dbx500_cpufreq_getfreq (s : State) : Nat × State :=
  (next_ulong s, emit (Ev.dbx500_cpufreq_getfreq (next_ulong s)) (pop_oracle s))

/-- Modelled from the spec: the register write primitive.  The address is the node's
`io_base` plus the register offset (the mapping `__io_address` is not modelled). -/
def writel (val : Nat) (addr : Nat) (s : State) : State :=
  emit (Ev.writel val addr) s

/-- Modelled from the spec: a `set_parent` operation of a node; no implementation is in
the source tree.  It is an external call that returns a status. -/
def ext_set_parent (n : Nat) (parent : Option Nat) (s : State) : Int × State :=
  (next_ret s, emit (Ev.ops_set_parent n parent (next_ret s)) (pop_oracle s))

/-! ## Locking -/

/-- `__clk_lock(clk, last_lock, &flags)`. -/
def __clk_lock (n : Nat) (last_lock : LockPtr) (s : State) : State :=
  if lockOf (s.clks n).mutex ≠ last_lock then
    match (s.clks n).mutex with
    | none => emit Ev.spin_lock_irqsave s
    | some m => emit (Ev.mutex_lock m) s
  else s

/-- `__clk_unlock(clk, last_lock, flags)`. -/
def __clk_unlock (n : Nat) (last_lock : LockPtr) (s : State) : State :=
  if lockOf (s.clks n).mutex ≠ last_lock then
    match (s.clks n).mutex with
    | none => emit Ev.spin_unlock_irqrestore s
    | some m => emit (Ev.mutex_unlock m) s
  else s

/-! ## PRCMU clock operations -/

/-- `prcmu_clk_enable(clk)`. -/
def prcmu_clk_enable (n : Nat) (s : State) : Int × State :=
  prcmu_request_clock (s.clks n).cg_sel true s

/-- `prcmu_clk_disable(clk)`. -/
def prcmu_clk_disable (n : Nat) (s : State) : State :=
  let r := prcmu_request_clock (s.clks n).cg_sel false s
  if r.1 ≠ 0 then emit (Ev.pr_err n) r.2 else r.2

/-- `request_ape_opp100(enable)`; `requests` is an `unsigned int` (32 bits on the ARM
target), so the post-increment and post-decrement wrap modulo `2^32`. -/
def request_ape_opp100 (enable : Bool) (s : State) : Int × State :=
  if enable then
    let s1 := set_requests ((s.requests + 1) % 4294967296) s
    if s.requests = 0 then prcmu_qos_add_requirement s1 else (0, s1)
  else
    let s1 := set_requests ((s.requests + 4294967296 - 1) % 4294967296) s
    if s.requests = 1 then (0, prcmu_qos_remove_requirement s1) else (0, s1)

/-- `prcmu_opp100_clk_enable(clk)`. -/
def prcmu_opp100_clk_enable (n : Nat) (s : State) : Int × State :=
  let r := request_ape_opp100 true s
  if r.1 ≠ 0 then (r.1, emit (Ev.pr_err n) r.2)
  else prcmu_request_clock (r.2.clks n).cg_sel true r.2

/-- `prcmu_opp100_clk_disable(clk)`. -/
def prcmu_opp100_clk_disable (n : Nat) (s : State) : State :=
  let r := prcmu_request_clock (s.clks n).cg_sel false s
  if r.1 ≠ 0 then emit (Ev.pr_err n) r.2
  else
    let q := request_ape_opp100 false r.2
    if q.1 ≠ 0 then emit (Ev.pr_err n) q.2 else q.2

/-- `prcmu_clk_get_rate(clk)`. -/
def prcmu_clk_get_rate (n : Nat) (s : State) : Nat × State :=
  prcmu_clock_rate (s.clks n).cg_sel s

/-- `prcmu_clk_round_rate(clk, rate)`. -/
def prcmu_clk_round_rate (n : Nat) (rate : Nat) (s : State) : Int × State :=
  prcmu_round_clock_rate (s.clks n).cg_sel rate s

/-- `prcmu_clk_set_rate(clk, rate)`. -/
def prcmu_clk_set_rate (n : Nat) (rate : Nat) (s : State) : Int × State :=
  prcmu_set_clock_rate (s.clks n).cg_sel rate s

/-- `clk_smp_twd_get_rate(clk)`. -/
def clk_smp_twd_get_rate (_n : Nat) (s : State) : Nat × State :=
  let r := dbx500_cpufreq_getfreq s
  (r.1 / 2, r.2)

/-! ## PRCC clock operations -/

/-- `prcc_pclk_enable(clk)`.  The busy-wait on `PRCC_PCKSR` reads a hardware register;
the platform guarantees that the bit shows up, so the loop is modelled as returning. -/
def prcc_pclk_enable (n : Nat) (s : State) : Int × State :=
  (0, writel (s.clks n).cg_sel ((s.clks n).io_base + PRCC_PCKEN) s)

/-- `prcc_pclk_disable(clk)`. -/
def prcc_pclk_disable (n : Nat) (s : State) : State :=
  writel (s.clks n).cg_sel ((s.clks n).io_base + PRCC_PCKDIS) s

/-- `prcc_kclk_enable(clk)`; `enable` and `disable` are `__clk_enable` and
`__clk_disable` at the remaining call depth.  The busy-wait on `PRCC_KCKSR` is modelled
as returning (see `prcc_pclk_enable`). -/
def prcc_kclk_enable (enable : Option Nat → LockPtr → State → Option (Int × State))
    (disable : Option Nat → LockPtr → State → Option State)
    (n : Nat) (s : State) : Option (Int × State) :=
  match enable (s.clks n).clock (lockOf (s.clks n).mutex) s with
  | none => none
  | some (err, s1) =>
    if err ≠ 0 then some (err, s1)
    else
      let s2 := writel (s1.clks n).cg_sel ((s1.clks n).io_base + PRCC_KCKEN) s1
      match disable (s2.clks n).clock (lockOf (s2.clks n).mutex) s2 with
      | none => none
      | some s3 => some (0, s3)

/-- `prcc_kclk_disable(clk)`; `enable` and `disable` are `__clk_enable` and
`__clk_disable` at the remaining call depth. -/
def prcc_kclk_disable (enable : Option Nat → LockPtr → State → Option (Int × State))
    (disable : Option Nat → LockPtr → State → Option State)
    (n : Nat) (s : State) : Option State :=
  match enable (s.clks n).clock (lockOf (s.clks n).mutex) s with
  | none => none
  | some (_, s1) =>
    let s2 := writel (s1.clks n).cg_sel ((s1.clks n).io_base + PRCC_KCKDIS) s1
    disable (s2.clks n).clock (lockOf (s2.clks n).mutex) s2

/-- The indirect call `clk->ops->enable(clk)`. -/
def call_enable (enable : Option Nat → LockPtr → State → Option (Int × State))
    (disable : Option Nat → LockPtr → State → Option State)
    (fn : EnableFn) (n : Nat) (s : State) : Option (Int × State) :=
  match fn with
  | EnableFn.prcmu_clk_enable => some (prcmu_clk_enable n s)
  | EnableFn.prcmu_opp100_clk_enable => some (prcmu_opp100_clk_enable n s)
  | EnableFn.prcc_pclk_enable => some (prcc_pclk_enable n s)
  | EnableFn.prcc_kclk_enable => prcc_kclk_enable enable disable n s

/-- The indirect call `clk->ops->disable(clk)`. -/
def call_disable (enable : Option Nat → LockPtr → State → Option (Int × State))
    (disable : Option Nat → LockPtr → State → Option State)
    (fn : DisableFn) (n : Nat) (s : State) : Option State :=
  match fn with
  | DisableFn.prcmu_clk_disable => some (prcmu_clk_disable n s)
  | DisableFn.prcmu_opp100_clk_disable => some (prcmu_opp100_clk_disable n s)
  | DisableFn.prcc_pclk_disable => some (prcc_pclk_disable n s)
  | DisableFn.prcc_kclk_disable => prcc_kclk_disable enable disable n s

/-- The value of `clk->ops->enable` when `clk->ops != NULL`, else `NULL`. -/
def ops_enable_fn (c : clk) : Option EnableFn :=
  match c.ops with
  | none => none
  | some o => o.enable

/-- The value of `clk->ops->disable` when `clk->ops != NULL`, else `NULL`. -/
def ops_disable_fn (c : clk) : Option DisableFn :=
  match c.ops with
  | none => none
  | some o => o.disable

/-- The value of `clk->ops->get_rate` when `clk->ops != NULL`, else `NULL`. -/
def ops_get_rate_fn (c : clk) : Option GetRateFn :=
  match c.ops with
  | none => none
  | some o => o.get_rate

/-- The value of `clk->ops->round_rate` when `clk->ops != NULL`, else `NULL`. -/
def ops_round_rate_fn (c : clk) : Option RoundRateFn :=
  match c.ops with
  | none => none
  | some o => o.round_rate

/-- The value of `clk->ops->set_rate` when `clk->ops != NULL`, else `NULL`. -/
def ops_set_rate_fn (c : clk) : Option SetRateFn :=
  match c.ops with
  | none => none
  | some o => o.set_rate

/-- The value of `clk->ops->set_parent` when `clk->ops != NULL`, else `NULL`. -/
def ops_set_parent_fn (c : clk) : Option Nat :=
  match c.ops with
  | none => none
  | some o => o.set_parent

/-- The guarded indirect call
`if ((clk->ops != NULL) && (clk->ops->enable != NULL)) err = clk->ops->enable(clk);`
of `__clk_enable`.  When the operation is absent `err` keeps the `0` of the preceding
parent activation.  An invocation is recorded with its return value. -/
def invoke_enable (enable : Option Nat → LockPtr → State → Option (Int × State))
    (disable : Option Nat → LockPtr → State → Option State)
    (n : Nat) (s : State) : Option (Int × State) :=
  match ops_enable_fn (s.clks n) with
  | none => some (0, s)
  | some fn =>
    match call_enable enable disable fn n s with
    | none => none
    | some (err, s1) => some (err, emit (Ev.ops_enable n err) s1)

/-- The guarded indirect call
`if ((clk->ops != NULL) && (clk->ops->disable != NULL)) clk->ops->disable(clk);`
of `__clk_disable`.  An invocation is recorded. -/
def invoke_disable (enable : Option Nat → LockPtr → State → Option (Int × State))
    (disable : Option Nat → LockPtr → State → Option State)
    (n : Nat) (s : State) : Option State :=
  match ops_disable_fn (s.clks n) with
  | none => some s
  | some fn => call_disable enable disable fn n (emit (Ev.ops_disable n) s)

/-! ## Reference-counted enable and disable -/

/-- The tail of `__clk_enable` after the hardware is known to be on:
`clk->enabled++; __clk_unlock(...); return 0;`. -/
def enable_done (n : Nat) (current_lock : LockPtr) (s : State) : Option (Int × State) :=
  some (0, __clk_unlock n current_lock (set_enabled n ((s.clks n).enabled + 1) s))

mutual

/-- `__clk_disable(clk, current_lock)`; the first argument is the remaining call depth. -/
def __clk_disable : Nat → Option Nat → LockPtr → State → Option State
  | 0, _, _, _ => none
  | _ + 1, none, _, s => some s
  | fuel + 1, some n, current_lock, s =>
    let s0 := __clk_lock n current_lock s
    if (s0.clks n).enabled ≠ 0 then
      let s1 := set_enabled n ((s0.clks n).enabled - 1) s0
      if (s1.clks n).enabled = 0 then
        match invoke_disable (__clk_enable fuel) (__clk_disable fuel) n s1 with
        | none => none
        | some s2 =>
          match __clk_disable fuel (s2.clks n).parent (lockOf (s2.clks n).mutex) s2 with
          | none => none
          | some s3 =>
            match __clk_disable fuel (s3.clks n).bus_parent (lockOf (s3.clks n).mutex) s3 with
            | none => none
            | some s4 => some (__clk_unlock n current_lock s4)
      else some (__clk_unlock n current_lock s1)
    else some (__clk_unlock n current_lock s0)

/-- `__clk_enable(clk, current_lock)`; the first argument is the remaining call depth. -/
def __clk_enable : Nat → Option Nat → LockPtr → State → Option (Int × State)
  | 0, _, _, _ => none
  | _ + 1, none, _, s => some (0, s)
  | fuel + 1, some n, current_lock, s =>
    let s0 := __clk_lock n current_lock s
    if (s0.clks n).enabled = 0 then
      match __clk_enable fuel (s0.clks n).bus_parent (lockOf (s0.clks n).mutex) s0 with
      | none => none
      | some (err1, s1) =>
        if err1 ≠ 0 then
          -- bus_parent_error
          some (err1, __clk_unlock n current_lock s1)
        else
          match __clk_enable fuel (s1.clks n).parent (lockOf (s1.clks n).mutex) s1 with
          | none => none
          | some (err2, s2) =>
            if err2 ≠ 0 then
              -- parent_error
              match __clk_disable fuel (s2.clks n).bus_parent (lockOf (s2.clks n).mutex) s2 with
              | none => none
              | some s3 => some (err2, __clk_unlock n current_lock s3)
            else
              match invoke_enable (__clk_enable fuel) (__clk_disable fuel) n s2 with
              | none => none
              | some (err3, s3) =>
                if err3 ≠ 0 then
                  -- enable_error
                  match __clk_disable fuel (s3.clks n).parent (lockOf (s3.clks n).mutex) s3 with
                  | none => none
                  | some s4 =>
                    match __clk_disable fuel (s4.clks n).bus_parent
                        (lockOf (s4.clks n).mutex) s4 with
                    | none => none
                    | some s5 => some (err3, __clk_unlock n current_lock s5)
                else enable_done n current_lock s3
    else enable_done n current_lock s0

end

/-- `clk_enable(clk)`. -/
def clk_enable (fuel : Nat) (c : Option Nat) (s : State) : Option (Int × State) :=
  match c with
  | none => some (-EINVAL, s)
  | some n => __clk_enable fuel (some n) NO_LOCK s

/-- `clk_disable(clk)`. -/
def clk_disable (fuel : Nat) (c : Option Nat) (s : State) : Option State :=
  match c with
  | none => some s
  | some n =>
    let s0 := if (s.clks n).enabled = 0 then emit Ev.WARN_ON s else s
    __clk_disable fuel (some n) NO_LOCK s0

/-! ## Rates -/

/-- The indirect call `clk->ops->get_rate(clk)`. -/
def call_get_rate (fn : GetRateFn) (n : Nat) (s : State) : Nat × State :=
  match fn with
  | GetRateFn.prcmu_clk_get_rate => prcmu_clk_get_rate n s
  | GetRateFn.clk_smp_twd_get_rate => clk_smp_twd_get_rate n s

/-- `__clk_get_rate(clk, current_lock)`; the first argument is the remaining call depth. -/
def __clk_get_rate : Nat → Option Nat → LockPtr → State → Option (Nat × State)
  | 0, _, _, _ => none
  | _ + 1, none, _, s => some (0, s)
  | fuel + 1, some n, current_lock, s =>
    let s0 := __clk_lock n current_lock s
    match ops_get_rate_fn (s0.clks n) with
    | some fn =>
      let r := call_get_rate fn n s0
      some (r.1, __clk_unlock n current_lock r.2)
    | none =>
      if (s0.clks n).rate ≠ 0 then
        some ((s0.clks n).rate, __clk_unlock n current_lock s0)
      else
        match __clk_get_rate fuel (s0.clks n).parent (lockOf (s0.clks n).mutex) s0 with
        | none => none
        | some (rate, s1) => some (rate, __clk_unlock n current_lock s1)

/-- `clk_get_rate(clk)`. -/
def clk_get_rate (fuel : Nat) (c : Option Nat) (s : State) : Option (Nat × State) :=
  match c with
  | none => some (0, s)
  | some n => __clk_get_rate fuel (some n) NO_LOCK s

/-- `clk_round_rate_rec(clk, rate)`; `round` is `__clk_round_rate` at the remaining call
depth. -/
def clk_round_rate_rec (round : Nat → Nat → State → Option (Int × State))
    (c : Option Nat) (rate : Nat) (s : State) : Option (Int × State) :=
  match c with
  | none => some (-EINVAL, s)
  | some n =>
    match (s.clks n).parent with
    | none => some (-EINVAL, s)
    | some p =>
      let s0 := __clk_lock p (lockOf (s.clks n).mutex) s
      match round p rate s0 with
      | none => none
      | some (rounded_rate, s1) =>
        some (rounded_rate, __clk_unlock p (lockOf (s1.clks n).mutex) s1)

/-- The indirect call `clk->ops->round_rate(clk, rate)`; `round` is `__clk_round_rate` at
the remaining call depth. -/
def call_round_rate (round : Nat → Nat → State → Option (Int × State))
    (fn : RoundRateFn) (n : Nat) (rate : Nat) (s : State) : Option (Int × State) :=
  match fn with
  | RoundRateFn.prcmu_clk_round_rate => some (prcmu_clk_round_rate n rate s)
  | RoundRateFn.clk_round_rate_rec => clk_round_rate_rec round (some n) rate s

/-- `__clk_round_rate(clk, rate)`; the first argument is the remaining call depth. -/
def __clk_round_rate : Nat → Nat → Nat → State → Option (Int × State)
  | 0, _, _, _ => none
  | fuel + 1, n, rate, s =>
    match ops_round_rate_fn (s.clks n) with
    | some fn => call_round_rate (__clk_round_rate fuel) fn n rate s
    | none => some (-ENOSYS, s)

/-- `clk_set_rate_rec(clk, rate)`; `set` is `__clk_set_rate` at the remaining call
depth. -/
def clk_set_rate_rec (set : Nat → Nat → State → Option (Int × State))
    (c : Option Nat) (rate : Nat) (s : State) : Option (Int × State) :=
  match c with
  | none => some (-EINVAL, s)
  | some n =>
    match (s.clks n).parent with
    | none => some (-EINVAL, s)
    | some p =>
      let s0 := __clk_lock p (lockOf (s.clks n).mutex) s
      match set p rate s0 with
      | none => none
      | some (err, s1) =>
        some (err, __clk_unlock p (lockOf (s1.clks n).mutex) s1)

/-- The indirect call `clk->ops->set_rate(clk, rate)`; `set` is `__clk_set_rate` at the
remaining call depth. -/
def call_set_rate (set : Nat → Nat → State → Option (Int × State))
    (fn : SetRateFn) (n : Nat) (rate : Nat) (s : State) : Option (Int × State) :=
  match fn with
  | SetRateFn.prcmu_clk_set_rate => some (prcmu_clk_set_rate n rate s)
  | SetRateFn.clk_set_rate_rec => clk_set_rate_rec set (some n) rate s

/-- `__clk_set_rate(clk, rate)`; the first argument is the remaining call depth. -/
def __clk_set_rate : Nat → Nat → Nat → State → Option (Int × State)
  | 0, _, _, _ => none
  | fuel + 1, n, rate, s =>
    match ops_set_rate_fn (s.clks n) with
    | some fn => call_set_rate (__clk_set_rate fuel) fn n rate s
    | none => some (-ENOSYS, s)

/-- `clk_round_rate(clk, rate)`. -/
def clk_round_rate (fuel : Nat) (c : Option Nat) (rate : Nat) (s : State) :
    Option (Int × State) :=
  match c with
  | none => some (-EINVAL, s)
  | some n =>
    let s0 := __clk_lock n NO_LOCK s
    match __clk_round_rate fuel n rate s0 with
    | none => none
    | some (rounded_rate, s1) => some (rounded_rate, __clk_unlock n NO_LOCK s1)

/-- `clk_set_rate(clk, rate)`. -/
def clk_set_rate (fuel : Nat) (c : Option Nat) (rate : Nat) (s : State) :
    Option (Int × State) :=
  match c with
  | none => some (-EINVAL, s)
  | some n =>
    let s0 := __clk_lock n NO_LOCK s
    match __clk_set_rate fuel n rate s0 with
    | none => none
    | some (err, s1) => some (err, __clk_unlock n NO_LOCK s1)

/-! ## Parent selection -/

/-- The scan `for (p = clk->parents; *p != parent; p++) if (*p == NULL) return -EINVAL;`
over the entries that precede the terminating `NULL`: `true` when the loop is left by
its condition (`*p == parent`), `false` when it returns `-EINVAL`.  At the terminating
`NULL` the loop condition is tested first, so the loop is left when `parent` is `NULL`
itself. -/
def scan_parents : List Nat → Option Nat → Bool
  | [], parent => decide (parent = none)
  | q :: rest, parent => if some q = parent then true else scan_parents rest parent

/-- `clk_set_parent(clk, parent)`. -/
def clk_set_parent (fuel : Nat) (c : Option Nat) (parent : Option Nat) (s : State) :
    Option (Int × State) :=
  match c with
  | none => some (-EINVAL, s)
  | some n =>
    match (s.clks n).parents with
    | none => some (-EINVAL, s)
    | some l =>
      if scan_parents l parent = false then some (-EINVAL, s)
      else
        let s0 := __clk_lock n NO_LOCK s
        match ops_set_parent_fn (s0.clks n) with
        | some _ =>
          let r := ext_set_parent n parent s0
          if r.1 ≠ 0 then some (r.1, __clk_unlock n NO_LOCK r.2)
          else some (0, __clk_unlock n NO_LOCK (set_parent_field n parent r.2))
        | none =>
          if (s0.clks n).enabled ≠ 0 then
            match __clk_enable fuel parent (lockOf (s0.clks n).mutex) s0 with
            | none => none
            | some (err, s1) =>
              if err ≠ 0 then some (err, __clk_unlock n NO_LOCK s1)
              else
                match __clk_disable fuel (s1.clks n).parent (lockOf (s1.clks n).mutex) s1 with
                | none => none
                | some s2 => some (0, __clk_unlock n NO_LOCK (set_parent_field n parent s2))
          else some (0, __clk_unlock n NO_LOCK (set_parent_field n parent s0))

/-! ## The operation sets defined in `clock.c` -/

def prcmu_clk_ops : clkops :=
  { enable := some EnableFn.prcmu_clk_enable
    disable := some DisableFn.prcmu_clk_disable
    get_rate := some GetRateFn.prcmu_clk_get_rate }

def prcmu_scalable_clk_ops : clkops :=
  { enable := some EnableFn.prcmu_clk_enable
    disable := some DisableFn.prcmu_clk_disable
    get_rate := some GetRateFn.prcmu_clk_get_rate
    round_rate := some RoundRateFn.prcmu_clk_round_rate
    set_rate := some SetRateFn.prcmu_clk_set_rate }

def prcmu_opp100_clk_ops : clkops :=
  { enable := some EnableFn.prcmu_opp100_clk_enable
    disable := some DisableFn.prcmu_opp100_clk_disable
    get_rate := some GetRateFn.prcmu_clk_get_rate }

def prcc_pclk_ops : clkops :=
  { enable := some EnableFn.prcc_pclk_enable
    disable := some DisableFn.prcc_pclk_disable }

def prcc_kclk_ops : clkops :=
  { enable := some EnableFn.prcc_kclk_enable
    disable := some DisableFn.prcc_kclk_disable }

def prcc_kclk_rec_ops : clkops :=
  { enable := some EnableFn.prcc_kclk_enable
    disable := some DisableFn.prcc_kclk_disable
    round_rate := some RoundRateFn.clk_round_rate_rec
    set_rate := some SetRateFn.clk_set_rate_rec }

def clk_smp_twd_ops : clkops :=
  { get_rate := some GetRateFn.clk_smp_twd_get_rate }

/-! ## Topology -/

/-- The tree is acyclic: `rank` strictly decreases along every `parent`, `bus_parent`
and `clock` reference. -/
def Ranked (t : Nat → clk) (rank : Nat → Nat) : Prop :=
  ∀ n p, ((t n).parent = some p ∨ (t n).bus_parent = some p ∨ (t n).clock = some p) →
    rank p < rank n

/-- The functional-parent chains are acyclic: `rank` strictly decreases along every
`parent` reference. -/
def ParentRanked (t : Nat → clk) (rank : Nat → Nat) : Prop :=
  ∀ n p, (t n).parent = some p → rank p < rank n

/-- Node `b` is node `a` or an ancestor of `a` through `parent`, `bus_parent` and `clock`
references. -/
inductive Reach (t : Nat → clk) (a : Nat) : Nat → Prop where
  | here : Reach t a a
  | next {n p : Nat} : Reach t a n →
      ((t n).parent = some p ∨ (t n).bus_parent = some p ∨ (t n).clock = some p) →
      Reach t a p

/-- Rank of an optional node: `NULL` has rank `0`, node `n` has rank `rank n + 1`. -/
def orank (rank : Nat → Nat) : Option Nat → Nat
  | none => 0
  | some n => rank n + 1

/-! ## Relations between states used by the proofs -/

/-- A node with its `enabled` field blanked: what is left is the topology and the
configuration of the node. -/
def erase_enabled (c : clk) : clk := { c with enabled := 0 }

/-- The tables `t` and `t'` differ in `enabled` fields only. -/
def SameTopo (t t' : Nat → clk) : Prop := ∀ m, erase_enabled (t' m) = erase_enabled (t m)

/-- The node whose operation an event records, for the two events that record the
invocation of a node's own `enable` or `disable` operation. -/
def ev_node : Ev → Option Nat
  | Ev.ops_enable n _ => some n
  | Ev.ops_disable n => some n
  | _ => none

/-- The log of `s'` extends the log of `s`. -/
def LogExt (s s' : State) : Prop := ∃ new, s'.log = s.log ++ new

/-- The log of `s'` extends the log of `s` by events that record operations of nodes of
rank below `k` only. -/
def LogBelow (rank : Nat → Nat) (k : Nat) (s s' : State) : Prop :=
  ∃ new, s'.log = s.log ++ new ∧ ∀ e ∈ new, orank rank (ev_node e) ≤ k

/-- The event `e` was produced between `s` and `s'`. -/
def Emitted (s s' : State) (e : Ev) : Prop := ∃ pre post, s'.log = s.log ++ pre ++ e :: post

/-- Every node of rank at least `k` is the same in `t` and `t'`. -/
def Frame (rank : Nat → Nat) (k : Nat) (t t' : Nat → clk) : Prop :=
  ∀ m, k ≤ rank m → t' m = t m

/-- The state `s'` comes from `s` by changing `enabled` fields of nodes of rank below `k`
and by producing events of nodes of rank below `k`. -/
def Evolves (rank : Nat → Nat) (k : Nat) (s s' : State) : Prop :=
  SameTopo s.clks s'.clks ∧ Frame rank k s.clks s'.clks ∧ LogBelow rank k s s'

/-- The state `s'` has the table of `s` and a log that extends the log of `s` by events of
nodes of rank below `k`. -/
def Keeps (rank : Nat → Nat) (k : Nat) (s s' : State) : Prop :=
  s'.clks = s.clks ∧ LogBelow rank k s s'

/-- The event records an invocation of the `enable` operation of node `n`. -/
def is_enable_of (n : Nat) : Ev → Bool
  | Ev.ops_enable m _ => decide (m = n)
  | _ => false

/-- Number of invocations of the `enable` operation of node `n` recorded in `l`. -/
def enable_calls (n : Nat) (l : List Ev) : Nat := l.countP (is_enable_of n)

/-- Between `s` and `s'` the `enable` operation of node `n` was invoked `j` times. -/
def Calls (n j : Nat) (s s' : State) : Prop :=
  ∃ new, s'.log = s.log ++ new ∧ enable_calls n new = j

/-- Number of invocations of its own `enable` operation that a successful
`__clk_enable` of a node in state `c` makes: one on the `0 → 1` transition of a node that
has the operation, none otherwise. -/
def own_calls (c : clk) : Nat :=
  if c.enabled = 0 ∧ (ops_enable_fn c).isSome then 1 else 0

/-- Disabling `c` in any state whose table is `t'` gives back the table `t`. -/
def Undo (rank : Nat → Nat) (f : Nat) (c : Option Nat) (t t' : Nat → clk) : Prop :=
  ∀ L s2, s2.clks = t' →
    ∃ s3, __clk_disable f c L s2 = some s3 ∧ s3.clks = t ∧ LogBelow rank (orank rank c) s2 s3

/-- What `__clk_enable f c L s` does: it returns; a failure leaves the table as it was,
happens only on a disabled node and returns the value an enable operation returned; a
success adds one to the count of `c`, invokes the own operation of `c` on the `0 → 1`
transition only, and can be undone by `__clk_disable`. -/
def EnableSpec (rank : Nat → Nat) (f : Nat) (c : Option Nat) (L : LockPtr) (s : State) : Prop :=
  ∃ r s', __clk_enable f c L s = some (r, s') ∧ Evolves rank (orank rank c) s s' ∧
    (r ≠ 0 → s'.clks = s.clks ∧ (∀ n, c = some n → (s.clks n).enabled = 0) ∧
      ∃ m, Emitted s s' (Ev.ops_enable m r)) ∧
    (r = 0 → (∀ n, c = some n → (s'.clks n).enabled = (s.clks n).enabled + 1 ∧
        Calls n (own_calls (s.clks n)) s s') ∧
      Undo rank f c s.clks s'.clks)

/-- What `__clk_disable f c L s` does: it returns, takes one from the count of `c` unless
it is `0` already, and changes `enabled` fields of `c` and of nodes of lower rank only. -/
def DisableSpec (rank : Nat → Nat) (f : Nat) (c : Option Nat) (L : LockPtr) (s : State) : Prop :=
  ∃ s', __clk_disable f c L s = some s' ∧ Evolves rank (orank rank c) s s' ∧
    ∀ n, c = some n → (s'.clks n).enabled = (s.clks n).enabled - 1

/-! ## Call sequences and example trees -/

/-- `clk_enable(clk)` called `k` times in a row on node `n`. -/
def enable_times (fuel n : Nat) : Nat → State → Option State
  | 0, s => some s
  | k + 1, s =>
    match clk_enable fuel (some n) s with
    | none => none
    | some (_, s1) => enable_times fuel n k s1

/-- `clk_disable(clk)` called `k` times in a row on node `n`. -/
def disable_times (fuel n : Nat) : Nat → State → Option State
  | 0, s => some s
  | k + 1, s =>
    match clk_disable fuel (some n) s with
    | none => none
    | some s1 => disable_times fuel n k s1

/-- The event comes from `__clk_lock` or `__clk_unlock`. -/
def is_lock_event : Ev → Bool
  | Ev.spin_lock_irqsave => true
  | Ev.spin_unlock_irqrestore => true
  | Ev.mutex_lock _ => true
  | Ev.mutex_unlock _ => true
  | _ => false

/-- An example tree: node `0` (a gated peripheral clock) has the functional parent `1`
and the bus parent `2`; node `1` is a gated kernel clock with the functional parent `2`
and the auxiliary clock `3`; node `2` is a root of fixed rate; node `3` is a PRCMU clock
of the full-performance profile with a mutex of its own. -/
def demo_clks : Nat → clk := fun n =>
  if n = 0 then { name := "leaf", ops := some prcc_pclk_ops, parent := some 1,
                  bus_parent := some 2, cg_sel := 1, io_base := 4096 }
  else if n = 1 then { name := "mid", ops := some prcc_kclk_ops, parent := some 2,
                       clock := some 3, cg_sel := 2, io_base := 4096 }
  else if n = 2 then { name := "root", rate := 26000000 }
  else if n = 3 then { name := "aux", ops := some prcmu_opp100_clk_ops, mutex := some 7,
                       cg_sel := 5 }
  else {}

/-- A rank function for `demo_clks`. -/
def demo_rank : Nat → Nat := fun n => if n = 0 then 2 else if n = 1 then 1 else 0

/-- The example tree with every node disabled and every external call succeeding. -/
def demo_state : State := { clks := demo_clks }

/-- The example tree with an external interface that accepts the performance-floor
request and then refuses the clock request of node `3` with `-5`. -/
def demo_fail_state : State := { clks := demo_clks, oracle := [0, -5] }

/-- The reference definition of `getRate` (after the specification): walk the
`parent` chain from the node and stop at the first node that has a dynamic rate
operation (the result of the operation is the rate) or a non-zero `rate`; the rate is `0`
for `NULL` and when the chain ends.  `bus_parent` does not occur.  The first argument
bounds the length of the walk. -/
def get_rate_ref : Nat → State → Option Nat → Option Nat
  | 0, _, _ => none
  | _ + 1, _, none => some 0
  | fuel + 1, s, some n =>
    match ops_get_rate_fn (s.clks n) with
    | some fn => some (call_get_rate fn n s).1
    | none =>
      if (s.clks n).rate ≠ 0 then some (s.clks n).rate
      else get_rate_ref fuel s (s.clks n).parent

/-- The state `s` with the `bus_parent` reference of every node `m` replaced by `bp m`. -/
def with_bus_parents (bp : Nat → Option Nat) (s : State) : State :=
  { s with clks := fun m => { s.clks m with bus_parent := bp m } }

/-- An example of a clock with a parent selection: node `0` is enabled, has the
functional parent `1` and the parent candidates `1`, `2` and `3`; node `1` is an enabled
root; node `2` is a disabled clock derived from node `1`; node `3` is a disabled root.
It is the tree in which every count is `0` after one `clk_enable` of node `0`. -/
def mux_clks : Nat → clk := fun n =>
  if n = 0 then { name := "mux", parent := some 1, parents := some [1, 2, 3], enabled := 1 }
  else if n = 1 then { name := "pll", enabled := 1 }
  else if n = 2 then { name := "pll_div2", parent := some 1 }
  else if n = 3 then { name := "osc" }
  else {}

/-- A rank function for `mux_clks`. -/
def mux_rank : Nat → Nat := fun n => if n = 0 then 2 else if n = 2 then 1 else 0

/-- The example `mux_clks` with every external call succeeding. -/
def mux_state : State := { clks := mux_clks }

/-- The event is a request of the performance floor. -/
def is_floor_add : Ev → Bool
  | Ev.prcmu_qos_add_requirement _ => true
  | _ => false

/-- The event is a release of the performance floor. -/
def is_floor_remove : Ev → Bool
  | Ev.prcmu_qos_remove_requirement => true
  | _ => false

/-- Number of requests of the performance floor recorded in `l`. -/
def floor_adds (l : List Ev) : Nat := l.countP is_floor_add

/-- Number of releases of the performance floor recorded in `l`. -/
def floor_removes (l : List Ev) : Nat := l.countP is_floor_remove

/-- Every external call that is still to come succeeds (returns `0`). -/
def all_succeed (s : State) : Prop := ∀ x ∈ s.oracle, x = 0

/-- The node has an operation that touches the performance floor: the `enable` or the
`disable` operation of the full-performance profile. -/
def uses_floor (c : clk) : Prop :=
  ops_enable_fn c = some EnableFn.prcmu_opp100_clk_enable ∨
  ops_disable_fn c = some DisableFn.prcmu_opp100_clk_disable

/-- Neither `c` nor any ancestor of `c` has an operation that touches the performance
floor. -/
def FloorFree (t : Nat → clk) (c : Option Nat) : Prop :=
  ∀ x m, c = some x → Reach t x m → ¬ uses_floor (t m)

/-- Node `n` uses the full-performance profile `prcmu_opp100_clk_ops`, and no node it
depends on (through `parent`, `bus_parent` and `clock`) touches the performance floor. -/
def profile_node (t : Nat → clk) (n : Nat) : Prop :=
  (t n).ops = some prcmu_opp100_clk_ops ∧
  FloorFree t (t n).parent ∧ FloorFree t (t n).bus_parent ∧ FloorFree t (t n).clock

/-- Between `s` and `s'` the performance floor was requested `i` times and released `j`
times. -/
def FloorLog (i j : Nat) (s s' : State) : Prop :=
  ∃ l, s'.log = s.log ++ l ∧ floor_adds l = i ∧ floor_removes l = j

/-- Between `s` and `s'` the requester count did not change, the performance floor was
neither requested nor released, and every external call still to come succeeds. -/
def QuietS (s s' : State) : Prop :=
  s'.requests = s.requests ∧ all_succeed s' ∧ FloorLog 0 0 s s'

/-- Two disabled clocks of the full-performance profile, nodes `0` and `1`, behind a
common gated bus clock, node `2`. -/
def floor_clks : Nat → clk := fun n =>
  if n = 0 then { name := "sga", ops := some prcmu_opp100_clk_ops, cg_sel := 11,
                  bus_parent := some 2 }
  else if n = 1 then { name := "b2r2", ops := some prcmu_opp100_clk_ops, cg_sel := 12,
                       bus_parent := some 2 }
  else if n = 2 then { name := "per6", ops := some prcc_pclk_ops, cg_sel := 1, io_base := 4096 }
  else {}

/-- A rank function for `floor_clks`. -/
def floor_rank : Nat → Nat := fun n => if n = 2 then 0 else 1

/-- The example `floor_clks` with a requester count of `0` and every external call
succeeding. -/
def floor_state : State := { clks := floor_clks }

/-! ## Diagnostics and the registration of the performance floor -/

/-- The event is a diagnostic of the code: a `WARN_ON` that fired or a `pr_err`
message. -/
def is_diagnostic : Ev → Bool
  | Ev.WARN_ON => true
  | Ev.pr_err _ => true
  | _ => false

/-- Modelled from the spec: the effect of one event on the registration of the floor
requirement with the external interface.  A request that returns `0` registers the
requirement, a request that returns an error registers nothing, a release removes the
registration. -/
def floor_step (reg : Bool) : Ev → Bool
  | Ev.prcmu_qos_add_requirement r => if r = 0 then true else reg
  | Ev.prcmu_qos_remove_requirement => false
  | _ => reg

/-- Whether the floor requirement is registered with the external interface after the
events of `l`, none being registered at the start. -/
def floor_registered (l : List Ev) : Bool := l.foldl floor_step false

/-- The example `floor_clks` with a requester count of `0` and an external interface
that refuses the next call with `-5` and accepts every later call. -/
def floor_refused_state : State := { clks := floor_clks, oracle := [-5] }

/-- The example `floor_clks` with a requester count of `0` and an external interface
that accepts the next call, refuses the one after it with `-5` and accepts every later
call. -/
def floor_clock_refused_state : State := { clks := floor_clks, oracle := [0, -5] }

/-- The performance-floor invariant: the floor requirement is registered with the
external interface exactly when the requester count is not `0`. -/
def FloorInv (s : State) : Prop := floor_registered s.log = true ↔ s.requests ≠ 0

/-! ## Invocations of the disable operation -/

/-- The event records an invocation of the `disable` operation of node `n`. -/
def is_disable_of (n : Nat) : Ev → Bool
  | Ev.ops_disable m => decide (m = n)
  | _ => false

/-- Number of invocations of the `disable` operation of node `n` recorded in `l`. -/
def disable_calls (n : Nat) (l : List Ev) : Nat := l.countP (is_disable_of n)

/-- Between `s` and `s'` the `disable` operation of node `n` was invoked `j` times. -/
def DCalls (n j : Nat) (s s' : State) : Prop :=
  ∃ new, s'.log = s.log ++ new ∧ disable_calls n new = j

/-! ## Return paths of enable and disable -/

/-- The ways in which `__clk_enable` of node `n` returns at call depth `f + 1`, one
constructor for each return statement of the function. -/
inductive EnableRun (f n : Nat) (L : LockPtr) (s : State) : Int → State → Prop
  | already (h : (s.clks n).enabled ≠ 0) :
      EnableRun f n L s 0
        (__clk_unlock n L (set_enabled n ((s.clks n).enabled + 1) (__clk_lock n L s)))
  | bus_parent_error (h : (s.clks n).enabled = 0) (r1 : Int) (s1 : State)
      (h1 : __clk_enable f (s.clks n).bus_parent (lockOf (s.clks n).mutex)
        (__clk_lock n L s) = some (r1, s1))
      (hr1 : r1 ≠ 0) :
      EnableRun f n L s r1 (__clk_unlock n L s1)
  | parent_error (h : (s.clks n).enabled = 0) (s1 : State)
      (h1 : __clk_enable f (s.clks n).bus_parent (lockOf (s.clks n).mutex)
        (__clk_lock n L s) = some (0, s1))
      (r2 : Int) (s2 : State)
      (h2 : __clk_enable f (s1.clks n).parent (lockOf (s1.clks n).mutex) s1 = some (r2, s2))
      (hr2 : r2 ≠ 0) (s3 : State)
      (h3 : __clk_disable f (s2.clks n).bus_parent (lockOf (s2.clks n).mutex) s2 = some s3) :
      EnableRun f n L s r2 (__clk_unlock n L s3)
  | enable_error (h : (s.clks n).enabled = 0) (s1 : State)
      (h1 : __clk_enable f (s.clks n).bus_parent (lockOf (s.clks n).mutex)
        (__clk_lock n L s) = some (0, s1))
      (s2 : State)
      (h2 : __clk_enable f (s1.clks n).parent (lockOf (s1.clks n).mutex) s1 = some (0, s2))
      (r3 : Int) (s3 : State)
      (h3 : invoke_enable (__clk_enable f) (__clk_disable f) n s2 = some (r3, s3))
      (hr3 : r3 ≠ 0) (s4 : State)
      (h4 : __clk_disable f (s3.clks n).parent (lockOf (s3.clks n).mutex) s3 = some s4)
      (s5 : State)
      (h5 : __clk_disable f (s4.clks n).bus_parent (lockOf (s4.clks n).mutex) s4 = some s5) :
      EnableRun f n L s r3 (__clk_unlock n L s5)
  | done (h : (s.clks n).enabled = 0) (s1 : State)
      (h1 : __clk_enable f (s.clks n).bus_parent (lockOf (s.clks n).mutex)
        (__clk_lock n L s) = some (0, s1))
      (s2 : State)
      (h2 : __clk_enable f (s1.clks n).parent (lockOf (s1.clks n).mutex) s1 = some (0, s2))
      (s3 : State)
      (h3 : invoke_enable (__clk_enable f) (__clk_disable f) n s2 = some (0, s3)) :
      EnableRun f n L s 0 (__clk_unlock n L (set_enabled n ((s3.clks n).enabled + 1) s3))

/-- The ways in which `__clk_disable` of node `n` returns at call depth `f + 1`. -/
inductive DisableRun (f n : Nat) (L : LockPtr) (s : State) : State → Prop
  | idle (h : (s.clks n).enabled = 0) :
      DisableRun f n L s (__clk_unlock n L (__clk_lock n L s))
  | more (h : (s.clks n).enabled ≠ 0) (h1 : (s.clks n).enabled - 1 ≠ 0) :
      DisableRun f n L s
        (__clk_unlock n L (set_enabled n ((s.clks n).enabled - 1) (__clk_lock n L s)))
  | last (h : (s.clks n).enabled = 1) (s2 : State)
      (h2 : invoke_disable (__clk_enable f) (__clk_disable f) n
        (set_enabled n 0 (__clk_lock n L s)) = some s2)
      (s3 : State)
      (h3 : __clk_disable f (s2.clks n).parent (lockOf (s2.clks n).mutex) s2 = some s3)
      (s4 : State)
      (h4 : __clk_disable f (s3.clks n).bus_parent (lockOf (s3.clks n).mutex) s3 = some s4) :
      DisableRun f n L s (__clk_unlock n L s4)

/-! ## Held locks -/

/-- The event by which the lock behind the lock reference `clk->mutex` is acquired: the
mutex, or the spin lock `clk_spin_lock` when the reference is `NULL`. -/
def acquire_event (m : Option Nat) : Ev :=
  match m with
  | none => Ev.spin_lock_irqsave
  | some m => Ev.mutex_lock m

/-- The event by which the lock behind the lock reference `clk->mutex` is released. -/
def release_event (m : Option Nat) : Ev :=
  match m with
  | none => Ev.spin_unlock_irqrestore
  | some m => Ev.mutex_unlock m

/-- The events of `__clk_lock(clk, last_lock)`: the lock of the node is acquired exactly
when the lock reference `clk->mutex` is not the pointer `last_lock`. -/
def acquire_events (c : clk) (L : LockPtr) : List Ev :=
  if lockOf c.mutex ≠ L then [acquire_event c.mutex] else []

/-- The events of `__clk_unlock(clk, last_lock)`. -/
def release_events (c : clk) (L : LockPtr) : List Ev :=
  if lockOf c.mutex ≠ L then [release_event c.mutex] else []

/-- The effect of one event on the collection of held locks (single-threaded model): an
acquisition adds the lock, a release takes one occurrence of it away. -/
def held_step (held : List LockPtr) : Ev → List LockPtr
  | Ev.spin_lock_irqsave => LockPtr.clk_spin_lock :: held
  | Ev.spin_unlock_irqrestore => held.erase LockPtr.clk_spin_lock
  | Ev.mutex_lock m => LockPtr.mutex m :: held
  | Ev.mutex_unlock m => held.erase (LockPtr.mutex m)
  | _ => held

/-- The held locks after the events of `l`, `held` being held before. -/
def held_after (held : List LockPtr) (l : List Ev) : List LockPtr := l.foldl held_step held

/-- The events of `l` leave the held locks as they were, whatever was held before. -/
def LockNeutral (l : List Ev) : Prop := ∀ held, held_after held l = held

/-- The events of `l` respect the lock elision under the lock reference `L` of the caller.
Every lock event of `l` belongs to a bracket: the acquisition of the lock behind a lock
reference `m` that is not `L`, events that respect the elision under `m`, and the release
of that lock.  So no lock is acquired through a reference equal to the reference under
which it is acquired, and every lock acquired is released. -/
inductive Nested : LockPtr → List Ev → Prop where
  | nil (L : LockPtr) : Nested L []
  | quiet (L : LockPtr) (e : Ev) (rest : List Ev) (he : is_lock_event e = false)
      (hr : Nested L rest) : Nested L (e :: rest)
  | bracket (L : LockPtr) (m : Option Nat) (inner rest : List Ev) (hne : lockOf m ≠ L)
      (hi : Nested (lockOf m) inner) (hr : Nested L rest) :
      Nested L (acquire_event m :: (inner ++ release_event m :: rest))

/-- Between `s` and `s'` events were produced that respect the lock elision under the
lock reference `L`. -/
def Nests (L : LockPtr) (s s' : State) : Prop := ∃ new, s'.log = s.log ++ new ∧ Nested L new

/-- The lock discipline of a call on a node in state `c` with the caller's lock `L`.  The
new events are the acquisition of the node's lock exactly when `clk->mutex` is not `L`,
then events `mid`, then the matching release.  The events `mid` respect the elision under
`clk->mutex`: none of them acquires a lock through the reference `clk->mutex` again.  The
new events together respect the elision under `L`: when `clk->mutex` is `L` the node's
lock is not acquired by the call.  The events `mid` and the new events together leave the
held locks as they were. -/
def LockShape (c : clk) (L : LockPtr) (s s' : State) : Prop :=
  ∃ mid, s'.log = s.log ++ (acquire_events c L ++ mid ++ release_events c L) ∧
    Nested (lockOf c.mutex) mid ∧
    Nested L (acquire_events c L ++ mid ++ release_events c L) ∧
    LockNeutral mid ∧ LockNeutral (acquire_events c L ++ mid ++ release_events c L)

/-- An example of a chain with alternating lock references: node `0` has no mutex, its
functional parent `1` has the mutex `5`, and the functional parent `2` of node `1` has no
mutex again. -/
def chain_clks : Nat → clk := fun n =>
  if n = 0 then { name := "leaf", parent := some 1 }
  else if n = 1 then { name := "mid", parent := some 2, mutex := some 5 }
  else if n = 2 then { name := "root" }
  else {}

/-- The example `chain_clks` with every node disabled. -/
def chain_state : State := { clks := chain_clks }

/-! ## Liveness and accounting of references -/

/-- The liveness invariant of a clock tree: every node with a count above `0` has its
functional parent and its bus parent (when present) at a count above `0`. -/
def Live (t : Nat → clk) : Prop :=
  ∀ n, (t n).enabled ≠ 0 →
    (∀ p, (t n).parent = some p → (t p).enabled ≠ 0) ∧
    (∀ b, (t n).bus_parent = some b → (t b).enabled ≠ 0)

/-- Node `b` is a transitive ancestor of node `a` through `parent` and `bus_parent`
references. -/
inductive Ancestor (t : Nat → clk) (a : Nat) : Nat → Prop where
  | base {p : Nat} (h : (t a).parent = some p ∨ (t a).bus_parent = some p) : Ancestor t a p
  | step {m p : Nat} (hm : Ancestor t a m)
      (h : (t m).parent = some p ∨ (t m).bus_parent = some p) : Ancestor t a p

/-- Number of enabled nodes of `V` that name `m` as functional parent plus the number of
enabled nodes of `V` that name `m` as bus parent. -/
def child_refs (t : Nat → clk) (V : List Nat) (m : Nat) : Nat :=
  V.countP (fun n => decide ((t n).enabled ≠ 0 ∧ (t n).parent = some m)) +
  V.countP (fun n => decide ((t n).enabled ≠ 0 ∧ (t n).bus_parent = some m))

/-- The accounting invariant of a clock tree whose nodes are listed in `V`: the count of
every node is the number `refs` of its outstanding references from outside plus the
number of enabled nodes that name it as functional parent plus the number that name it as
bus parent; every enabled node is a node of `V`. -/
def Accounted (t : Nat → clk) (refs : Nat → Nat) (V : List Nat) : Prop :=
  (∀ m, (t m).enabled = refs m + child_refs t V m) ∧ ∀ n, (t n).enabled ≠ 0 → n ∈ V

/-- The functional parent and the bus parent of every node of `V` are nodes of `V`. -/
def Closed (t : Nat → clk) (V : List Nat) : Prop :=
  ∀ n ∈ V, (∀ p, (t n).parent = some p → p ∈ V) ∧ (∀ b, (t n).bus_parent = some b → b ∈ V)

/-- One more reference to `c`. -/
def add_ref (c : Option Nat) (refs : Nat → Nat) : Nat → Nat :=
  fun m => if c = some m then refs m + 1 else refs m

/-- One reference to `c` less. -/
def drop_ref (c : Option Nat) (refs : Nat → Nat) : Nat → Nat :=
  fun m => if c = some m then refs m - 1 else refs m

/-- A call of a driver: `clk_enable(clk)` or `clk_disable(clk)` on node `n`. -/
inductive Call where
  | enable (n : Nat)
  | disable (n : Nat)
deriving DecidableEq, Repr

/-- The node a call is made on. -/
def Call.node : Call → Nat
  | Call.enable n => n
  | Call.disable n => n

/-- The calls of `calls` made one after the other.  The second component counts for every
node the outstanding references of callers: the successful `clk_enable` calls minus the
`clk_disable` calls. -/
def run_calls (fuel : Nat) : List Call → State → (Nat → Nat) → Option (State × (Nat → Nat))
  | [], s, refs => some (s, refs)
  | Call.enable n :: rest, s, refs =>
    match clk_enable fuel (some n) s with
    | none => none
    | some (r, s1) => run_calls fuel rest s1 (if r = 0 then add_ref (some n) refs else refs)
  | Call.disable n :: rest, s, refs =>
    match clk_disable fuel (some n) s with
    | none => none
    | some s1 => run_calls fuel rest s1 (drop_ref (some n) refs)

/-- No node is disabled by callers more often than callers have successfully enabled it:
every `clk_disable` of the sequence finds an outstanding reference of a caller. -/
def disciplined (fuel : Nat) : List Call → State → (Nat → Nat) → Bool
  | [], _, _ => true
  | Call.enable n :: rest, s, refs =>
    match clk_enable fuel (some n) s with
    | none => true
    | some (r, s1) => disciplined fuel rest s1 (if r = 0 then add_ref (some n) refs else refs)
  | Call.disable n :: rest, s, refs =>
    decide (refs n ≠ 0) &&
    match clk_disable fuel (some n) s with
    | none => true
    | some s1 => disciplined fuel rest s1 (drop_ref (some n) refs)

/-! ## Basic facts -/

@[simp] theorem clks_emit (e : Ev) (s : State) : (emit e s).clks = s.clks := rfl
@[simp] theorem log_emit (e : Ev) (s : State) : (emit e s).log = s.log ++ [e] := rfl
@[simp] theorem requests_emit (e : Ev) (s : State) : (emit e s).requests = s.requests := rfl
@[simp] theorem oracle_emit (e : Ev) (s : State) : (emit e s).oracle = s.oracle := rfl
@[simp] theorem clks_pop_oracle (s : State) : (pop_oracle s).clks = s.clks := rfl
@[simp] theorem log_pop_oracle (s : State) : (pop_oracle s).log = s.log := rfl
@[simp] theorem requests_pop_oracle (s : State) : (pop_oracle s).requests = s.requests := rfl
@[simp] theorem oracle_pop_oracle (s : State) : (pop_oracle s).oracle = s.oracle.tail := rfl
@[simp] theorem clks_set_requests (v : Nat) (s : State) : (set_requests v s).clks = s.clks := rfl
@[simp] theorem log_set_requests (v : Nat) (s : State) : (set_requests v s).log = s.log := rfl
@[simp] theorem oracle_set_requests (v : Nat) (s : State) :
    (set_requests v s).oracle = s.oracle := rfl
@[simp] theorem requests_set_requests (v : Nat) (s : State) :
    (set_requests v s).requests = v := rfl
@[simp] theorem log_set_enabled (n v : Nat) (s : State) : (set_enabled n v s).log = s.log := rfl
@[simp] theorem oracle_set_enabled (n v : Nat) (s : State) :
    (set_enabled n v s).oracle = s.oracle := rfl
@[simp] theorem requests_set_enabled (n v : Nat) (s : State) :
    (set_enabled n v s).requests = s.requests := rfl
@[simp] theorem clks_set_enabled_self (n v : Nat) (s : State) :
    (set_enabled n v s).clks n = { s.clks n with enabled := v } := by
  simp [set_enabled]
theorem clks_set_enabled_other (n v : Nat) (s : State) (m : Nat) (h : m ≠ n) :
    (set_enabled n v s).clks m = s.clks m := by
  simp [set_enabled, h]

@[simp] theorem clks_lock (n : Nat) (L : LockPtr) (s : State) : (__clk_lock n L s).clks = s.clks := by
  unfold __clk_lock
  split
  · split <;> rfl
  · rfl

@[simp] theorem clks_unlock (n : Nat) (L : LockPtr) (s : State) :
    (__clk_unlock n L s).clks = s.clks := by
  unfold __clk_unlock
  split
  · split <;> rfl
  · rfl

theorem LogExt.reflX (s : State) : LogExt s s := ⟨[], by simp⟩

theorem LogExt.transX {a b c : State} (h1 : LogExt a b) (h2 : LogExt b c) : LogExt a c := by
  obtain ⟨x, hx⟩ := h1
  obtain ⟨y, hy⟩ := h2
  exact ⟨x ++ y, by rw [hy, hx, List.append_assoc]⟩

theorem LogBelow.extB {rank : Nat → Nat} {k : Nat} {a b : State} (h : LogBelow rank k a b) :
    LogExt a b := by
  obtain ⟨x, hx, -⟩ := h
  exact ⟨x, hx⟩

theorem LogBelow.reflB (rank : Nat → Nat) (k : Nat) (s : State) : LogBelow rank k s s :=
  ⟨[], by simp, by simp⟩

theorem LogBelow.transB {rank : Nat → Nat} {k : Nat} {a b c : State}
    (h1 : LogBelow rank k a b) (h2 : LogBelow rank k b c) : LogBelow rank k a c := by
  obtain ⟨x, hx, hxb⟩ := h1
  obtain ⟨y, hy, hyb⟩ := h2
  refine ⟨x ++ y, by rw [hy, hx, List.append_assoc], ?_⟩
  intro e he
  rcases List.mem_append.mp he with h | h
  · exact hxb e h
  · exact hyb e h

theorem LogBelow.monoB {rank : Nat → Nat} {k k' : Nat} {a b : State}
    (h : LogBelow rank k a b) (hk : k ≤ k') : LogBelow rank k' a b := by
  obtain ⟨x, hx, hxb⟩ := h
  exact ⟨x, hx, fun e he => le_trans (hxb e he) hk⟩

theorem LogBelow.of_log_eqB {rank : Nat → Nat} {k : Nat} {a b : State} (h : b.log = a.log) :
    LogBelow rank k a b := ⟨[], by simp [h], by simp⟩

theorem logBelow_emit (rank : Nat → Nat) (k : Nat) (e : Ev) (s : State)
    (h : orank rank (ev_node e) ≤ k) : LogBelow rank k s (emit e s) :=
  ⟨[e], rfl, fun x hx => by rw [List.mem_singleton.mp hx]; exact h⟩

theorem logBelow_lock (rank : Nat → Nat) (k n : Nat) (L : LockPtr) (s : State) :
    LogBelow rank k s (__clk_lock n L s) := by
  unfold __clk_lock
  split
  · split <;> exact logBelow_emit _ _ _ _ (Nat.zero_le _)
  · exact LogBelow.reflB _ _ s

theorem logBelow_unlock (rank : Nat → Nat) (k n : Nat) (L : LockPtr) (s : State) :
    LogBelow rank k s (__clk_unlock n L s) := by
  unfold __clk_unlock
  split
  · split <;> exact logBelow_emit _ _ _ _ (Nat.zero_le _)
  · exact LogBelow.reflB _ _ s

theorem Emitted.of_emitM (e : Ev) (s : State) : Emitted s (emit e s) e := ⟨[], [], by simp⟩

theorem Emitted.monoM {a b c d : State} {e : Ev} (h1 : LogExt a b) (h : Emitted b c e)
    (h2 : LogExt c d) : Emitted a d e := by
  obtain ⟨x, hx⟩ := h1
  obtain ⟨pre, post, hp⟩ := h
  obtain ⟨y, hy⟩ := h2
  exact ⟨x ++ pre, post ++ y, by rw [hy, hp, hx]; simp⟩

theorem SameTopo.reflT (t : Nat → clk) : SameTopo t t := fun _ => rfl

theorem SameTopo.transT {a b c : Nat → clk} (h1 : SameTopo a b) (h2 : SameTopo b c) :
    SameTopo a c := fun m => (h2 m).trans (h1 m)

theorem SameTopo.symmT {a b : Nat → clk} (h : SameTopo a b) : SameTopo b a := fun m => (h m).symm

theorem SameTopo.of_eqT {a b : Nat → clk} (h : b = a) : SameTopo a b := by
  subst h; exact SameTopo.reflT _

theorem SameTopo.parentT {a b : Nat → clk} (h : SameTopo a b) (m : Nat) :
    (b m).parent = (a m).parent :=
  show (erase_enabled (b m)).parent = (erase_enabled (a m)).parent from congrArg clk.parent (h m)

theorem SameTopo.bus_parentT {a b : Nat → clk} (h : SameTopo a b) (m : Nat) :
    (b m).bus_parent = (a m).bus_parent :=
  show (erase_enabled (b m)).bus_parent = (erase_enabled (a m)).bus_parent from
    congrArg clk.bus_parent (h m)

theorem SameTopo.clockT {a b : Nat → clk} (h : SameTopo a b) (m : Nat) :
    (b m).clock = (a m).clock :=
  show (erase_enabled (b m)).clock = (erase_enabled (a m)).clock from congrArg clk.clock (h m)

theorem SameTopo.mutexT {a b : Nat → clk} (h : SameTopo a b) (m : Nat) :
    (b m).mutex = (a m).mutex :=
  show (erase_enabled (b m)).mutex = (erase_enabled (a m)).mutex from congrArg clk.mutex (h m)

theorem SameTopo.opsT {a b : Nat → clk} (h : SameTopo a b) (m : Nat) :
    (b m).ops = (a m).ops :=
  show (erase_enabled (b m)).ops = (erase_enabled (a m)).ops from congrArg clk.ops (h m)

theorem SameTopo.rankedT {a b : Nat → clk} (h : SameTopo a b) {rank : Nat → Nat}
    (hr : Ranked a rank) : Ranked b rank := by
  intro n p hp
  rw [h.parentT, h.bus_parentT, h.clockT] at hp
  exact hr n p hp

theorem sameTopo_set_enabled (n v : Nat) (s : State) :
    SameTopo s.clks (set_enabled n v s).clks := by
  intro m
  by_cases h : m = n
  · subst h; simp [erase_enabled]
  · rw [clks_set_enabled_other n v s m h]

theorem Frame.reflF (rank : Nat → Nat) (k : Nat) (t : Nat → clk) : Frame rank k t t :=
  fun _ _ => rfl

theorem Frame.transF {rank : Nat → Nat} {k : Nat} {a b c : Nat → clk}
    (h1 : Frame rank k a b) (h2 : Frame rank k b c) : Frame rank k a c :=
  fun m hm => (h2 m hm).trans (h1 m hm)

theorem Frame.monoF {rank : Nat → Nat} {k k' : Nat} {a b : Nat → clk}
    (h : Frame rank k a b) (hk : k ≤ k') : Frame rank k' a b :=
  fun m hm => h m (le_trans hk hm)

theorem Evolves.reflE (rank : Nat → Nat) (k : Nat) (s : State) : Evolves rank k s s :=
  ⟨SameTopo.reflT _, Frame.reflF _ _ _, LogBelow.reflB _ _ _⟩

theorem Evolves.transE {rank : Nat → Nat} {k : Nat} {a b c : State}
    (h1 : Evolves rank k a b) (h2 : Evolves rank k b c) : Evolves rank k a c :=
  ⟨h1.1.transT h2.1, h1.2.1.transF h2.2.1, h1.2.2.transB h2.2.2⟩

theorem Evolves.monoE {rank : Nat → Nat} {k k' : Nat} {a b : State}
    (h : Evolves rank k a b) (hk : k ≤ k') : Evolves rank k' a b :=
  ⟨h.1, h.2.1.monoF hk, h.2.2.monoB hk⟩

theorem Evolves.of_clks_eqE {rank : Nat → Nat} {k : Nat} {a b : State}
    (h : b.clks = a.clks) (hl : LogBelow rank k a b) : Evolves rank k a b :=
  ⟨SameTopo.of_eqT h, fun m _ => by rw [h], hl⟩

theorem Evolves.extE {rank : Nat → Nat} {k : Nat} {a b : State} (h : Evolves rank k a b) :
    LogExt a b := h.2.2.extB

theorem evolves_lock (rank : Nat → Nat) (k n : Nat) (L : LockPtr) (s : State) :
    Evolves rank k s (__clk_lock n L s) :=
  Evolves.of_clks_eqE (clks_lock n L s) (logBelow_lock rank k n L s)

theorem evolves_unlock (rank : Nat → Nat) (k n : Nat) (L : LockPtr) (s : State) :
    Evolves rank k s (__clk_unlock n L s) :=
  Evolves.of_clks_eqE (clks_unlock n L s) (logBelow_unlock rank k n L s)

theorem evolves_set_enabled (rank : Nat → Nat) (n v : Nat) (s : State) :
    Evolves rank (rank n + 1) s (set_enabled n v s) := by
  refine ⟨sameTopo_set_enabled n v s, ?_, LogBelow.of_log_eqB rfl⟩
  intro m hm
  exact clks_set_enabled_other n v s m (by intro h; subst h; omega)

theorem Keeps.reflK (rank : Nat → Nat) (k : Nat) (s : State) : Keeps rank k s s :=
  ⟨rfl, LogBelow.reflB _ _ s⟩

theorem Keeps.transK {rank : Nat → Nat} {k : Nat} {a b c : State}
    (h1 : Keeps rank k a b) (h2 : Keeps rank k b c) : Keeps rank k a c :=
  ⟨h2.1.trans h1.1, h1.2.transB h2.2⟩

theorem Keeps.monoK {rank : Nat → Nat} {k k' : Nat} {a b : State}
    (h : Keeps rank k a b) (hk : k ≤ k') : Keeps rank k' a b :=
  ⟨h.1, h.2.monoB hk⟩

theorem Keeps.evolvesK {rank : Nat → Nat} {k : Nat} {a b : State} (h : Keeps rank k a b) :
    Evolves rank k a b := Evolves.of_clks_eqE h.1 h.2

theorem keeps_emit (rank : Nat → Nat) (k : Nat) (e : Ev) (s : State)
    (h : ev_node e = none) : Keeps rank k s (emit e s) :=
  ⟨rfl, logBelow_emit rank k e s (by rw [h]; exact Nat.zero_le _)⟩

theorem keeps_lock (rank : Nat → Nat) (k n : Nat) (L : LockPtr) (s : State) :
    Keeps rank k s (__clk_lock n L s) :=
  ⟨clks_lock n L s, logBelow_lock rank k n L s⟩

theorem keeps_unlock (rank : Nat → Nat) (k n : Nat) (L : LockPtr) (s : State) :
    Keeps rank k s (__clk_unlock n L s) :=
  ⟨clks_unlock n L s, logBelow_unlock rank k n L s⟩

theorem keeps_pop_emit (rank : Nat → Nat) (k : Nat) (e : Ev) (s : State)
    (h : ev_node e = none) : Keeps rank k s (emit e (pop_oracle s)) :=
  ⟨rfl, ⟨[e], rfl, fun x hx => by
    rw [List.mem_singleton.mp hx, h]; exact Nat.zero_le _⟩⟩

theorem keeps_set_requests (rank : Nat → Nat) (k v : Nat) (s : State) :
    Keeps rank k s (set_requests v s) :=
  ⟨clks_set_requests v s, LogBelow.of_log_eqB (log_set_requests v s)⟩

theorem keeps_prcmu_request_clock (rank : Nat → Nat) (k g : Nat) (e : Bool) (s : State) :
    Keeps rank k s (prcmu_request_clock g e s).2 := keeps_pop_emit rank k _ s rfl

theorem keeps_request_ape_opp100 (rank : Nat → Nat) (k : Nat) (e : Bool) (s : State) :
    Keeps rank k s (request_ape_opp100 e s).2 := by
  unfold request_ape_opp100
  cases e
  · simp only [Bool.false_eq_true, if_false]
    split
    · exact (keeps_set_requests rank k _ s).transK (keeps_emit rank k _ _ rfl)
    · exact keeps_set_requests rank k _ s
  · simp only [if_true]
    split
    · exact (keeps_set_requests rank k _ s).transK (keeps_pop_emit rank k _ _ rfl)
    · exact keeps_set_requests rank k _ s

theorem keeps_prcmu_clk_enable (rank : Nat → Nat) (k n : Nat) (s : State) :
    Keeps rank k s (prcmu_clk_enable n s).2 :=
  keeps_prcmu_request_clock rank k _ _ s

theorem keeps_prcmu_clk_disable (rank : Nat → Nat) (k n : Nat) (s : State) :
    Keeps rank k s (prcmu_clk_disable n s) := by
  unfold prcmu_clk_disable
  have h := keeps_prcmu_request_clock rank k (s.clks n).cg_sel false s
  dsimp only
  split
  · exact h.transK (keeps_emit rank k _ _ rfl)
  · exact h

theorem keeps_prcmu_opp100_clk_enable (rank : Nat → Nat) (k n : Nat) (s : State) :
    Keeps rank k s (prcmu_opp100_clk_enable n s).2 := by
  unfold prcmu_opp100_clk_enable
  have h := keeps_request_ape_opp100 rank k true s
  dsimp only
  split
  · exact h.transK (keeps_emit rank k _ _ rfl)
  · exact h.transK (keeps_prcmu_request_clock rank k _ _ _)

theorem keeps_prcmu_opp100_clk_disable (rank : Nat → Nat) (k n : Nat) (s : State) :
    Keeps rank k s (prcmu_opp100_clk_disable n s) := by
  unfold prcmu_opp100_clk_disable
  have h := keeps_prcmu_request_clock rank k (s.clks n).cg_sel false s
  dsimp only
  split
  · exact h.transK (keeps_emit rank k _ _ rfl)
  · have h2 := keeps_request_ape_opp100 rank k false
      (prcmu_request_clock (s.clks n).cg_sel false s).2
    split
    · exact (h.transK h2).transK (keeps_emit rank k _ _ rfl)
    · exact h.transK h2

theorem keeps_writel (rank : Nat → Nat) (k v a : Nat) (s : State) :
    Keeps rank k s (writel v a s) := keeps_emit rank k _ s rfl

theorem keeps_prcc_pclk_enable (rank : Nat → Nat) (k n : Nat) (s : State) :
    Keeps rank k s (prcc_pclk_enable n s).2 := keeps_writel rank k _ _ s

theorem keeps_prcc_pclk_disable (rank : Nat → Nat) (k n : Nat) (s : State) :
    Keeps rank k s (prcc_pclk_disable n s) := keeps_writel rank k _ _ s


theorem Calls.reflC (n : Nat) (s : State) : Calls n 0 s s := ⟨[], by simp, rfl⟩

theorem Calls.transC {n j j' : Nat} {a b c : State} (h1 : Calls n j a b) (h2 : Calls n j' b c) :
    Calls n (j + j') a c := by
  obtain ⟨x, hx, hxc⟩ := h1
  obtain ⟨y, hy, hyc⟩ := h2
  refine ⟨x ++ y, by rw [hy, hx, List.append_assoc], ?_⟩
  unfold enable_calls at *
  rw [List.countP_append, hxc, hyc]

theorem Calls.of_belowC {rank : Nat → Nat} {k n : Nat} {a b : State} (h : LogBelow rank k a b)
    (hk : k ≤ rank n) : Calls n 0 a b := by
  obtain ⟨x, hx, hxb⟩ := h
  refine ⟨x, hx, ?_⟩
  unfold enable_calls
  rw [List.countP_eq_zero]
  intro e he hen
  have hb := hxb e he
  cases e with
  | ops_enable m r =>
    have hm : m = n := by simpa [is_enable_of] using hen
    subst hm
    simp only [ev_node, orank] at hb
    omega
  | _ => simp [is_enable_of] at hen

theorem Calls.of_emit_enableC (n : Nat) (r : Int) (s : State) :
    Calls n 1 s (emit (Ev.ops_enable n r) s) :=
  ⟨[Ev.ops_enable n r], rfl, by simp [enable_calls, is_enable_of]⟩

theorem Calls.castC {n j j' : Nat} {a b : State} (h : Calls n j a b) (e : j = j') :
    Calls n j' a b := e ▸ h
/-! ## The enable / disable recursion -/

theorem orank_le_of_edge {t : Nat → clk} {rank : Nat → Nat} (hR : Ranked t rank) (n : Nat)
    (c : Option Nat)
    (h : (t n).parent = c ∨ (t n).bus_parent = c ∨ (t n).clock = c) : orank rank c ≤ rank n := by
  cases c with
  | none => exact Nat.zero_le _
  | some p => exact hR n p h

theorem disable_zero (rank : Nat → Nat) (k f : Nat) (c : Option Nat) (L : LockPtr) (s : State)
    (h : ∀ n, c = some n → (s.clks n).enabled = 0) :
    ∃ s', __clk_disable (f + 1) c L s = some s' ∧ Keeps rank k s s' := by
  cases c with
  | none => exact ⟨s, by simp [__clk_disable], Keeps.reflK _ _ s⟩
  | some n =>
    refine ⟨__clk_unlock n L (__clk_lock n L s), ?_,
      (keeps_lock rank k n L s).transK (keeps_unlock rank k n L _)⟩
    have h0 : (s.clks n).enabled = 0 := h n rfl
    simp [__clk_disable, h0]

theorem call_enable_keeps (rank : Nat → Nat) (f : Nat)
    (hE : ∀ c L s, Ranked s.clks rank → orank rank c < f → EnableSpec rank f c L s)
    (fn : EnableFn) (n : Nat) (s : State) (hR : Ranked s.clks rank) (hn : rank n < f) :
    ∃ r s', call_enable (__clk_enable f) (__clk_disable f) fn n s = some (r, s') ∧
      Keeps rank (rank n) s s' := by
  cases fn with
  | prcmu_clk_enable => exact ⟨_, _, rfl, keeps_prcmu_clk_enable rank _ n s⟩
  | prcmu_opp100_clk_enable => exact ⟨_, _, rfl, keeps_prcmu_opp100_clk_enable rank _ n s⟩
  | prcc_pclk_enable => exact ⟨_, _, rfl, keeps_prcc_pclk_enable rank _ n s⟩
  | prcc_kclk_enable =>
    have hle : orank rank (s.clks n).clock ≤ rank n :=
      orank_le_of_edge hR n _ (Or.inr (Or.inr rfl))
    obtain ⟨r, s1, h1, hev, hfail, hok⟩ :=
      hE (s.clks n).clock (lockOf (s.clks n).mutex) s hR (lt_of_le_of_lt hle hn)
    have hw := keeps_writel rank (rank n) (s1.clks n).cg_sel ((s1.clks n).io_base + PRCC_KCKEN) s1
    by_cases hr : r = 0
    · obtain ⟨-, hundo⟩ := hok hr
      have hc : ((writel (s1.clks n).cg_sel ((s1.clks n).io_base + PRCC_KCKEN) s1).clks n).clock
          = (s.clks n).clock := by
        rw [hw.1]; exact hev.1.clockT n
      obtain ⟨s3, h3, h3c, h3l⟩ := hundo
        (lockOf ((writel (s1.clks n).cg_sel ((s1.clks n).io_base + PRCC_KCKEN) s1).clks n).mutex)
        (writel (s1.clks n).cg_sel ((s1.clks n).io_base + PRCC_KCKEN) s1) hw.1
      refine ⟨0, s3, ?_, h3c, ((hev.2.2.monoB hle).transB hw.2).transB (h3l.monoB hle)⟩
      simp only [call_enable, prcc_kclk_enable, h1, hr, ne_eq, not_true_eq_false, if_false, hc, h3]
    · obtain ⟨hcl, -, -⟩ := hfail hr
      refine ⟨r, s1, ?_, hcl, hev.2.2.monoB hle⟩
      simp only [call_enable, prcc_kclk_enable, h1, hr, ne_eq, not_false_eq_true, if_true]

theorem call_disable_keeps (rank : Nat → Nat) (f : Nat)
    (hE : ∀ c L s, Ranked s.clks rank → orank rank c < f → EnableSpec rank f c L s)
    (fn : DisableFn) (n : Nat) (s : State) (hR : Ranked s.clks rank) (hn : rank n < f) :
    ∃ s', call_disable (__clk_enable f) (__clk_disable f) fn n s = some s' ∧
      Keeps rank (rank n) s s' := by
  cases fn with
  | prcmu_clk_disable => exact ⟨_, rfl, keeps_prcmu_clk_disable rank _ n s⟩
  | prcmu_opp100_clk_disable => exact ⟨_, rfl, keeps_prcmu_opp100_clk_disable rank _ n s⟩
  | prcc_pclk_disable => exact ⟨_, rfl, keeps_prcc_pclk_disable rank _ n s⟩
  | prcc_kclk_disable =>
    have hle : orank rank (s.clks n).clock ≤ rank n :=
      orank_le_of_edge hR n _ (Or.inr (Or.inr rfl))
    obtain ⟨r, s1, h1, hev, hfail, hok⟩ :=
      hE (s.clks n).clock (lockOf (s.clks n).mutex) s hR (lt_of_le_of_lt hle hn)
    have hw := keeps_writel rank (rank n) (s1.clks n).cg_sel ((s1.clks n).io_base + PRCC_KCKDIS) s1
    have hc : ((writel (s1.clks n).cg_sel ((s1.clks n).io_base + PRCC_KCKDIS) s1).clks n).clock
        = (s.clks n).clock := by
      rw [hw.1]; exact hev.1.clockT n
    by_cases hr : r = 0
    · obtain ⟨-, hundo⟩ := hok hr
      obtain ⟨s3, h3, h3c, h3l⟩ := hundo
        (lockOf ((writel (s1.clks n).cg_sel ((s1.clks n).io_base + PRCC_KCKDIS) s1).clks n).mutex)
        (writel (s1.clks n).cg_sel ((s1.clks n).io_base + PRCC_KCKDIS) s1) hw.1
      refine ⟨s3, ?_, h3c, ((hev.2.2.monoB hle).transB hw.2).transB (h3l.monoB hle)⟩
      simp only [call_disable, prcc_kclk_disable, h1, hc, h3]
    · obtain ⟨hcl, hz, -⟩ := hfail hr
      obtain ⟨f', rfl⟩ : ∃ f', f = f' + 1 := ⟨f - 1, by omega⟩
      obtain ⟨s3, h3, h3k⟩ := disable_zero rank (rank n) f' (s.clks n).clock
        (lockOf ((writel (s1.clks n).cg_sel ((s1.clks n).io_base + PRCC_KCKDIS) s1).clks n).mutex)
        (writel (s1.clks n).cg_sel ((s1.clks n).io_base + PRCC_KCKDIS) s1)
        (fun k hk' => by rw [hw.1, hcl]; exact hz k hk')
      refine ⟨s3, ?_, (Keeps.transK ⟨hcl, hev.2.2.monoB hle⟩ hw).transK h3k⟩
      simp only [call_disable, prcc_kclk_disable, h1, hc, h3]

theorem invoke_enable_keeps (rank : Nat → Nat) (f : Nat)
    (hE : ∀ c L s, Ranked s.clks rank → orank rank c < f → EnableSpec rank f c L s)
    (n : Nat) (s : State) (hR : Ranked s.clks rank) (hn : rank n < f) :
    ∃ r s', invoke_enable (__clk_enable f) (__clk_disable f) n s = some (r, s') ∧
      Keeps rank (rank n + 1) s s' ∧ (r ≠ 0 → Emitted s s' (Ev.ops_enable n r)) ∧
      Calls n (if (ops_enable_fn (s.clks n)).isSome then 1 else 0) s s' := by
  unfold invoke_enable
  cases ops_enable_fn (s.clks n) with
  | none => exact ⟨0, s, rfl, Keeps.reflK _ _ s, fun h => absurd rfl h, Calls.reflC n s⟩
  | some fn =>
    obtain ⟨r, s1, h1, hk⟩ := call_enable_keeps rank f hE fn n s hR hn
    have he : Keeps rank (rank n + 1) s1 (emit (Ev.ops_enable n r) s1) :=
      ⟨rfl, logBelow_emit rank (rank n + 1) (Ev.ops_enable n r) s1 (le_refl _)⟩
    refine ⟨r, emit (Ev.ops_enable n r) s1, by simp only [h1],
      (hk.monoK (Nat.le_succ _)).transK he, ?_, ?_⟩
    · intro _
      exact Emitted.monoM hk.2.extB (Emitted.of_emitM _ s1) (LogExt.reflX _)
    · exact ((Calls.of_belowC hk.2 (le_refl _)).transC (Calls.of_emit_enableC n r s1)).castC
        (by simp)

theorem invoke_disable_keeps (rank : Nat → Nat) (f : Nat)
    (hE : ∀ c L s, Ranked s.clks rank → orank rank c < f → EnableSpec rank f c L s)
    (n : Nat) (s : State) (hR : Ranked s.clks rank) (hn : rank n < f) :
    ∃ s', invoke_disable (__clk_enable f) (__clk_disable f) n s = some s' ∧
      Keeps rank (rank n + 1) s s' := by
  unfold invoke_disable
  cases ops_disable_fn (s.clks n) with
  | none => exact ⟨s, rfl, Keeps.reflK _ _ s⟩
  | some fn =>
    obtain ⟨s1, h1, hk⟩ := call_disable_keeps rank f hE fn n (emit (Ev.ops_disable n) s)
      hR hn
    have he : Keeps rank (rank n + 1) s (emit (Ev.ops_disable n) s) :=
      ⟨rfl, logBelow_emit rank (rank n + 1) (Ev.ops_disable n) s (le_refl _)⟩
    exact ⟨s1, h1, he.transK (hk.monoK (Nat.le_succ _))⟩

theorem table_restore (n v : Nat) (t t2 : Nat → clk)
    (h : t2 = fun m => if m = n then { t n with enabled := v } else t m) :
    (fun m => if m = n then { t2 n with enabled := (t n).enabled } else t2 m) = t := by
  funext m
  by_cases hm : m = n
  · subst hm; simp [h]
  · simp [h, hm]

theorem undo_enabled (rank : Nat → Nat) (f n : Nat) (t t' : Nat → clk)
    (hc : (t n).enabled ≠ 0)
    (ht : t' = fun m => if m = n then { t n with enabled := (t n).enabled + 1 } else t m) :
    Undo rank (f + 1) (some n) t t' := by
  intro L s2 h2
  refine ⟨__clk_unlock n L (set_enabled n (t n).enabled (__clk_lock n L s2)), ?_, ?_,
    (logBelow_lock _ _ n L s2).transB
      ((LogBelow.of_log_eqB rfl).transB (logBelow_unlock _ _ n L _))⟩
  · have e1 : (s2.clks n).enabled = (t n).enabled + 1 := by rw [h2, ht]; simp
    simp [__clk_disable, e1, hc]
  · simp only [clks_unlock, set_enabled, clks_lock, h2]
    exact table_restore n _ t t' ht

theorem undo_fresh (rank : Nat → Nat) (f : Nat)
    (hE : ∀ c L s, Ranked s.clks rank → orank rank c < f → EnableSpec rank f c L s)
    (n : Nat) (t0 t1 t2 t' : Nat → clk) (hR : Ranked t0 rank) (hn : rank n < f)
    (h01 : SameTopo t0 t1) (h12 : SameTopo t1 t2) (hz : (t2 n).enabled = 0)
    (hu1 : Undo rank f (t0 n).bus_parent t0 t1) (hu2 : Undo rank f (t0 n).parent t1 t2)
    (ht : t' = fun m => if m = n then { t2 n with enabled := 1 } else t2 m) :
    Undo rank (f + 1) (some n) t0 t' := by
  intro L s2 h2
  have e1 : (s2.clks n).enabled = 1 := by rw [h2, ht]; simp
  have htab : (set_enabled n 0 (__clk_lock n L s2)).clks = t2 := by
    simp only [set_enabled, clks_lock, h2]
    have := table_restore n 1 t2 t' ht
    rwa [hz] at this
  have hR2 : Ranked t2 rank := (h01.transT h12).rankedT hR
  have hbus : orank rank (t0 n).bus_parent ≤ rank n + 1 :=
    le_trans (orank_le_of_edge hR n _ (Or.inr (Or.inl rfl))) (Nat.le_succ _)
  have hpar : orank rank (t0 n).parent ≤ rank n + 1 :=
    le_trans (orank_le_of_edge hR n _ (Or.inl rfl)) (Nat.le_succ _)
  obtain ⟨sa, ha, hka⟩ := invoke_disable_keeps rank f hE n (set_enabled n 0 (__clk_lock n L s2))
    (by rw [htab]; exact hR2) hn
  have hsa : sa.clks = t2 := hka.1.trans htab
  have hpa : (sa.clks n).parent = (t0 n).parent := by
    rw [hsa]; exact (h01.transT h12).parentT n
  obtain ⟨sb, hb, hsb, hlb⟩ := hu2 (lockOf (sa.clks n).mutex) sa hsa
  have hpb : (sb.clks n).bus_parent = (t0 n).bus_parent := by
    rw [hsb]; exact h01.bus_parentT n
  obtain ⟨sc, hc, hsc, hlc⟩ := hu1 (lockOf (sb.clks n).mutex) sb hsb
  refine ⟨__clk_unlock n L sc, ?_, by simp [hsc], ?_⟩
  · have e0 : ((set_enabled n 0 (__clk_lock n L s2)).clks n).enabled = 0 := by simp
    simp only [__clk_disable, clks_lock, e1, ne_eq, one_ne_zero, not_false_eq_true, if_true,
      Nat.sub_self, e0]
    simp only [ha, hpa, hb, hpb, hc]
  · exact (((logBelow_lock _ _ n L s2).transB (LogBelow.of_log_eqB rfl)).transB hka.2).transB
      (((hlb.monoB hpar).transB (hlc.monoB hbus)).transB (logBelow_unlock _ _ n L sc))

theorem disable_step (rank : Nat → Nat) (f : Nat)
    (hE : ∀ c L s, Ranked s.clks rank → orank rank c < f → EnableSpec rank f c L s)
    (hD : ∀ c L s, Ranked s.clks rank → orank rank c < f → DisableSpec rank f c L s)
    (n : Nat) (L : LockPtr) (s : State) (hR : Ranked s.clks rank) (hn : rank n < f) :
    DisableSpec rank (f + 1) (some n) L s := by
  unfold DisableSpec
  by_cases hc : (s.clks n).enabled = 0
  · refine ⟨__clk_unlock n L (__clk_lock n L s), by simp [__clk_disable, hc],
      (evolves_lock _ _ n L s).transE (evolves_unlock _ _ n L _), ?_⟩
    intro m hm
    cases hm
    simp [hc]
  · have ev1 : Evolves rank (orank rank (some n)) s
        (set_enabled n ((s.clks n).enabled - 1) (__clk_lock n L s)) :=
      (evolves_lock _ _ n L s).transE (evolves_set_enabled rank n _ _)
    by_cases hc1 : (s.clks n).enabled - 1 = 0
    · have hR1 : Ranked (set_enabled n ((s.clks n).enabled - 1) (__clk_lock n L s)).clks rank :=
        ev1.1.rankedT hR
      obtain ⟨sa, ha, hka⟩ := invoke_disable_keeps rank f hE n _ hR1 hn
      have hRa : Ranked sa.clks rank := by rw [hka.1]; exact hR1
      obtain ⟨sb, hb, hevb, -⟩ := hD (sa.clks n).parent (lockOf (sa.clks n).mutex) sa hRa
        (lt_of_le_of_lt (orank_le_of_edge hRa n _ (Or.inl rfl)) hn)
      have hRb : Ranked sb.clks rank := hevb.1.rankedT hRa
      obtain ⟨sc, hc', hevc, -⟩ := hD (sb.clks n).bus_parent (lockOf (sb.clks n).mutex) sb hRb
        (lt_of_le_of_lt (orank_le_of_edge hRb n _ (Or.inr (Or.inl rfl))) hn)
      have hna : sa.clks n = (set_enabled n ((s.clks n).enabled - 1) (__clk_lock n L s)).clks n := by
        rw [hka.1]
      have hnb : sb.clks n = sa.clks n :=
        hevb.2.1 n (orank_le_of_edge hRa n _ (Or.inl rfl))
      have hnc : sc.clks n = sb.clks n :=
        hevc.2.1 n (orank_le_of_edge hRb n _ (Or.inr (Or.inl rfl)))
      refine ⟨__clk_unlock n L sc, ?_, ?_, ?_⟩
      rotate_left 2
      · intro m hm
        cases hm
        simp [hnc, hnb, hna]
      · simp only [__clk_disable, clks_lock, ne_eq, hc, not_false_eq_true, if_true,
          clks_set_enabled_self, hc1]
        rw [hc1] at ha
        simp only [ha, hb, hc']
      · have le1 : orank rank (sa.clks n).parent ≤ orank rank (some n) :=
          le_trans (orank_le_of_edge hRa n _ (Or.inl rfl)) (Nat.le_succ _)
        have le2 : orank rank (sb.clks n).bus_parent ≤ orank rank (some n) :=
          le_trans (orank_le_of_edge hRb n _ (Or.inr (Or.inl rfl))) (Nat.le_succ _)
        exact (((ev1.transE hka.evolvesK).transE (hevb.monoE le1)).transE
          (hevc.monoE le2)).transE (evolves_unlock _ _ n L sc)
    · refine ⟨__clk_unlock n L (set_enabled n ((s.clks n).enabled - 1) (__clk_lock n L s)),
        ?_, ev1.transE (evolves_unlock _ _ n L _), ?_⟩
      · simp only [__clk_disable, clks_lock, ne_eq, hc, not_false_eq_true, if_true,
          clks_set_enabled_self, hc1, if_false]
      · intro m hm
        cases hm
        simp

theorem enable_step (rank : Nat → Nat) (f : Nat)
    (hE : ∀ c L s, Ranked s.clks rank → orank rank c < f → EnableSpec rank f c L s)
    (n : Nat) (L : LockPtr) (s : State) (hR : Ranked s.clks rank) (hn : rank n < f) :
    EnableSpec rank (f + 1) (some n) L s := by
  unfold EnableSpec
  by_cases hc : (s.clks n).enabled = 0
  swap
  · -- the node is already enabled
    refine ⟨0, __clk_unlock n L (set_enabled n ((s.clks n).enabled + 1) (__clk_lock n L s)),
      ?_, ?_, ?_, ?_⟩
    · simp [__clk_enable, hc, enable_done]
    · exact ((evolves_lock _ _ n L s).transE (evolves_set_enabled rank n _ _)).transE
        (evolves_unlock _ _ n L _)
    · intro h; exact absurd rfl h
    · intro _
      refine ⟨?_, undo_enabled rank f n s.clks _ hc ?_⟩
      · intro m hm
        cases hm
        refine ⟨by simp, ?_⟩
        have hl : LogBelow rank 0 s
            (__clk_unlock n L (set_enabled n ((s.clks n).enabled + 1) (__clk_lock n L s))) :=
          ((logBelow_lock rank 0 n L s).transB (LogBelow.of_log_eqB rfl)).transB
            (logBelow_unlock rank 0 n L _)
        exact (Calls.of_belowC hl (Nat.zero_le _)).castC (by simp [own_calls, hc])
      · simp [set_enabled]
  · -- the node is disabled: bus parent, parent, own operation
    have hR0 : Ranked (__clk_lock n L s).clks rank := by rw [clks_lock]; exact hR
    have hbus : orank rank (s.clks n).bus_parent ≤ rank n :=
      orank_le_of_edge hR n _ (Or.inr (Or.inl rfl))
    have hpar : orank rank (s.clks n).parent ≤ rank n :=
      orank_le_of_edge hR n _ (Or.inl rfl)
    have hbus' := le_trans hbus (Nat.le_succ _)
    have hpar' := le_trans hpar (Nat.le_succ _)
    obtain ⟨r1, s1, h1, ev1, hf1, hs1⟩ := hE (s.clks n).bus_parent (lockOf (s.clks n).mutex)
      (__clk_lock n L s) hR0 (lt_of_le_of_lt hbus hn)
    simp only [clks_lock] at hf1 hs1
    replace ev1 : Evolves rank (orank rank (s.clks n).bus_parent) s s1 :=
      (evolves_lock _ _ n L s).transE ev1
    replace hf1 : r1 ≠ 0 → s1.clks = s.clks ∧ ∃ m, Emitted s s1 (Ev.ops_enable m r1) := by
      intro h
      obtain ⟨a, -, m, hm⟩ := hf1 h
      exact ⟨a, m, Emitted.monoM (logBelow_lock rank 0 n L s).extB hm (LogExt.reflX _)⟩
    have hn1 : s1.clks n = s.clks n := ev1.2.1 n hbus
    have K : ∀ k, orank rank (some n) ≤ k ↔ rank n + 1 ≤ k := fun _ => Iff.rfl
    by_cases hr1 : r1 = 0
    swap
    · -- bus_parent_error
      obtain ⟨hcl, m, hem⟩ := hf1 hr1
      refine ⟨r1, __clk_unlock n L s1, ?_, ?_, ?_, ?_⟩
      · simp only [__clk_enable, clks_lock, hc, if_true, h1, ne_eq, hr1, not_false_eq_true]
      · exact Evolves.of_clks_eqE (by simp [hcl])
          ((ev1.2.2.monoB hbus').transB (logBelow_unlock _ _ n L s1))
      · intro _
        exact ⟨by simp [hcl], fun k hk => by cases hk; exact hc, m,
          Emitted.monoM (LogExt.reflX _) hem (logBelow_unlock rank 0 n L s1).extB⟩
      · intro h; exact absurd h hr1
    · subst hr1
      obtain ⟨-, hu1⟩ := hs1 rfl
      have hR1 : Ranked s1.clks rank := ev1.1.rankedT hR
      have hp1 : (s1.clks n).parent = (s.clks n).parent := by rw [hn1]
      have hm1 : (s1.clks n).mutex = (s.clks n).mutex := by rw [hn1]
      obtain ⟨r2, s2, h2, ev2, hf2, hs2⟩ := hE (s.clks n).parent (lockOf (s.clks n).mutex)
        s1 hR1 (lt_of_le_of_lt hpar hn)
      have hn2 : s2.clks n = s.clks n := (ev2.2.1 n hpar).trans hn1
      have l02 : LogBelow rank (rank n + 1) s s2 :=
        (ev1.2.2.monoB hbus').transB (ev2.2.2.monoB hpar')
      by_cases hr2 : r2 = 0
      swap
      · -- parent_error
        obtain ⟨hcl, -, m, hem⟩ := hf2 hr2
        obtain ⟨s3, h3, h3c, h3l⟩ := hu1 (lockOf (s.clks n).mutex) s2 hcl
        refine ⟨r2, __clk_unlock n L s3, ?_, ?_, ?_, ?_⟩
        · simp only [__clk_enable, clks_lock, hc, if_true, h1, ne_eq, not_true_eq_false,
            if_false, hp1, hm1, h2, hr2, not_false_eq_true, hn2, h3]
        · exact Evolves.of_clks_eqE (by simp [h3c])
            ((l02.transB (h3l.monoB hbus')).transB (logBelow_unlock _ _ n L s3))
        · intro _
          exact ⟨by simp [h3c], fun k hk => by cases hk; exact hc, m,
            Emitted.monoM ev1.extE hem (h3l.extB.transX (logBelow_unlock rank 0 n L s3).extB)⟩
        · intro h; exact absurd h hr2
      · subst hr2
        obtain ⟨-, hu2⟩ := hs2 rfl
        have hR2 : Ranked s2.clks rank := ev2.1.rankedT hR1
        obtain ⟨r3, s3, h3, hk3, hem3, hcalls⟩ := invoke_enable_keeps rank f hE n s2 hR2 hn
        have hn3 : s3.clks n = s.clks n := by rw [hk3.1]; exact hn2
        by_cases hr3 : r3 = 0
        swap
        · -- enable_error
          obtain ⟨s4, h4, h4c, h4l⟩ := hu2 (lockOf (s.clks n).mutex) s3 hk3.1
          have hn4 : s4.clks n = s.clks n := by rw [h4c]; exact hn1
          obtain ⟨s5, h5, h5c, h5l⟩ := hu1 (lockOf (s.clks n).mutex) s4 h4c
          refine ⟨r3, __clk_unlock n L s5, ?_, ?_, ?_, ?_⟩
          · simp only [__clk_enable, clks_lock, hc, if_true, h1, ne_eq, not_true_eq_false,
              if_false, hp1, hm1, h2, h3, hr3, not_false_eq_true, hn3, h4, hn4, h5]
          · exact Evolves.of_clks_eqE (by simp [h5c])
              ((((l02.transB hk3.2).transB (h4l.monoB hpar')).transB (h5l.monoB hbus')).transB
                (logBelow_unlock _ _ n L s5))
          · intro _
            exact ⟨by simp [h5c], fun k hk => by cases hk; exact hc, n,
              Emitted.monoM l02.extB (hem3 hr3)
                ((h4l.extB.transX h5l.extB).transX (logBelow_unlock rank 0 n L s5).extB)⟩
          · intro h; exact absurd h hr3
        · subst hr3
          have hz3 : (s3.clks n).enabled = 0 := by rw [hn3]; exact hc
          refine ⟨0, __clk_unlock n L (set_enabled n ((s3.clks n).enabled + 1) s3),
            ?_, ?_, ?_, ?_⟩
          · simp only [__clk_enable, clks_lock, hc, if_true, h1, ne_eq, not_true_eq_false,
              if_false, hp1, hm1, h2, h3, enable_done]
          · have e1 : Evolves rank (orank rank (some n)) s s1 := ev1.monoE hbus'
            have e2 : Evolves rank (orank rank (some n)) s1 s2 := ev2.monoE hpar'
            exact (((e1.transE e2).transE hk3.evolvesK).transE
              (evolves_set_enabled rank n _ _)).transE (evolves_unlock _ _ n L _)
          · intro h; exact absurd rfl h
          · intro _
            refine ⟨?_, ?_⟩
            · intro m hm
              cases hm
              refine ⟨by simp [hz3, hc], ?_⟩
              have c1 : Calls n 0 s s1 := Calls.of_belowC ev1.2.2 hbus
              have c2 : Calls n 0 s1 s2 := Calls.of_belowC ev2.2.2 hpar
              have c4 : Calls n 0 s3
                  (__clk_unlock n L (set_enabled n ((s3.clks n).enabled + 1) s3)) :=
                Calls.of_belowC ((LogBelow.of_log_eqB rfl).transB (logBelow_unlock rank 0 n L _))
                  (Nat.zero_le _)
              exact (((c1.transC c2).transC hcalls).transC c4).castC
                (by simp [own_calls, hc, hn2])
            · refine undo_fresh rank f hE n s.clks s1.clks s2.clks _ hR hn ev1.1 ev2.1
                (by rw [hn2]; exact hc) hu1 hu2 ?_
              simp [set_enabled, hk3.1, hn2, hc]

/-- In an acyclic tree `__clk_enable` and `__clk_disable` return at every call depth
above the rank of the node, with the effects described by `EnableSpec` and
`DisableSpec`. -/
theorem enable_disable_spec (rank : Nat → Nat) : ∀ f : Nat,
    (∀ c L s, Ranked s.clks rank → orank rank c < f → EnableSpec rank f c L s) ∧
    (∀ c L s, Ranked s.clks rank → orank rank c < f → DisableSpec rank f c L s) := by
  intro f
  induction f with
  | zero => exact ⟨fun _ _ _ _ h => absurd h (Nat.not_lt_zero _),
      fun _ _ _ _ h => absurd h (Nat.not_lt_zero _)⟩
  | succ f ih =>
    obtain ⟨hE, hD⟩ := ih
    constructor
    · intro c L s hR hlt
      cases c with
      | none =>
        refine ⟨0, s, by simp [__clk_enable], Evolves.reflE _ _ _, fun h => absurd rfl h, ?_⟩
        intro _
        refine ⟨fun n hn => (by cases hn), ?_⟩
        intro L2 s2 h2
        exact ⟨s2, by simp [__clk_disable], h2, LogBelow.reflB _ _ _⟩
      | some n =>
        exact enable_step rank f hE n L s hR (by simpa [orank] using hlt)
    · intro c L s hR hlt
      cases c with
      | none => exact ⟨s, by simp [__clk_disable], Evolves.reflE _ _ _, fun n hn => (by cases hn)⟩
      | some n => exact disable_step rank f hE hD n L s hR (by simpa [orank] using hlt)

theorem enable_spec (rank : Nat → Nat) (f : Nat) (c : Option Nat) (L : LockPtr) (s : State)
    (hR : Ranked s.clks rank) (hf : orank rank c < f) : EnableSpec rank f c L s :=
  (enable_disable_spec rank f).1 c L s hR hf

theorem disable_spec (rank : Nat → Nat) (f : Nat) (c : Option Nat) (L : LockPtr) (s : State)
    (hR : Ranked s.clks rank) (hf : orank rank c < f) : DisableSpec rank f c L s :=
  (enable_disable_spec rank f).2 c L s hR hf

/-! ## Claims

### Enable / disable balance, atomic failure, disable at zero, double enable (C1 to C4) -/

theorem demo_ranked : Ranked demo_clks demo_rank := by
  intro n p h
  unfold demo_clks at h
  unfold demo_rank
  split_ifs at h with h0 h1 h2 h3
  · subst h0
    rcases h with h | h | h <;> simp at h <;> subst h <;> simp
  · subst h1
    rcases h with h | h | h <;> simp at h <;> subst h <;> simp
  · rcases h with h | h | h <;> simp at h
  · rcases h with h | h | h <;> simp at h
  · rcases h with h | h | h <;> simp at h

theorem clks_warn (c : Prop) [Decidable c] (e : Ev) (s : State) :
    (if c then emit e s else s).clks = s.clks := by
  split <;> rfl

theorem disable_times_succ (fuel n : Nat) : ∀ (k : Nat) (s : State),
    disable_times fuel n (k + 1) s =
      (disable_times fuel n k s).bind (clk_disable fuel (some n)) := by
  intro k
  induction k with
  | zero =>
    intro s
    simp only [disable_times, Option.some_bind]
    cases h : clk_disable fuel (some n) s <;> rfl
  | succ k ih =>
    intro s
    rw [disable_times]
    cases h : clk_disable fuel (some n) s with
    | none => simp [disable_times, h]
    | some s1 =>
      simp only []
      rw [ih s1]
      conv_rhs => rw [disable_times]
      simp only [h]

theorem enable_disable_times (rank : Nat → Nat) (fuel n : Nat) (hf : rank n + 1 < fuel) :
    ∀ (k : Nat) (s : State), Ranked s.clks rank →
      ∃ s1, enable_times fuel n k s = some s1 ∧ SameTopo s.clks s1.clks ∧
        ∀ sx, sx.clks = s1.clks →
          ∃ s2, disable_times fuel n k sx = some s2 ∧ s2.clks = s.clks := by
  intro k
  induction k with
  | zero =>
    intro s _
    exact ⟨s, rfl, SameTopo.reflT _, fun sx hx => ⟨sx, rfl, hx⟩⟩
  | succ k ih =>
    intro s hR
    obtain ⟨r, sa, ha, hev, hfail, hok⟩ := enable_spec rank fuel (some n) NO_LOCK s hR hf
    obtain ⟨s1, h1, ht1, hback⟩ := ih sa (hev.1.rankedT hR)
    refine ⟨s1, ?_, hev.1.transT ht1, ?_⟩
    · simp only [enable_times, clk_enable, ha, h1]
    · intro sx hx
      obtain ⟨s2, h2, h2c⟩ := hback sx hx
      rw [disable_times_succ, h2]
      simp only [Option.some_bind, clk_disable]
      by_cases hr : r = 0
      · obtain ⟨-, hundo⟩ := hok hr
        obtain ⟨s3, h3, h3c, -⟩ := hundo NO_LOCK
          (if (s2.clks n).enabled = 0 then emit Ev.WARN_ON s2 else s2)
          ((clks_warn _ _ _).trans h2c)
        exact ⟨s3, h3, h3c⟩
      · obtain ⟨hcl, hz, -⟩ := hfail hr
        obtain ⟨f', rfl⟩ : ∃ f', fuel = f' + 1 := ⟨fuel - 1, by omega⟩
        obtain ⟨s3, h3, h3k⟩ := disable_zero rank 0 f' (some n) NO_LOCK
          (if (s2.clks n).enabled = 0 then emit Ev.WARN_ON s2 else s2)
          (fun m hm => by
            cases hm
            rw [clks_warn, h2c, hcl]
            exact hz n rfl)
        exact ⟨s3, h3, by rw [h3k.1, clks_warn, h2c, hcl]⟩

/-- C1: in an acyclic tree, for a node `n` that is disabled, `k` calls of `clk_enable(n)`
followed by `k` calls of `clk_disable(n)` all return, leave `enabled` of `n` at `0` and
leave `enabled` of every node (so of every ancestor of `n` through `parent` and
`bus_parent`) at the value it had before; this holds for every `k`, whether or not
some of the enable calls fail. -/
theorem C1_enable_disable_balanced (rank : Nat → Nat) (fuel n k : Nat) (s : State)
    (hR : Ranked s.clks rank) (hf : rank n + 1 < fuel) (h0 : (s.clks n).enabled = 0) :
    ∃ s1 s2, enable_times fuel n k s = some s1 ∧ disable_times fuel n k s1 = some s2 ∧
      (s2.clks n).enabled = 0 ∧ ∀ m, (s2.clks m).enabled = (s.clks m).enabled := by
  obtain ⟨s1, h1, -, hback⟩ := enable_disable_times rank fuel n hf k s hR
  obtain ⟨s2, h2, h2c⟩ := hback s1 rfl
  exact ⟨s1, s2, h1, h2, by rw [h2c]; exact h0, fun m => by rw [h2c]⟩

/-- C1 on the example tree: two enables and two disables of the leaf, node `0`. -/
theorem C1_enable_disable_balanced_witness :
    ∃ s1 s2, enable_times 4 0 2 demo_state = some s1 ∧ disable_times 4 0 2 s1 = some s2 ∧
      (s2.clks 0).enabled = 0 ∧ ∀ m, (s2.clks m).enabled = (demo_state.clks m).enabled :=
  C1_enable_disable_balanced demo_rank 4 0 2 demo_state demo_ranked (by decide) rfl

/-- C2: a failed enable is atomic on the tree.  In an acyclic tree `__clk_enable(n)`
returns, and when the value `r` it returns is an error the table of clock nodes is the
one before the call (`enabled` of `n` and of every other node, every ancestor that was
activated having been disabled again exactly once), and `r` is the value returned by an
invocation of an `enable` operation during the call. -/
theorem C2_failed_enable_atomic (rank : Nat → Nat) (fuel n : Nat) (L : LockPtr) (s : State)
    (hR : Ranked s.clks rank) (hf : rank n + 1 < fuel) :
    ∃ r s', __clk_enable fuel (some n) L s = some (r, s') ∧
      (r ≠ 0 → s'.clks = s.clks ∧ (∀ m, (s'.clks m).enabled = (s.clks m).enabled) ∧
        ∃ m, Emitted s s' (Ev.ops_enable m r)) := by
  obtain ⟨r, s', h, -, hfail, -⟩ := enable_spec rank fuel (some n) L s hR hf
  refine ⟨r, s', h, fun hr => ?_⟩
  obtain ⟨hc, -, hm⟩ := hfail hr
  exact ⟨hc, fun m => by rw [hc], hm⟩

/-- C2 on the example tree with a failing clock request: `clk_enable` of the leaf returns `-5` and the tree is as before. -/
theorem C2_failed_enable_atomic_witness :
    (clk_enable 4 (some 0) demo_fail_state).map Prod.fst = some (-5) ∧
    ∃ r s', __clk_enable 4 (some 0) NO_LOCK demo_fail_state = some (r, s') ∧
      (r ≠ 0 → s'.clks = demo_fail_state.clks ∧
        (∀ m, (s'.clks m).enabled = (demo_fail_state.clks m).enabled) ∧
        ∃ m, Emitted demo_fail_state s' (Ev.ops_enable m r)) :=
  ⟨by decide, C2_failed_enable_atomic demo_rank 4 0 NO_LOCK demo_fail_state demo_ranked
    (by decide)⟩

theorem lock_effect (n : Nat) (L : LockPtr) (s : State) :
    (__clk_lock n L s).requests = s.requests ∧ (__clk_lock n L s).oracle = s.oracle ∧
    ∃ l, (__clk_lock n L s).log = s.log ++ l ∧ ∀ e ∈ l, is_lock_event e = true := by
  unfold __clk_lock
  split
  · split
    · exact ⟨rfl, rfl, [Ev.spin_lock_irqsave], rfl, by simp [is_lock_event]⟩
    · exact ⟨rfl, rfl, [Ev.mutex_lock _], rfl, by simp [is_lock_event]⟩
  · exact ⟨rfl, rfl, [], by simp, by simp⟩

theorem unlock_effect (n : Nat) (L : LockPtr) (s : State) :
    (__clk_unlock n L s).requests = s.requests ∧ (__clk_unlock n L s).oracle = s.oracle ∧
    ∃ l, (__clk_unlock n L s).log = s.log ++ l ∧ ∀ e ∈ l, is_lock_event e = true := by
  unfold __clk_unlock
  split
  · split
    · exact ⟨rfl, rfl, [Ev.spin_unlock_irqrestore], rfl, by simp [is_lock_event]⟩
    · exact ⟨rfl, rfl, [Ev.mutex_unlock _], rfl, by simp [is_lock_event]⟩
  · exact ⟨rfl, rfl, [], by simp, by simp⟩

/-- A lock, a change of an `enabled` field and an unlock: no operation is invoked and no
external interface is called. -/
theorem lock_set_unlock_effect (n v : Nat) (L : LockPtr) (s : State) :
    (__clk_unlock n L (set_enabled n v (__clk_lock n L s))).requests = s.requests ∧
    (__clk_unlock n L (set_enabled n v (__clk_lock n L s))).oracle = s.oracle ∧
    ∃ l, (__clk_unlock n L (set_enabled n v (__clk_lock n L s))).log = s.log ++ l ∧
      ∀ e ∈ l, is_lock_event e = true := by
  obtain ⟨r1, o1, l1, hl1, hb1⟩ := lock_effect n L s
  obtain ⟨r2, o2, l2, hl2, hb2⟩ := unlock_effect n L (set_enabled n v (__clk_lock n L s))
  refine ⟨by rw [r2, requests_set_enabled, r1], by rw [o2, oracle_set_enabled, o1],
    l1 ++ l2, by rw [hl2, log_set_enabled, hl1, List.append_assoc], ?_⟩
  intro e he
  rcases List.mem_append.mp he with h | h
  · exact hb1 e h
  · exact hb2 e h

/-- C3: disable below zero never occurs.  `clk_disable(n)` on a node with
`enabled == 0` returns, reports the contract violation (the `WARN_ON` event is the first
new event), leaves `enabled` of `n` at `0` and the whole table of nodes as it was, and
invokes no operation and calls no external interface: the remaining new events are those
of taking and releasing the lock of `n`, and `requests` and the oracle are untouched. -/
theorem C3_disable_at_zero (fuel n : Nat) (s : State) (hf : 0 < fuel)
    (h0 : (s.clks n).enabled = 0) :
    ∃ s', clk_disable fuel (some n) s = some s' ∧ (s'.clks n).enabled = 0 ∧
      s'.clks = s.clks ∧ s'.requests = s.requests ∧ s'.oracle = s.oracle ∧
      ∃ new, s'.log = s.log ++ Ev.WARN_ON :: new ∧ ∀ e ∈ new, is_lock_event e = true := by
  obtain ⟨f, rfl⟩ : ∃ f, fuel = f + 1 := ⟨fuel - 1, by omega⟩
  obtain ⟨r1, o1, l1, hl1, hb1⟩ := lock_effect n NO_LOCK (emit Ev.WARN_ON s)
  obtain ⟨r2, o2, l2, hl2, hb2⟩ :=
    unlock_effect n NO_LOCK (__clk_lock n NO_LOCK (emit Ev.WARN_ON s))
  refine ⟨__clk_unlock n NO_LOCK (__clk_lock n NO_LOCK (emit Ev.WARN_ON s)), ?_, ?_, ?_, ?_,
    ?_, l1 ++ l2, ?_, ?_⟩
  · simp [clk_disable, __clk_disable, h0]
  · simp [h0]
  · simp
  · rw [r2, r1]; rfl
  · rw [o2, o1]; rfl
  · rw [hl2, hl1]; simp
  · intro e he
    rcases List.mem_append.mp he with h | h
    · exact hb1 e h
    · exact hb2 e h

/-- C3 on the example tree: `clk_disable` of the disabled leaf. -/
theorem C3_disable_at_zero_witness :
    ∃ s', clk_disable 1 (some 0) demo_state = some s' ∧ (s'.clks 0).enabled = 0 ∧
      s'.clks = demo_state.clks ∧ s'.requests = demo_state.requests ∧
      s'.oracle = demo_state.oracle ∧
      ∃ new, s'.log = demo_state.log ++ Ev.WARN_ON :: new ∧
        ∀ e ∈ new, is_lock_event e = true :=
  C3_disable_at_zero 1 0 demo_state (by decide) rfl

/-- C4: enable is idempotent in effect count.  In an acyclic tree, for a disabled node
`n` that has an `enable` operation, when `clk_enable(n)` succeeds a second
`clk_enable(n)` succeeds too and leaves `enabled` of `n` at `2`; the `enable` operation
of `n` is invoked exactly once over the two calls, namely in the first one (the `0 → 1`
transition); the second call invokes no operation and calls no external interface: its
only events are those of taking and releasing the lock of `n`. -/
theorem C4_enable_twice (rank : Nat → Nat) (fuel n : Nat) (s : State)
    (hR : Ranked s.clks rank) (hf : rank n + 1 < fuel) (h0 : (s.clks n).enabled = 0)
    (hop : (ops_enable_fn (s.clks n)).isSome = true) :
    ∃ r s1, clk_enable fuel (some n) s = some (r, s1) ∧
      (r = 0 → ∃ s2 new1 new2, clk_enable fuel (some n) s1 = some (0, s2) ∧
        (s1.clks n).enabled = 1 ∧ (s2.clks n).enabled = 2 ∧
        s1.log = s.log ++ new1 ∧ s2.log = s1.log ++ new2 ∧
        enable_calls n new1 = 1 ∧ enable_calls n (new1 ++ new2) = 1 ∧
        (∀ e ∈ new2, is_lock_event e = true) ∧ s2.oracle = s1.oracle ∧
        s2.requests = s1.requests) := by
  obtain ⟨r, s1, h1, -, -, hok⟩ := enable_spec rank fuel (some n) NO_LOCK s hR hf
  refine ⟨r, s1, h1, fun hr => ?_⟩
  obtain ⟨hcnt, -⟩ := hok hr
  obtain ⟨hc1, new1, hl1, hn1⟩ := hcnt n rfl
  rw [h0] at hc1
  have hown : own_calls (s.clks n) = 1 := by simp [own_calls, h0, hop]
  rw [hown] at hn1
  obtain ⟨f, rfl⟩ : ∃ f, fuel = f + 1 := ⟨fuel - 1, by omega⟩
  obtain ⟨hreq, hor, new2, hl2, hb2⟩ := lock_set_unlock_effect n 2 NO_LOCK s1
  refine ⟨__clk_unlock n NO_LOCK (set_enabled n 2 (__clk_lock n NO_LOCK s1)), new1, new2,
    ?_, hc1, by simp, hl1, hl2, hn1, ?_, hb2, hor, hreq⟩
  · simp [clk_enable, __clk_enable, hc1, enable_done]
  · unfold enable_calls at *
    rw [List.countP_append, hn1, Nat.add_eq_left, List.countP_eq_zero]
    intro e he hen
    have hlock := hb2 e he
    cases e <;> simp [is_lock_event, is_enable_of] at hlock hen

/-- C4 on the example tree: the first `clk_enable` of the leaf succeeds, so the statement applies. -/
theorem C4_enable_twice_witness :
    (clk_enable 4 (some 0) demo_state).map Prod.fst = some 0 ∧
    ∃ r s1, clk_enable 4 (some 0) demo_state = some (r, s1) ∧
      (r = 0 → ∃ s2 new1 new2, clk_enable 4 (some 0) s1 = some (0, s2) ∧
        (s1.clks 0).enabled = 1 ∧ (s2.clks 0).enabled = 2 ∧
        s1.log = demo_state.log ++ new1 ∧ s2.log = s1.log ++ new2 ∧
        enable_calls 0 new1 = 1 ∧ enable_calls 0 (new1 ++ new2) = 1 ∧
        (∀ e ∈ new2, is_lock_event e = true) ∧ s2.oracle = s1.oracle ∧
        s2.requests = s1.requests) :=
  ⟨by decide, C4_enable_twice demo_rank 4 0 demo_state demo_ranked (by decide) rfl rfl⟩

/-! ### Rate query (C5) -/

theorem call_get_rate_val (fn : GetRateFn) (n : Nat) (s : State) :
    (call_get_rate fn n s).1 =
      match fn with
      | GetRateFn.prcmu_clk_get_rate => next_ulong s
      | GetRateFn.clk_smp_twd_get_rate => next_ulong s / 2 := by
  cases fn <;> rfl

theorem call_get_rate_congr (fn : GetRateFn) (n m : Nat) (s s' : State)
    (h : s'.oracle = s.oracle) : (call_get_rate fn m s').1 = (call_get_rate fn n s).1 := by
  rw [call_get_rate_val, call_get_rate_val]
  cases fn <;> simp [next_ulong, h]

theorem call_get_rate_clks (fn : GetRateFn) (n : Nat) (s : State) :
    (call_get_rate fn n s).2.clks = s.clks := by
  cases fn <;> rfl

theorem oracle_lock (n : Nat) (L : LockPtr) (s : State) :
    (__clk_lock n L s).oracle = s.oracle := (lock_effect n L s).2.1

theorem get_rate_internal : ∀ (fuel : Nat) (c : Option Nat) (L : LockPtr) (sx s : State),
    sx.clks = s.clks → sx.oracle = s.oracle →
    (__clk_get_rate fuel c L sx).map Prod.fst = get_rate_ref fuel s c ∧
    ∀ v s', __clk_get_rate fuel c L sx = some (v, s') → s'.clks = s.clks := by
  intro fuel
  induction fuel with
  | zero => intro c L sx s _ _; simp [__clk_get_rate, get_rate_ref]
  | succ f ih =>
    intro c L sx s hc ho
    cases c with
    | none =>
      refine ⟨by simp [__clk_get_rate, get_rate_ref], ?_⟩
      intro v s' h
      simp only [__clk_get_rate, Option.some.injEq, Prod.mk.injEq] at h
      rw [← h.2, hc]
    | some n =>
      simp only [__clk_get_rate, get_rate_ref, clks_lock, hc]
      cases hfn : ops_get_rate_fn (s.clks n) with
      | some fn =>
        simp only [Option.map_some', Option.some.injEq, Prod.mk.injEq]
        refine ⟨call_get_rate_congr fn n n s _ ((oracle_lock n L sx).trans ho), ?_⟩
        rintro v s' ⟨-, rfl⟩
        rw [clks_unlock, call_get_rate_clks, clks_lock, hc]
      | none =>
        by_cases hr : (s.clks n).rate = 0
        · simp only [hr, ne_eq, not_true_eq_false, if_false]
          obtain ⟨h1, h2⟩ := ih (s.clks n).parent (lockOf (s.clks n).mutex) (__clk_lock n L sx) s
            ((clks_lock n L sx).trans hc) ((oracle_lock n L sx).trans ho)
          rw [← h1]
          cases hg : __clk_get_rate f (s.clks n).parent (lockOf (s.clks n).mutex)
              (__clk_lock n L sx) with
          | none => simp
          | some p =>
            obtain ⟨v, s1⟩ := p
            refine ⟨by simp, ?_⟩
            intro v' s' h
            simp only [Option.some.injEq, Prod.mk.injEq] at h
            rw [← h.2, clks_unlock]
            exact h2 v s1 hg
        · simp only [hr, ne_eq, not_false_eq_true, if_true, Option.map_some', true_and]
          intro v s' h
          simp only [Option.some.injEq, Prod.mk.injEq] at h
          rw [← h.2, clks_unlock, clks_lock, hc]

theorem get_rate_ref_bus : ∀ (fuel : Nat) (bp : Nat → Option Nat) (s : State) (c : Option Nat),
    get_rate_ref fuel (with_bus_parents bp s) c = get_rate_ref fuel s c := by
  intro fuel
  induction fuel with
  | zero => intro bp s c; rfl
  | succ f ih =>
    intro bp s c
    cases c with
    | none => rfl
    | some n =>
      simp only [get_rate_ref]
      have h1 : ops_get_rate_fn ((with_bus_parents bp s).clks n) = ops_get_rate_fn (s.clks n) :=
        rfl
      have h2 : ((with_bus_parents bp s).clks n).rate = (s.clks n).rate := rfl
      have h3 : ((with_bus_parents bp s).clks n).parent = (s.clks n).parent := rfl
      rw [h1, h2, h3, ih]
      cases ops_get_rate_fn (s.clks n) with
      | none => rfl
      | some fn =>
        simp only [Option.some.injEq]
        exact call_get_rate_congr fn n n s _ rfl

theorem get_rate_ref_total (rank : Nat → Nat) (s : State) (hR : ParentRanked s.clks rank) :
    ∀ (fuel : Nat) (c : Option Nat), orank rank c < fuel → ∃ v, get_rate_ref fuel s c = some v := by
  intro fuel
  induction fuel with
  | zero => intro c h; exact absurd h (Nat.not_lt_zero _)
  | succ f ih =>
    intro c h
    cases c with
    | none => exact ⟨0, rfl⟩
    | some n =>
      simp only [get_rate_ref]
      cases ops_get_rate_fn (s.clks n) with
      | some fn => exact ⟨_, rfl⟩
      | none =>
        by_cases hr : (s.clks n).rate = 0
        · simp only [hr, ne_eq, not_true_eq_false, if_false]
          apply ih
          have hn : rank n < f := by simpa [orank] using h
          cases hp : (s.clks n).parent with
          | none => simpa [orank] using Nat.zero_lt_of_lt hn
          | some p =>
            have := hR n p hp
            simp only [orank]
            omega
        · exact ⟨(s.clks n).rate, by simp [hr]⟩

theorem clk_get_rate_ref (fuel : Nat) (s : State) (c : Option Nat) :
    (clk_get_rate fuel c s).map Prod.fst =
      match c with
      | none => some 0
      | some n => get_rate_ref fuel s (some n) := by
  cases c with
  | none => rfl
  | some n => exact (get_rate_internal fuel (some n) NO_LOCK s s rfl rfl).1

/-- C5: `clk_get_rate` computes the reference definition `get_rate_ref` (walk the
`parent` chain to the first node with a dynamic rate operation or a non-zero `rate`; `0`
for `NULL` and at the end of the chain).  In particular a node without rate operation and
without cached rate returns the rate of its `parent`; a leaf → mid → root chain whose
root has `rate == 26000000` returns `26000000` from the leaf; the result does not depend
on any `bus_parent` reference; and on an acyclic `parent` chain the call returns and
leaves the table of nodes untouched. -/
theorem C5_get_rate_walks_parent_chain (fuel : Nat) (s : State) :
    clk_get_rate fuel none s = some (0, s) ∧
    (∀ n, (clk_get_rate fuel (some n) s).map Prod.fst = get_rate_ref fuel s (some n)) ∧
    (∀ n, ops_get_rate_fn (s.clks n) = none → (s.clks n).rate = 0 →
      (clk_get_rate (fuel + 2) (some n) s).map Prod.fst =
        (clk_get_rate (fuel + 1) (s.clks n).parent s).map Prod.fst) ∧
    (∀ leaf mid root,
      ops_get_rate_fn (s.clks leaf) = none → (s.clks leaf).rate = 0 →
      (s.clks leaf).parent = some mid →
      ops_get_rate_fn (s.clks mid) = none → (s.clks mid).rate = 0 →
      (s.clks mid).parent = some root →
      ops_get_rate_fn (s.clks root) = none → (s.clks root).rate = 26000000 →
      (clk_get_rate (fuel + 3) (some leaf) s).map Prod.fst = some 26000000) ∧
    (∀ bp c, (clk_get_rate fuel c (with_bus_parents bp s)).map Prod.fst =
      (clk_get_rate fuel c s).map Prod.fst) ∧
    (∀ rank c, ParentRanked s.clks rank → orank rank c < fuel →
      ∃ v s', clk_get_rate fuel c s = some (v, s') ∧ s'.clks = s.clks) := by
  refine ⟨rfl, fun n => clk_get_rate_ref fuel s (some n), ?_, ?_, ?_, ?_⟩
  · intro n hfn hr
    rw [clk_get_rate_ref, clk_get_rate_ref]
    simp only [get_rate_ref, hfn, hr, ne_eq, not_true_eq_false, if_false]
    cases (s.clks n).parent <;> rfl
  · intro leaf mid root h1 h2 h3 h4 h5 h6 h7 h8
    rw [clk_get_rate_ref]
    simp [get_rate_ref, h1, h2, h3, h4, h5, h6, h7, h8]
  · intro bp c
    rw [clk_get_rate_ref, clk_get_rate_ref]
    cases c with
    | none => rfl
    | some n => exact get_rate_ref_bus fuel bp s (some n)
  · intro rank c hR hf
    cases c with
    | none => exact ⟨0, s, rfl, rfl⟩
    | some n =>
      obtain ⟨v, hv⟩ := get_rate_ref_total rank s hR fuel (some n) hf
      obtain ⟨h1, h2⟩ := get_rate_internal fuel (some n) NO_LOCK s s rfl rfl
      rw [hv] at h1
      cases hg : __clk_get_rate fuel (some n) NO_LOCK s with
      | none => rw [hg] at h1; simp at h1
      | some p =>
        obtain ⟨v', s'⟩ := p
        exact ⟨v', s', hg, h2 v' s' hg⟩

/-- C5 on the example tree: the leaf `0` inherits `26000000` from the root `2` through node `1`. -/
theorem C5_get_rate_walks_parent_chain_witness :
    (clk_get_rate 4 (some 0) demo_state).map Prod.fst = some 26000000 :=
  (C5_get_rate_walks_parent_chain 1 demo_state).2.2.2.1 0 1 2 rfl rfl rfl rfl rfl rfl rfl rfl

/-! ### Parent validation (C6) -/

theorem scan_parents_some (l : List Nat) (p : Nat) :
    scan_parents l (some p) = true ↔ p ∈ l := by
  induction l with
  | nil => simp [scan_parents]
  | cons q rest ih =>
    simp only [scan_parents, Option.some.injEq, List.mem_cons]
    by_cases h : q = p
    · simp [h]
    · simp only [h, if_false, ih]
      constructor
      · exact Or.inr
      · rintro (h' | h')
        · exact absurd h'.symm h
        · exact h'

/-- For a candidate that is a node (not `NULL`) and is not in the `parents` array,
`clk_set_parent` returns `-EINVAL` and changes nothing at all. -/
theorem set_parent_rejects_absent_node (fuel n p : Nat) (s : State)
    (h : ∀ l, (s.clks n).parents = some l → p ∉ l) :
    clk_set_parent fuel (some n) (some p) s = some (-EINVAL, s) := by
  cases hl : (s.clks n).parents with
  | none => simp only [clk_set_parent, hl]
  | some l =>
    have hs : scan_parents l (some p) = false := by
      cases hsc : scan_parents l (some p) with
      | false => rfl
      | true => exact absurd ((scan_parents_some l p).mp hsc) (h l hl)
    simp only [clk_set_parent, hl, hs, if_true]

/-- C6 (failing input): the candidate `NULL` is not a member of the `parents` array
`{1, 2, 3, NULL}` of node `0`, yet `clk_set_parent(0, NULL)` returns `0`, stores `NULL`
as the parent of node `0` and takes the count of the old parent `1` from `1` to `0`:
the scan tests `*p != parent` before `*p == NULL`, so it stops at the terminator. -/
theorem C6_null_candidate_passes_scan :
    (mux_state.clks 0).parents = some [1, 2, 3] ∧
    (mux_state.clks 0).parent = some 1 ∧ (mux_state.clks 1).enabled = 1 ∧
    (clk_set_parent 2 (some 0) none mux_state).map
      (fun r => (r.1, (r.2.clks 0).parent, (r.2.clks 1).enabled)) = some (0, none, 0) := by
  decide

/-! ### Live parent switch (C7) -/

theorem ranked_shift (t : Nat → clk) (rank : Nat → Nat) (x : Nat) (hR : Ranked t rank) :
    ∃ rank', Ranked t rank' ∧ rank' x = rank x ∧ ∀ m, ¬ Reach t x m → rank x + 1 ≤ rank' m := by
  classical
  refine ⟨fun k => if Reach t x k then rank k else rank k + (rank x + 1), ?_, ?_, ?_⟩
  · intro n p hp
    have hlt := hR n p hp
    by_cases hn : Reach t x n
    · have hpr : Reach t x p := Reach.next hn hp
      simp only [hn, hpr, if_true]
      exact hlt
    · by_cases hpr : Reach t x p
      · simp only [hn, hpr, if_true, if_false]
        omega
      · simp only [hn, hpr, if_false]
        omega
  · simp [Reach.here]
  · intro m hm
    simp only [hm, if_false]
    omega

/-- `__clk_enable(x)` changes no node that is not `x` or an ancestor of `x`. -/
theorem enable_frame_reach (rank : Nat → Nat) (fuel x : Nat) (L : LockPtr) (s : State)
    (hR : Ranked s.clks rank) (hf : rank x + 1 < fuel) (r : Int) (s' : State)
    (h : __clk_enable fuel (some x) L s = some (r, s')) (m : Nat)
    (hm : ¬ Reach s.clks x m) : s'.clks m = s.clks m := by
  obtain ⟨rank', hR', hx, hfar⟩ := ranked_shift s.clks rank x hR
  obtain ⟨r0, s0, h0, hev, -, -⟩ := enable_spec rank' fuel (some x) L s hR'
    (by simp only [orank]; omega)
  rw [h0] at h
  cases h
  exact hev.2.1 m (by simp only [orank]; have := hfar m hm; omega)

/-- `__clk_disable(x)` changes no node that is not `x` or an ancestor of `x`. -/
theorem disable_frame_reach (rank : Nat → Nat) (fuel x : Nat) (L : LockPtr) (s : State)
    (hR : Ranked s.clks rank) (hf : rank x + 1 < fuel) (s' : State)
    (h : __clk_disable fuel (some x) L s = some s') (m : Nat)
    (hm : ¬ Reach s.clks x m) : s'.clks m = s.clks m := by
  obtain ⟨rank', hR', hx, hfar⟩ := ranked_shift s.clks rank x hR
  obtain ⟨s0, h0, hev, -⟩ := disable_spec rank' fuel (some x) L s hR'
    (by simp only [orank]; omega)
  rw [h0] at h
  cases h
  exact hev.2.1 m (by simp only [orank]; have := hfar m hm; omega)

theorem reach_sameTopo {a b : Nat → clk} (h : SameTopo a b) {x m : Nat} (hr : Reach b x m) :
    Reach a x m := by
  induction hr with
  | here => exact Reach.here
  | next _ hp ih =>
    rw [h.parentT, h.bus_parentT, h.clockT] at hp
    exact Reach.next ih hp

theorem enabled_set_parent_field (n : Nat) (q : Option Nat) (s : State) (m : Nat) :
    ((set_parent_field n q s).clks m).enabled = (s.clks m).enabled := by
  unfold set_parent_field
  by_cases h : m = n
  · subst h; simp
  · simp [h]

theorem set_parent_field_same (n : Nat) (q : Option Nat) (s : State)
    (h : (s.clks n).parent = q) : (set_parent_field n q s).clks = s.clks := by
  funext m
  unfold set_parent_field
  by_cases hm : m = n
  · subst hm
    simp only [if_true]
    rw [← h]
  · simp [hm]

/-- C7 (amended): live parent switch.  In an acyclic tree, for an enabled node `n`
without `set_parent` operation and a candidate `p` of its `parents` array,
`clk_set_parent(n, p)` returns.  When enabling `p` fails the error is returned and the
table of nodes is unchanged.  On success the call is `__clk_enable(p)`, then
`__clk_disable` of the old parent, then the store of `p` as `parent` of `n`; `enabled`
of `n` is unchanged provided `n` is not an ancestor of `p`; nothing changes when `p` is
the old parent; `enabled` of `p` is one higher provided `p` is not the old parent or an
ancestor of it; `enabled` of the old parent is one lower (it stays `0` when it is `0`)
provided the old parent is not `p` or an ancestor of `p`. -/
theorem C7_live_parent_switch (rank : Nat → Nat) (fuel n p : Nat) (l : List Nat) (s : State)
    (hR : Ranked s.clks rank) (hfn : rank n + 1 < fuel) (hfp : rank p + 1 < fuel)
    (hen : (s.clks n).enabled ≠ 0) (hop : ops_set_parent_fn (s.clks n) = none)
    (hl : (s.clks n).parents = some l) (hp : p ∈ l) :
    ∃ r s', clk_set_parent fuel (some n) (some p) s = some (r, s') ∧
      (r ≠ 0 → s'.clks = s.clks ∧ ∃ m, Emitted s s' (Ev.ops_enable m r)) ∧
      (r = 0 →
        (∃ s1 s2, __clk_enable fuel (some p) (lockOf (s.clks n).mutex) (__clk_lock n NO_LOCK s)
            = some (0, s1) ∧
          __clk_disable fuel (s.clks n).parent (lockOf (s.clks n).mutex) s1 = some s2 ∧
          s' = __clk_unlock n NO_LOCK (set_parent_field n (some p) s2)) ∧
        (s'.clks n).parent = some p ∧
        (¬ Reach s.clks p n → (s'.clks n).enabled = (s.clks n).enabled) ∧
        ((s.clks n).parent = some p → s'.clks = s.clks) ∧
        ((s.clks n).parent = none → (s'.clks p).enabled = (s.clks p).enabled + 1) ∧
        (∀ o, (s.clks n).parent = some o → ¬ Reach s.clks o p →
          (s'.clks p).enabled = (s.clks p).enabled + 1) ∧
        (∀ o, (s.clks n).parent = some o → ¬ Reach s.clks p o →
          (s'.clks o).enabled = (s.clks o).enabled - 1)) := by
  have hscan : scan_parents l (some p) = true := (scan_parents_some l p).mpr hp
  have hR0 : Ranked (__clk_lock n NO_LOCK s).clks rank := by rw [clks_lock]; exact hR
  obtain ⟨r, s1, h1, ev1, hfail, hok⟩ := enable_spec rank fuel (some p) (lockOf (s.clks n).mutex)
    (__clk_lock n NO_LOCK s) hR0 hfp
  simp only [clks_lock] at hfail hok
  have hl0 : LogExt s (__clk_lock n NO_LOCK s) := (logBelow_lock rank 0 n NO_LOCK s).extB
  have hst1 : SameTopo s.clks s1.clks := by
    have := ev1.1
    rwa [clks_lock] at this
  have hR1 : Ranked s1.clks rank := hst1.rankedT hR
  by_cases hr : r = 0
  swap
  · obtain ⟨hcl, -, m, hem⟩ := hfail hr
    refine ⟨r, __clk_unlock n NO_LOCK s1, ?_, ?_, fun h => absurd h hr⟩
    · simp only [clk_set_parent, hl, hscan, Bool.true_eq_false, if_false, clks_lock, hop,
        ne_eq, hen, not_false_eq_true, if_true, h1, hr]
    · intro _
      exact ⟨by rw [clks_unlock, hcl], m,
        hem.monoM hl0 (logBelow_unlock rank 0 n NO_LOCK s1).extB⟩
  · subst hr
    obtain ⟨hcnt, hundo⟩ := hok rfl
    have hpar_le : orank rank (s1.clks n).parent < fuel :=
      lt_of_le_of_lt (orank_le_of_edge hR1 n _ (Or.inl rfl)) (by omega)
    obtain ⟨s2, h2, ev2, hdec⟩ := disable_spec rank fuel (s1.clks n).parent
      (lockOf (s1.clks n).mutex) s1 hR1 hpar_le
    have hp1 : (s1.clks n).parent = (s.clks n).parent := hst1.parentT n
    have hm1 : (s1.clks n).mutex = (s.clks n).mutex := hst1.mutexT n
    rw [hp1, hm1] at h2
    rw [hp1] at ev2 hdec
    have hn2 : s2.clks n = s1.clks n :=
      ev2.2.1 n (orank_le_of_edge hR n _ (Or.inl rfl))
    refine ⟨0, __clk_unlock n NO_LOCK (set_parent_field n (some p) s2), ?_,
      fun h => absurd rfl h, fun _ => ⟨⟨s1, s2, h1, h2, rfl⟩, ?_, ?_, ?_, ?_, ?_, ?_⟩⟩
    · simp only [clk_set_parent, hl, hscan, Bool.true_eq_false, if_false, clks_lock, hop,
        ne_eq, hen, not_false_eq_true, if_true, h1, not_true_eq_false, hp1, hm1, h2]
    · simp [set_parent_field]
    · intro hnr
      have e1 : s1.clks n = s.clks n := by
        have := enable_frame_reach rank fuel p _ (__clk_lock n NO_LOCK s) hR0 hfp 0 s1 h1 n
          (by rw [clks_lock]; exact hnr)
        rwa [clks_lock] at this
      rw [clks_unlock, enabled_set_parent_field, hn2, e1]
    · intro hold
      rw [hold] at h2
      obtain ⟨s3, h3, h3c, -⟩ := hundo (lockOf (s.clks n).mutex) s1 rfl
      rw [h3] at h2
      cases h2
      rw [clks_unlock, set_parent_field_same n (some p) s2 (by rw [h3c]; exact hold), h3c]
    · intro hnone
      rw [hnone] at h2
      have e2 : s2 = s1 := by
        obtain ⟨f, rfl⟩ : ∃ f, fuel = f + 1 := ⟨fuel - 1, by omega⟩
        simpa [__clk_disable] using h2.symm
      rw [clks_unlock, enabled_set_parent_field, e2]
      exact (hcnt p rfl).1
    · intro o ho hnr
      rw [ho] at h2
      have hfo : rank o + 1 < fuel := by
        have := hR n o (Or.inl ho)
        omega
      have e2 : s2.clks p = s1.clks p :=
        disable_frame_reach rank fuel o _ s1 hR1 hfo s2 h2 p
          (fun hreach => hnr (reach_sameTopo hst1 hreach))
      rw [clks_unlock, enabled_set_parent_field, e2]
      exact (hcnt p rfl).1
    · intro o ho hnr
      have e1 : s1.clks o = s.clks o := by
        have := enable_frame_reach rank fuel p _ (__clk_lock n NO_LOCK s) hR0 hfp 0 s1 h1 o
          (by rw [clks_lock]; exact hnr)
        rwa [clks_lock] at this
      rw [clks_unlock, enabled_set_parent_field, hdec o ho, e1]

theorem mux_ranked : Ranked mux_clks mux_rank := by
  intro n p h
  unfold mux_clks at h
  unfold mux_rank
  split_ifs at h with h0 h1 h2 h3
  · subst h0
    rcases h with h | h | h <;> simp at h
    subst h
    simp
  · rcases h with h | h | h <;> simp at h
  · subst h2
    rcases h with h | h | h <;> simp at h
    subst h
    simp
  · rcases h with h | h | h <;> simp at h
  · rcases h with h | h | h <;> simp at h

/-- C7 on the example `mux_clks`: the enabled node `0` is switched from parent `1` to the candidate `3`. -/
theorem C7_live_parent_switch_witness :
    ∃ r s', clk_set_parent 4 (some 0) (some 3) mux_state = some (r, s') ∧
      (r ≠ 0 → s'.clks = mux_state.clks ∧ ∃ m, Emitted mux_state s' (Ev.ops_enable m r)) ∧
      (r = 0 →
        (∃ s1 s2, __clk_enable 4 (some 3) (lockOf (mux_state.clks 0).mutex)
            (__clk_lock 0 NO_LOCK mux_state) = some (0, s1) ∧
          __clk_disable 4 (mux_state.clks 0).parent (lockOf (mux_state.clks 0).mutex) s1
            = some s2 ∧
          s' = __clk_unlock 0 NO_LOCK (set_parent_field 0 (some 3) s2)) ∧
        (s'.clks 0).parent = some 3 ∧
        (¬ Reach mux_state.clks 3 0 → (s'.clks 0).enabled = (mux_state.clks 0).enabled) ∧
        ((mux_state.clks 0).parent = some 3 → s'.clks = mux_state.clks) ∧
        ((mux_state.clks 0).parent = none →
          (s'.clks 3).enabled = (mux_state.clks 3).enabled + 1) ∧
        (∀ o, (mux_state.clks 0).parent = some o → ¬ Reach mux_state.clks o 3 →
          (s'.clks 3).enabled = (mux_state.clks 3).enabled + 1) ∧
        (∀ o, (mux_state.clks 0).parent = some o → ¬ Reach mux_state.clks 3 o →
          (s'.clks o).enabled = (mux_state.clks o).enabled - 1)) :=
  C7_live_parent_switch mux_rank 4 0 3 [1, 2, 3] mux_state mux_ranked (by decide) (by decide)
    (by decide) rfl rfl (by decide)

/-- C7 (counterexample): node `0` is enabled with the old parent `1` (count `1`), and the
candidate `2` is a disabled clock derived from node `1`.  `clk_set_parent(0, 2)`
succeeds and stores `2`, but the count of the old parent is `1` as before, not one
lower: enabling `2` has enabled its parent `1` once more. -/
theorem C7_old_parent_not_lowered :
    (mux_state.clks 0).enabled = 1 ∧ (mux_state.clks 0).parent = some 1 ∧
    (mux_state.clks 1).enabled = 1 ∧ ops_set_parent_fn (mux_state.clks 0) = none ∧
    (mux_state.clks 0).parents = some [1, 2, 3] ∧
    (clk_set_parent 4 (some 0) (some 2) mux_state).map
      (fun r => (r.1, (r.2.clks 0).parent, (r.2.clks 1).enabled, (r.2.clks 2).enabled))
      = some (0, some 2, 1, 1) ∧
    ¬ ∃ s', clk_set_parent 4 (some 0) (some 2) mux_state = some (0, s') ∧
      (s'.clks 1).enabled + 1 = (mux_state.clks 1).enabled := by
  have hev : (clk_set_parent 4 (some 0) (some 2) mux_state).map
      (fun r => (r.1, (r.2.clks 0).parent, (r.2.clks 1).enabled, (r.2.clks 2).enabled))
      = some (0, some 2, 1, 1) := by decide
  refine ⟨rfl, rfl, rfl, rfl, rfl, hev, ?_⟩
  rintro ⟨s', h, h2⟩
  rw [h] at hev
  simp only [Option.map_some', Option.some.injEq, Prod.mk.injEq] at hev
  have h1 : (mux_state.clks 1).enabled = 1 := rfl
  omega

/-! ### Performance floor (C8) -/

theorem FloorLog.reflL (s : State) : FloorLog 0 0 s s := ⟨[], by simp, rfl, rfl⟩

theorem FloorLog.transL {i j i' j' : Nat} {a b c : State} (h1 : FloorLog i j a b)
    (h2 : FloorLog i' j' b c) : FloorLog (i + i') (j + j') a c := by
  obtain ⟨x, hx, hxa, hxr⟩ := h1
  obtain ⟨y, hy, hya, hyr⟩ := h2
  refine ⟨x ++ y, by rw [hy, hx, List.append_assoc], ?_, ?_⟩
  · unfold floor_adds at *
    rw [List.countP_append, hxa, hya]
  · unfold floor_removes at *
    rw [List.countP_append, hxr, hyr]

theorem FloorLog.castL {i j i' j' : Nat} {a b : State} (h : FloorLog i j a b)
    (hi : i = i') (hj : j = j') : FloorLog i' j' a b := by
  subst hi; subst hj; exact h

theorem floorLog_of_log_eq {a b : State} (h : b.log = a.log) : FloorLog 0 0 a b :=
  ⟨[], by simp [h], rfl, rfl⟩

theorem floorLog_emit (e : Ev) (s : State) :
    FloorLog (if is_floor_add e then 1 else 0) (if is_floor_remove e then 1 else 0)
      s (emit e s) := by
  refine ⟨[e], rfl, ?_, ?_⟩
  · unfold floor_adds
    cases h : is_floor_add e <;> simp [h]
  · unfold floor_removes
    cases h : is_floor_remove e <;> simp [h]

theorem floorLog_lock (n : Nat) (L : LockPtr) (s : State) :
    FloorLog 0 0 s (__clk_lock n L s) := by
  unfold __clk_lock
  split
  · split
    · exact floorLog_emit Ev.spin_lock_irqsave s
    · exact floorLog_emit (Ev.mutex_lock _) s
  · exact FloorLog.reflL s

theorem floorLog_unlock (n : Nat) (L : LockPtr) (s : State) :
    FloorLog 0 0 s (__clk_unlock n L s) := by
  unfold __clk_unlock
  split
  · split
    · exact floorLog_emit Ev.spin_unlock_irqrestore s
    · exact floorLog_emit (Ev.mutex_unlock _) s
  · exact FloorLog.reflL s

theorem oracle_unlock (n : Nat) (L : LockPtr) (s : State) :
    (__clk_unlock n L s).oracle = s.oracle := (unlock_effect n L s).2.1

theorem requests_lock (n : Nat) (L : LockPtr) (s : State) :
    (__clk_lock n L s).requests = s.requests := (lock_effect n L s).1

theorem requests_unlock (n : Nat) (L : LockPtr) (s : State) :
    (__clk_unlock n L s).requests = s.requests := (unlock_effect n L s).1

theorem next_ret_of_all_succeed (s : State) (h : all_succeed s) : next_ret s = 0 := by
  unfold next_ret
  cases ho : s.oracle with
  | nil => rfl
  | cons x rest => exact h x (by rw [ho]; exact List.mem_cons_self x rest)

theorem all_succeed_of_oracle {s s' : State} (h : all_succeed s) (ho : s'.oracle = s.oracle) :
    all_succeed s' := by
  intro x hx
  rw [ho] at hx
  exact h x hx

theorem all_succeed_pop (s : State) (h : all_succeed s) : all_succeed (pop_oracle s) :=
  fun x hx => h x (List.mem_of_mem_tail hx)

/-- A successful external clock request. -/
theorem request_clock_ok (g : Nat) (e : Bool) (s : State) (h : all_succeed s) :
    prcmu_request_clock g e s = (0, emit (Ev.prcmu_request_clock g e 0) (pop_oracle s)) := by
  unfold prcmu_request_clock
  rw [next_ret_of_all_succeed s h]

/-- The enable operation of the full-performance profile when every external call
succeeds: the requester count goes up by one and the floor is requested exactly when the
count was `0`. -/
theorem opp100_enable_ok (a : Nat) (s : State) (hs : all_succeed s)
    (hq : s.requests + 1 < 4294967296) :
    ∃ s', prcmu_opp100_clk_enable a s = (0, s') ∧ s'.clks = s.clks ∧
      s'.requests = s.requests + 1 ∧ all_succeed s' ∧
      FloorLog (if s.requests = 0 then 1 else 0) 0 s s' := by
  have hmod : (s.requests + 1) % 4294967296 = s.requests + 1 := Nat.mod_eq_of_lt hq
  have hs1 : all_succeed (set_requests (s.requests + 1) s) := all_succeed_of_oracle hs rfl
  unfold prcmu_opp100_clk_enable request_ape_opp100
  rw [hmod]
  by_cases h0 : s.requests = 0
  · have hs2 : all_succeed (emit (Ev.prcmu_qos_add_requirement 0)
        (pop_oracle (set_requests (s.requests + 1) s))) :=
      all_succeed_of_oracle (all_succeed_pop _ hs1) rfl
    simp only [if_true, if_pos h0, prcmu_qos_add_requirement, next_ret_of_all_succeed _ hs1,
      ne_eq, not_true_eq_false, if_false]
    rw [request_clock_ok _ _ _ hs2]
    refine ⟨_, rfl, rfl, rfl, all_succeed_of_oracle (all_succeed_pop _ hs2) rfl, ?_⟩
    exact ⟨[Ev.prcmu_qos_add_requirement 0, Ev.prcmu_request_clock (s.clks a).cg_sel true 0],
      by simp, by simp [floor_adds, is_floor_add], by simp [floor_removes, is_floor_remove]⟩
  · simp only [if_true, if_neg h0, ne_eq, not_true_eq_false, if_false]
    rw [request_clock_ok _ _ _ hs1]
    refine ⟨_, rfl, rfl, rfl, all_succeed_of_oracle (all_succeed_pop _ hs1) rfl, ?_⟩
    exact ⟨[Ev.prcmu_request_clock (s.clks a).cg_sel true 0],
      by simp, by simp [floor_adds, is_floor_add], by simp [floor_removes, is_floor_remove]⟩

/-- The disable operation of the full-performance profile when every external call
succeeds: the requester count goes down by one and the floor is released exactly when the
count was `1`. -/
theorem opp100_disable_ok (a : Nat) (s : State) (hs : all_succeed s)
    (hq : 0 < s.requests) (hq2 : s.requests < 4294967296) :
    (prcmu_opp100_clk_disable a s).clks = s.clks ∧
      (prcmu_opp100_clk_disable a s).requests = s.requests - 1 ∧
      all_succeed (prcmu_opp100_clk_disable a s) ∧
      FloorLog 0 (if s.requests = 1 then 1 else 0) s (prcmu_opp100_clk_disable a s) := by
  have hmod : (s.requests + 4294967296 - 1) % 4294967296 = s.requests - 1 := by omega
  have hs1 : all_succeed (emit (Ev.prcmu_request_clock (s.clks a).cg_sel false 0)
      (pop_oracle s)) := all_succeed_of_oracle (all_succeed_pop _ hs) rfl
  unfold prcmu_opp100_clk_disable
  rw [request_clock_ok _ _ _ hs]
  unfold request_ape_opp100
  simp only [requests_emit, requests_pop_oracle]
  rw [hmod]
  by_cases h1 : s.requests = 1
  · simp only [ne_eq, not_true_eq_false, if_false, Bool.false_eq_true, if_pos h1]
    refine ⟨rfl, rfl, all_succeed_of_oracle hs1 rfl, ?_⟩
    exact ⟨[Ev.prcmu_request_clock (s.clks a).cg_sel false 0, Ev.prcmu_qos_remove_requirement],
      by simp [prcmu_qos_remove_requirement], by simp [floor_adds, is_floor_add],
      by simp [floor_removes, is_floor_remove]⟩
  · simp only [ne_eq, not_true_eq_false, if_false, Bool.false_eq_true, if_neg h1]
    refine ⟨rfl, rfl, all_succeed_of_oracle hs1 rfl, ?_⟩
    exact ⟨[Ev.prcmu_request_clock (s.clks a).cg_sel false 0],
      by simp, by simp [floor_adds, is_floor_add],
      by simp [floor_removes, is_floor_remove]⟩


theorem QuietS.transQ {a b c : State} (h1 : QuietS a b) (h2 : QuietS b c) : QuietS a c :=
  ⟨h2.1.trans h1.1, h2.2.1, (h1.2.2.transL h2.2.2).castL rfl rfl⟩

theorem quietS_of {s s' : State} (hs : all_succeed s) (hr : s'.requests = s.requests)
    (ho : s'.oracle = s.oracle) (hl : FloorLog 0 0 s s') : QuietS s s' :=
  ⟨hr, all_succeed_of_oracle hs ho, hl⟩

theorem quietS_refl (s : State) (hs : all_succeed s) : QuietS s s :=
  quietS_of hs rfl rfl (FloorLog.reflL s)

theorem quietS_lock (n : Nat) (L : LockPtr) (s : State) (hs : all_succeed s) :
    QuietS s (__clk_lock n L s) :=
  quietS_of hs (requests_lock n L s) (oracle_lock n L s) (floorLog_lock n L s)

theorem quietS_unlock (n : Nat) (L : LockPtr) (s : State) (hs : all_succeed s) :
    QuietS s (__clk_unlock n L s) :=
  quietS_of hs (requests_unlock n L s) (oracle_unlock n L s) (floorLog_unlock n L s)

theorem quietS_emit (e : Ev) (s : State) (hs : all_succeed s)
    (ha : is_floor_add e = false) (hr : is_floor_remove e = false) : QuietS s (emit e s) :=
  quietS_of hs rfl rfl ((floorLog_emit e s).castL (by simp [ha]) (by simp [hr]))

theorem quietS_set_enabled (n v : Nat) (s : State) (hs : all_succeed s) :
    QuietS s (set_enabled n v s) :=
  quietS_of hs rfl rfl (floorLog_of_log_eq rfl)

theorem quietS_pop_emit (e : Ev) (s : State) (hs : all_succeed s)
    (ha : is_floor_add e = false) (hr : is_floor_remove e = false) :
    QuietS s (emit e (pop_oracle s)) :=
  ⟨rfl, all_succeed_of_oracle (all_succeed_pop s hs) rfl,
    ((floorLog_of_log_eq (log_pop_oracle s)).transL (floorLog_emit e (pop_oracle s))).castL
      (by simp [ha]) (by simp [hr])⟩

theorem reach_head {t : Nat → clk} {n p m : Nat}
    (he : (t n).parent = some p ∨ (t n).bus_parent = some p ∨ (t n).clock = some p)
    (hr : Reach t p m) : Reach t n m := by
  induction hr with
  | here => exact Reach.next Reach.here he
  | next _ hp ih => exact Reach.next ih hp

theorem reach_cases {t : Nat → clk} {n m : Nat} (hr : Reach t n m) :
    m = n ∨ ∃ p, ((t n).parent = some p ∨ (t n).bus_parent = some p ∨ (t n).clock = some p) ∧
      Reach t p m := by
  induction hr with
  | here => exact Or.inl rfl
  | next _ hp ih =>
    rcases ih with h | ⟨q, hq, hqr⟩
    · subst h
      exact Or.inr ⟨_, hp, Reach.here⟩
    · exact Or.inr ⟨q, hq, Reach.next hqr hp⟩

theorem floorFree_edge {t : Nat → clk} {n : Nat} (h : FloorFree t (some n)) (c : Option Nat)
    (he : (t n).parent = c ∨ (t n).bus_parent = c ∨ (t n).clock = c) : FloorFree t c := by
  intro x m hx hr
  subst hx
  exact h n m rfl (reach_head he hr)

theorem uses_floor_sameTopo {a b : Nat → clk} (h : SameTopo a b) (m : Nat) :
    uses_floor (b m) ↔ uses_floor (a m) := by
  unfold uses_floor ops_enable_fn ops_disable_fn
  rw [h.opsT m]

theorem floorFree_sameTopo {a b : Nat → clk} (h : SameTopo a b) {c : Option Nat}
    (hf : FloorFree a c) : FloorFree b c := by
  intro x m hx hr
  rw [uses_floor_sameTopo h m]
  exact hf x m hx (reach_sameTopo h hr)

theorem floorFree_of_eq {a b : Nat → clk} (h : b = a) {c : Option Nat}
    (hf : FloorFree a c) : FloorFree b c := by
  subst h; exact hf

theorem invoke_enable_neutral (rank : Nat → Nat) (f : Nat)
    (hE : ∀ c L s, Ranked s.clks rank → orank rank c < f → FloorFree s.clks c →
      all_succeed s →
      ∃ s', __clk_enable f c L s = some (0, s') ∧ SameTopo s.clks s'.clks ∧ QuietS s s')
    (hD : ∀ c L s, Ranked s.clks rank → orank rank c < f → FloorFree s.clks c →
      all_succeed s →
      ∃ s', __clk_disable f c L s = some s' ∧ SameTopo s.clks s'.clks ∧ QuietS s s')
    (n : Nat) (s : State) (hR : Ranked s.clks rank) (hn : rank n < f)
    (hF : FloorFree s.clks (some n)) (hs : all_succeed s) :
    ∃ s', invoke_enable (__clk_enable f) (__clk_disable f) n s = some (0, s') ∧
      SameTopo s.clks s'.clks ∧ QuietS s s' := by
  unfold invoke_enable
  cases hfn : ops_enable_fn (s.clks n) with
  | none => exact ⟨s, rfl, SameTopo.reflT _, quietS_refl s hs⟩
  | some fn =>
    cases fn with
    | prcmu_clk_enable =>
      have hq := quietS_pop_emit (Ev.prcmu_request_clock (s.clks n).cg_sel true 0) s hs rfl rfl
      refine ⟨emit (Ev.ops_enable n 0) (emit (Ev.prcmu_request_clock (s.clks n).cg_sel true 0)
        (pop_oracle s)), ?_, SameTopo.reflT _, hq.transQ (quietS_emit _ _ hq.2.1 rfl rfl)⟩
      simp only [call_enable, prcmu_clk_enable, request_clock_ok _ _ _ hs]
    | prcmu_opp100_clk_enable => exact absurd (Or.inl hfn) (hF n n rfl Reach.here)
    | prcc_pclk_enable =>
      have hq := quietS_emit (Ev.writel (s.clks n).cg_sel ((s.clks n).io_base + PRCC_PCKEN)) s
        hs rfl rfl
      refine ⟨emit (Ev.ops_enable n 0) (writel (s.clks n).cg_sel
        ((s.clks n).io_base + PRCC_PCKEN) s), ?_, SameTopo.reflT _,
        hq.transQ (quietS_emit _ _ hq.2.1 rfl rfl)⟩
      simp only [call_enable, prcc_pclk_enable]
    | prcc_kclk_enable =>
      have hle : orank rank (s.clks n).clock ≤ rank n :=
        orank_le_of_edge hR n _ (Or.inr (Or.inr rfl))
      obtain ⟨s1, h1, t1, q1⟩ := hE (s.clks n).clock (lockOf (s.clks n).mutex) s hR
        (lt_of_le_of_lt hle hn) (floorFree_edge hF _ (Or.inr (Or.inr rfl))) hs
      have hR1 : Ranked s1.clks rank := t1.rankedT hR
      have hF1 : FloorFree s1.clks (some n) := floorFree_sameTopo t1 hF
      have hq2 := quietS_emit (Ev.writel (s1.clks n).cg_sel ((s1.clks n).io_base + PRCC_KCKEN))
        s1 q1.2.1 rfl rfl
      have hle2 : orank rank ((writel (s1.clks n).cg_sel ((s1.clks n).io_base + PRCC_KCKEN)
          s1).clks n).clock ≤ rank n := orank_le_of_edge hR1 n _ (Or.inr (Or.inr rfl))
      obtain ⟨s3, h3, t3, q3⟩ := hD
        ((writel (s1.clks n).cg_sel ((s1.clks n).io_base + PRCC_KCKEN) s1).clks n).clock
        (lockOf ((writel (s1.clks n).cg_sel ((s1.clks n).io_base + PRCC_KCKEN) s1).clks n).mutex)
        (writel (s1.clks n).cg_sel ((s1.clks n).io_base + PRCC_KCKEN) s1) hR1
        (lt_of_le_of_lt hle2 hn) (floorFree_edge hF1 _ (Or.inr (Or.inr rfl))) hq2.2.1
      refine ⟨emit (Ev.ops_enable n 0) s3, ?_, t1.transT t3,
        ((q1.transQ hq2).transQ q3).transQ (quietS_emit _ _ q3.2.1 rfl rfl)⟩
      simp only [call_enable, prcc_kclk_enable, h1, ne_eq, not_true_eq_false, if_false, h3]

theorem invoke_disable_neutral (rank : Nat → Nat) (f : Nat)
    (hE : ∀ c L s, Ranked s.clks rank → orank rank c < f → FloorFree s.clks c →
      all_succeed s →
      ∃ s', __clk_enable f c L s = some (0, s') ∧ SameTopo s.clks s'.clks ∧ QuietS s s')
    (hD : ∀ c L s, Ranked s.clks rank → orank rank c < f → FloorFree s.clks c →
      all_succeed s →
      ∃ s', __clk_disable f c L s = some s' ∧ SameTopo s.clks s'.clks ∧ QuietS s s')
    (n : Nat) (s : State) (hR : Ranked s.clks rank) (hn : rank n < f)
    (hF : FloorFree s.clks (some n)) (hs : all_succeed s) :
    ∃ s', invoke_disable (__clk_enable f) (__clk_disable f) n s = some s' ∧
      SameTopo s.clks s'.clks ∧ QuietS s s' := by
  unfold invoke_disable
  have hq0 := quietS_emit (Ev.ops_disable n) s hs rfl rfl
  cases hfn : ops_disable_fn (s.clks n) with
  | none => exact ⟨s, rfl, SameTopo.reflT _, quietS_refl s hs⟩
  | some fn =>
    cases fn with
    | prcmu_clk_disable =>
      have hq := quietS_pop_emit (Ev.prcmu_request_clock (s.clks n).cg_sel false 0)
        (emit (Ev.ops_disable n) s) hq0.2.1 rfl rfl
      refine ⟨emit (Ev.prcmu_request_clock (s.clks n).cg_sel false 0)
        (pop_oracle (emit (Ev.ops_disable n) s)), ?_, SameTopo.reflT _, hq0.transQ hq⟩
      simp only [call_disable, prcmu_clk_disable, request_clock_ok _ _ _ hq0.2.1, clks_emit,
        ne_eq, not_true_eq_false, if_false]
    | prcmu_opp100_clk_disable => exact absurd (Or.inr hfn) (hF n n rfl Reach.here)
    | prcc_pclk_disable =>
      have hq := quietS_emit (Ev.writel (s.clks n).cg_sel ((s.clks n).io_base + PRCC_PCKDIS))
        (emit (Ev.ops_disable n) s) hq0.2.1 rfl rfl
      refine ⟨writel (s.clks n).cg_sel ((s.clks n).io_base + PRCC_PCKDIS)
        (emit (Ev.ops_disable n) s), ?_, SameTopo.reflT _, hq0.transQ hq⟩
      simp only [call_disable, prcc_pclk_disable, clks_emit]
    | prcc_kclk_disable =>
      have hle : orank rank (s.clks n).clock ≤ rank n :=
        orank_le_of_edge hR n _ (Or.inr (Or.inr rfl))
      obtain ⟨s1, h1, t1, q1⟩ := hE (s.clks n).clock (lockOf (s.clks n).mutex)
        (emit (Ev.ops_disable n) s) hR
        (lt_of_le_of_lt hle hn) (floorFree_edge hF _ (Or.inr (Or.inr rfl))) hq0.2.1
      rw [clks_emit] at t1
      have hR1 : Ranked s1.clks rank := t1.rankedT hR
      have hF1 : FloorFree s1.clks (some n) := floorFree_sameTopo t1 hF
      have hq2 := quietS_emit (Ev.writel (s1.clks n).cg_sel ((s1.clks n).io_base + PRCC_KCKDIS))
        s1 q1.2.1 rfl rfl
      have hle2 : orank rank ((writel (s1.clks n).cg_sel ((s1.clks n).io_base + PRCC_KCKDIS)
          s1).clks n).clock ≤ rank n := orank_le_of_edge hR1 n _ (Or.inr (Or.inr rfl))
      obtain ⟨s3, h3, t3, q3⟩ := hD
        ((writel (s1.clks n).cg_sel ((s1.clks n).io_base + PRCC_KCKDIS) s1).clks n).clock
        (lockOf ((writel (s1.clks n).cg_sel ((s1.clks n).io_base + PRCC_KCKDIS) s1).clks n).mutex)
        (writel (s1.clks n).cg_sel ((s1.clks n).io_base + PRCC_KCKDIS) s1) hR1
        (lt_of_le_of_lt hle2 hn) (floorFree_edge hF1 _ (Or.inr (Or.inr rfl))) hq2.2.1
      refine ⟨s3, ?_, t1.transT t3, ((hq0.transQ q1).transQ hq2).transQ q3⟩
      simp only [call_disable, prcc_kclk_disable, clks_emit, h1, h3]

theorem enable_neutral_step (rank : Nat → Nat) (f : Nat)
    (hE : ∀ c L s, Ranked s.clks rank → orank rank c < f → FloorFree s.clks c →
      all_succeed s →
      ∃ s', __clk_enable f c L s = some (0, s') ∧ SameTopo s.clks s'.clks ∧ QuietS s s')
    (hD : ∀ c L s, Ranked s.clks rank → orank rank c < f → FloorFree s.clks c →
      all_succeed s →
      ∃ s', __clk_disable f c L s = some s' ∧ SameTopo s.clks s'.clks ∧ QuietS s s')
    (n : Nat) (L : LockPtr) (s : State) (hR : Ranked s.clks rank) (hn : rank n < f)
    (hF : FloorFree s.clks (some n)) (hs : all_succeed s) :
    ∃ s', __clk_enable (f + 1) (some n) L s = some (0, s') ∧ SameTopo s.clks s'.clks ∧
      QuietS s s' := by
  have q0 := quietS_lock n L s hs
  by_cases hc : (s.clks n).enabled = 0
  swap
  · have q1 := quietS_set_enabled n ((s.clks n).enabled + 1) _ q0.2.1
    refine ⟨__clk_unlock n L (set_enabled n ((s.clks n).enabled + 1) (__clk_lock n L s)),
      ?_, ?_, (q0.transQ q1).transQ (quietS_unlock n L _ q1.2.1)⟩
    · simp [__clk_enable, hc, enable_done]
    · rw [clks_unlock]
      have := sameTopo_set_enabled n ((s.clks n).enabled + 1) (__clk_lock n L s)
      rwa [clks_lock] at this
  · have hR0 : Ranked (__clk_lock n L s).clks rank := by rw [clks_lock]; exact hR
    have hF0 : FloorFree (__clk_lock n L s).clks (some n) :=
      floorFree_of_eq (clks_lock n L s) hF
    obtain ⟨s1, h1, t1, q1⟩ := hE (s.clks n).bus_parent (lockOf (s.clks n).mutex)
      (__clk_lock n L s) hR0
      (lt_of_le_of_lt (orank_le_of_edge hR n _ (Or.inr (Or.inl rfl))) hn)
      (floorFree_edge hF0 _ (Or.inr (Or.inl (by rw [clks_lock])))) q0.2.1
    have hR1 : Ranked s1.clks rank := t1.rankedT hR0
    have hF1 : FloorFree s1.clks (some n) := floorFree_sameTopo t1 hF0
    obtain ⟨s2, h2, t2, q2⟩ := hE (s1.clks n).parent (lockOf (s1.clks n).mutex) s1 hR1
      (lt_of_le_of_lt (orank_le_of_edge hR1 n _ (Or.inl rfl)) hn)
      (floorFree_edge hF1 _ (Or.inl rfl)) q1.2.1
    have hR2 : Ranked s2.clks rank := t2.rankedT hR1
    have hF2 : FloorFree s2.clks (some n) := floorFree_sameTopo t2 hF1
    obtain ⟨s3, h3, t3, q3⟩ := invoke_enable_neutral rank f hE hD n s2 hR2 hn hF2 q2.2.1
    have q4 := quietS_set_enabled n ((s3.clks n).enabled + 1) s3 q3.2.1
    refine ⟨__clk_unlock n L (set_enabled n ((s3.clks n).enabled + 1) s3), ?_, ?_,
      ((((q0.transQ q1).transQ q2).transQ q3).transQ q4).transQ (quietS_unlock n L _ q4.2.1)⟩
    · simp only [__clk_enable, clks_lock, hc, if_true, h1, ne_eq, not_true_eq_false, if_false,
        h2, h3, enable_done]
    · rw [clks_unlock]
      have t0 : SameTopo s.clks (__clk_lock n L s).clks := SameTopo.of_eqT (clks_lock n L s)
      exact (((t0.transT t1).transT t2).transT t3).transT (sameTopo_set_enabled n _ s3)

theorem disable_neutral_step (rank : Nat → Nat) (f : Nat)
    (hE : ∀ c L s, Ranked s.clks rank → orank rank c < f → FloorFree s.clks c →
      all_succeed s →
      ∃ s', __clk_enable f c L s = some (0, s') ∧ SameTopo s.clks s'.clks ∧ QuietS s s')
    (hD : ∀ c L s, Ranked s.clks rank → orank rank c < f → FloorFree s.clks c →
      all_succeed s →
      ∃ s', __clk_disable f c L s = some s' ∧ SameTopo s.clks s'.clks ∧ QuietS s s')
    (n : Nat) (L : LockPtr) (s : State) (hR : Ranked s.clks rank) (hn : rank n < f)
    (hF : FloorFree s.clks (some n)) (hs : all_succeed s) :
    ∃ s', __clk_disable (f + 1) (some n) L s = some s' ∧ SameTopo s.clks s'.clks ∧
      QuietS s s' := by
  have q0 := quietS_lock n L s hs
  have t0 : SameTopo s.clks (__clk_lock n L s).clks := SameTopo.of_eqT (clks_lock n L s)
  by_cases hc : (s.clks n).enabled = 0
  · refine ⟨__clk_unlock n L (__clk_lock n L s), by simp [__clk_disable, hc], ?_,
      q0.transQ (quietS_unlock n L _ q0.2.1)⟩
    rw [clks_unlock]
    exact t0
  · have q1 := quietS_set_enabled n ((s.clks n).enabled - 1) _ q0.2.1
    have t1 : SameTopo s.clks (set_enabled n ((s.clks n).enabled - 1) (__clk_lock n L s)).clks :=
      t0.transT (sameTopo_set_enabled n _ _)
    by_cases hc1 : (s.clks n).enabled - 1 = 0
    · have hR1 := t1.rankedT hR
      have hF1 := floorFree_sameTopo t1 hF
      obtain ⟨sa, ha, ta, qa⟩ := invoke_disable_neutral rank f hE hD n _ hR1 hn hF1 q1.2.1
      have hRa : Ranked sa.clks rank := ta.rankedT hR1
      have hFa : FloorFree sa.clks (some n) := floorFree_sameTopo ta hF1
      obtain ⟨sb, hb, tb, qb⟩ := hD (sa.clks n).parent (lockOf (sa.clks n).mutex) sa hRa
        (lt_of_le_of_lt (orank_le_of_edge hRa n _ (Or.inl rfl)) hn)
        (floorFree_edge hFa _ (Or.inl rfl)) qa.2.1
      have hRb : Ranked sb.clks rank := tb.rankedT hRa
      have hFb : FloorFree sb.clks (some n) := floorFree_sameTopo tb hFa
      obtain ⟨sc, hc', tc, qc⟩ := hD (sb.clks n).bus_parent (lockOf (sb.clks n).mutex) sb hRb
        (lt_of_le_of_lt (orank_le_of_edge hRb n _ (Or.inr (Or.inl rfl))) hn)
        (floorFree_edge hFb _ (Or.inr (Or.inl rfl))) qb.2.1
      refine ⟨__clk_unlock n L sc, ?_, ?_,
        ((((q0.transQ q1).transQ qa).transQ qb).transQ qc).transQ (quietS_unlock n L _ qc.2.1)⟩
      · simp only [__clk_disable, clks_lock, ne_eq, hc, not_false_eq_true, if_true,
          clks_set_enabled_self, hc1]
        rw [hc1] at ha
        simp only [ha, hb, hc']
      · rw [clks_unlock]
        exact ((t1.transT ta).transT tb).transT tc
    · refine ⟨__clk_unlock n L (set_enabled n ((s.clks n).enabled - 1) (__clk_lock n L s)),
        ?_, ?_, (q0.transQ q1).transQ (quietS_unlock n L _ q1.2.1)⟩
      · simp only [__clk_disable, clks_lock, ne_eq, hc, not_false_eq_true, if_true,
          clks_set_enabled_self, hc1, if_false]
      · rw [clks_unlock]
        exact t1

/-- In an acyclic tree, when every external call succeeds, `__clk_enable` and
`__clk_disable` of a node that neither has nor depends on an operation of the
full-performance profile succeed and leave the requester count and the performance floor
alone. -/
theorem neutral_spec (rank : Nat → Nat) : ∀ f : Nat,
    (∀ c L s, Ranked s.clks rank → orank rank c < f → FloorFree s.clks c → all_succeed s →
      ∃ s', __clk_enable f c L s = some (0, s') ∧ SameTopo s.clks s'.clks ∧ QuietS s s') ∧
    (∀ c L s, Ranked s.clks rank → orank rank c < f → FloorFree s.clks c → all_succeed s →
      ∃ s', __clk_disable f c L s = some s' ∧ SameTopo s.clks s'.clks ∧ QuietS s s') := by
  intro f
  induction f with
  | zero => exact ⟨fun _ _ _ _ h => absurd h (Nat.not_lt_zero _),
      fun _ _ _ _ h => absurd h (Nat.not_lt_zero _)⟩
  | succ f ih =>
    obtain ⟨hE, hD⟩ := ih
    constructor
    · intro c L s hR hlt hF hs
      cases c with
      | none => exact ⟨s, by simp [__clk_enable], SameTopo.reflT _, quietS_refl s hs⟩
      | some n =>
        exact enable_neutral_step rank f hE hD n L s hR (by simpa [orank] using hlt) hF hs
    · intro c L s hR hlt hF hs
      cases c with
      | none => exact ⟨s, by simp [__clk_disable], SameTopo.reflT _, quietS_refl s hs⟩
      | some n =>
        exact disable_neutral_step rank f hE hD n L s hR (by simpa [orank] using hlt) hF hs

theorem uses_floor_of_profile {c : clk} (h : c.ops = some prcmu_opp100_clk_ops) :
    uses_floor c := by
  left
  simp [ops_enable_fn, h, prcmu_opp100_clk_ops]

theorem profile_node_sameTopo {a b : Nat → clk} (h : SameTopo a b) {n : Nat}
    (hp : profile_node a n) : profile_node b n := by
  obtain ⟨h1, h2, h3, h4⟩ := hp
  refine ⟨by rw [h.opsT]; exact h1, ?_, ?_, ?_⟩
  · rw [h.parentT]; exact floorFree_sameTopo h h2
  · rw [h.bus_parentT]; exact floorFree_sameTopo h h3
  · rw [h.clockT]; exact floorFree_sameTopo h h4

theorem not_reach_of_profile {t : Nat → clk} {a b : Nat} (ha : profile_node t a)
    (hb : uses_floor (t b)) (hab : a ≠ b) : ¬ Reach t a b := by
  intro hr
  rcases reach_cases hr with h | ⟨p, hp, hpr⟩
  · exact hab h.symm
  · rcases hp with hp | hp | hp
    · exact ha.2.1 p b hp hpr hb
    · exact ha.2.2.1 p b hp hpr hb
    · exact ha.2.2.2 p b hp hpr hb

/-- `clk_enable` of a disabled clock of the full-performance profile, every external call
succeeding: the requester count goes up by one and the floor is requested exactly when
the count was `0`. -/
theorem profile_enable (rank : Nat → Nat) (fuel a : Nat) (s : State)
    (hR : Ranked s.clks rank) (hf : rank a + 1 < fuel) (hp : profile_node s.clks a)
    (h0 : (s.clks a).enabled = 0) (hs : all_succeed s) (hq : s.requests + 1 < 4294967296) :
    ∃ s1, clk_enable fuel (some a) s = some (0, s1) ∧ s1.requests = s.requests + 1 ∧
      all_succeed s1 ∧ FloorLog (if s.requests = 0 then 1 else 0) 0 s s1 ∧
      SameTopo s.clks s1.clks ∧ (s1.clks a).enabled = 1 ∧
      ∀ m, ¬ Reach s.clks a m → s1.clks m = s.clks m := by
  obtain ⟨f, rfl⟩ : ∃ f, fuel = f + 1 := ⟨fuel - 1, by omega⟩
  have hn : rank a < f := by omega
  obtain ⟨hE, -⟩ := neutral_spec rank f
  obtain ⟨hops, hFp, hFb, -⟩ := hp
  have q0 := quietS_lock a NO_LOCK s hs
  have hR0 : Ranked (__clk_lock a NO_LOCK s).clks rank := by rw [clks_lock]; exact hR
  obtain ⟨s1, h1, t1, q1⟩ := hE (s.clks a).bus_parent (lockOf (s.clks a).mutex)
    (__clk_lock a NO_LOCK s) hR0
    (lt_of_le_of_lt (orank_le_of_edge hR a _ (Or.inr (Or.inl rfl))) hn)
    (floorFree_of_eq (clks_lock a NO_LOCK s) hFb) q0.2.1
  rw [clks_lock] at t1
  have hR1 : Ranked s1.clks rank := t1.rankedT hR
  obtain ⟨s2, h2, t2, q2⟩ := hE (s1.clks a).parent (lockOf (s1.clks a).mutex) s1 hR1
    (lt_of_le_of_lt (orank_le_of_edge hR1 a _ (Or.inl rfl)) hn)
    (by rw [t1.parentT]; exact floorFree_sameTopo t1 hFp) q1.2.1
  have hfn : ops_enable_fn (s2.clks a) = some EnableFn.prcmu_opp100_clk_enable := by
    simp [ops_enable_fn, (t1.transT t2).opsT a, hops, prcmu_opp100_clk_ops]
  have hreq2 : s2.requests = s.requests := by rw [q2.1, q1.1, q0.1]
  obtain ⟨s3, h3, c3, r3, a3, l3⟩ := opp100_enable_ok a s2 q2.2.1 (by rw [hreq2]; exact hq)
  rw [hreq2] at r3 l3
  have hres : clk_enable (f + 1) (some a) s = some (0, __clk_unlock a NO_LOCK
      (set_enabled a ((s3.clks a).enabled + 1) (emit (Ev.ops_enable a 0) s3))) := by
    simp only [clk_enable, __clk_enable, clks_lock, h0, if_true, h1, ne_eq, not_true_eq_false,
      if_false, h2, invoke_enable, hfn, call_enable, h3, enable_done, clks_emit]
  obtain ⟨r, sx, hx, ev, -, hok⟩ := enable_spec rank (f + 1) (some a) NO_LOCK s hR hf
  have hx' : clk_enable (f + 1) (some a) s = some (r, sx) := hx
  rw [hres] at hx'
  simp only [Option.some.injEq, Prod.mk.injEq] at hx'
  obtain ⟨hr0, hsx⟩ := hx'
  subst hr0
  refine ⟨_, hres, ?_, ?_, ?_, ?_, ?_, ?_⟩
  · rw [requests_unlock, requests_set_enabled, requests_emit, r3]
  · exact all_succeed_of_oracle a3 (by rw [oracle_unlock, oracle_set_enabled, oracle_emit])
  · exact ((((((floorLog_lock a NO_LOCK s).transL q1.2.2).transL q2.2.2).transL l3).transL
      (floorLog_emit (Ev.ops_enable a 0) s3)).transL
      ((floorLog_of_log_eq (log_set_enabled a _ _)).transL (floorLog_unlock a NO_LOCK _))).castL
      (by simp [is_floor_add]) (by simp [is_floor_remove])
  · rw [hsx]; exact ev.1
  · rw [hsx, ((hok rfl).1 a rfl).1, h0]
  · intro m hm
    rw [hsx]
    exact enable_frame_reach rank (f + 1) a NO_LOCK s hR hf 0 sx hx m hm

/-- `clk_disable` of a clock of the full-performance profile with count `1`, every
external call succeeding: the requester count goes down by one and the floor is released
exactly when the count was `1`. -/
theorem profile_disable (rank : Nat → Nat) (fuel a : Nat) (s : State)
    (hR : Ranked s.clks rank) (hf : rank a + 1 < fuel) (hp : profile_node s.clks a)
    (h1 : (s.clks a).enabled = 1) (hs : all_succeed s) (hq : 0 < s.requests)
    (hq2 : s.requests < 4294967296) :
    ∃ s1, clk_disable fuel (some a) s = some s1 ∧ s1.requests = s.requests - 1 ∧
      all_succeed s1 ∧ FloorLog 0 (if s.requests = 1 then 1 else 0) s s1 ∧
      SameTopo s.clks s1.clks ∧ (s1.clks a).enabled = 0 ∧
      ∀ m, ¬ Reach s.clks a m → s1.clks m = s.clks m := by
  obtain ⟨f, rfl⟩ : ∃ f, fuel = f + 1 := ⟨fuel - 1, by omega⟩
  have hn : rank a < f := by omega
  obtain ⟨-, hD⟩ := neutral_spec rank f
  obtain ⟨hops, hFp, hFb, -⟩ := hp
  have hne : ¬ (s.clks a).enabled = 0 := by rw [h1]; exact one_ne_zero
  have t0 : SameTopo s.clks (set_enabled a 0 (__clk_lock a NO_LOCK s)).clks :=
    (SameTopo.of_eqT (clks_lock a NO_LOCK s)).transT (sameTopo_set_enabled a 0 _)
  have hs0 : all_succeed (emit (Ev.ops_disable a) (set_enabled a 0 (__clk_lock a NO_LOCK s))) :=
    all_succeed_of_oracle hs (by rw [oracle_emit, oracle_set_enabled, oracle_lock])
  obtain ⟨h2c, h2r, h2s, h2l⟩ := opp100_disable_ok a _ hs0
    (by rw [requests_emit, requests_set_enabled, requests_lock]; exact hq)
    (by rw [requests_emit, requests_set_enabled, requests_lock]; exact hq2)
  rw [requests_emit, requests_set_enabled, requests_lock] at h2r h2l
  rw [clks_emit] at h2c
  have t2 : SameTopo s.clks (prcmu_opp100_clk_disable a
      (emit (Ev.ops_disable a) (set_enabled a 0 (__clk_lock a NO_LOCK s)))).clks :=
    t0.transT (SameTopo.of_eqT h2c)
  have hR2 := t2.rankedT hR
  obtain ⟨sb, hb, tb, qb⟩ := hD _ (lockOf ((prcmu_opp100_clk_disable a
      (emit (Ev.ops_disable a) (set_enabled a 0 (__clk_lock a NO_LOCK s)))).clks a).mutex) _ hR2
    (lt_of_le_of_lt (orank_le_of_edge hR2 a _ (Or.inl rfl)) hn)
    (by rw [t2.parentT]; exact floorFree_sameTopo t2 hFp) h2s
  have hRb := tb.rankedT hR2
  obtain ⟨sc, hc, tc, qc⟩ := hD (sb.clks a).bus_parent (lockOf (sb.clks a).mutex) sb hRb
    (lt_of_le_of_lt (orank_le_of_edge hRb a _ (Or.inr (Or.inl rfl))) hn)
    (by rw [(t2.transT tb).bus_parentT]; exact floorFree_sameTopo (t2.transT tb) hFb) qb.2.1
  have hfn : ops_disable_fn ((set_enabled a 0 (__clk_lock a NO_LOCK s)).clks a)
      = some DisableFn.prcmu_opp100_clk_disable := by
    simp [ops_disable_fn, hops, prcmu_opp100_clk_ops]
  have hres : clk_disable (f + 1) (some a) s = some (__clk_unlock a NO_LOCK sc) := by
    simp only [clk_disable, if_neg hne]
    simp only [__clk_disable, clks_lock, ne_eq, hne, not_false_eq_true, if_true, h1,
      Nat.sub_self, invoke_disable, hfn, call_disable, hb, hc]
    simp
  obtain ⟨sx, hx, ev, hdec⟩ := disable_spec rank (f + 1) (some a) NO_LOCK s hR hf
  have hx' : clk_disable (f + 1) (some a) s = some sx := by
    simp only [clk_disable, if_neg hne]
    exact hx
  rw [hres] at hx'
  simp only [Option.some.injEq] at hx'
  refine ⟨_, hres, ?_, ?_, ?_, ?_, ?_, ?_⟩
  · rw [requests_unlock, qc.1, qb.1, h2r]
  · exact all_succeed_of_oracle qc.2.1 (oracle_unlock _ _ _)
  · exact (((((((floorLog_lock a NO_LOCK s).transL
      (floorLog_of_log_eq (log_set_enabled a 0 _))).transL
      (floorLog_emit (Ev.ops_disable a) _)).transL h2l).transL qb.2.2).transL qc.2.2).transL
      (floorLog_unlock a NO_LOCK _)).castL
      (by simp [is_floor_add]) (by simp [is_floor_remove])
  · rw [hx']; exact ev.1
  · rw [hx', hdec a rfl, h1]
  · intro m hm
    rw [hx']
    exact disable_frame_reach rank (f + 1) a NO_LOCK s hR hf sx hx m hm

/-- C8: performance-floor counting.  In an acyclic tree, starting from a requester count
of `0`, with two distinct disabled clocks `a` and `b` of the full-performance profile (no
clock they depend on touches the floor) and every external call succeeding:
`clk_enable(a)`, `clk_enable(b)` and then the two `clk_disable` calls in either order
(`x`, `y`) all return; the floor is requested once, by the first enable, and released
once, by the last disable; the requester count is `2` after the enables and back at `0`
at the end.  The statement is symmetric in `a` and `b`, so it covers both orders of the
enables. -/
theorem C8_floor_counting (rank : Nat → Nat) (fuel a b x y : Nat) (s : State)
    (hR : Ranked s.clks rank) (hfa : rank a + 1 < fuel) (hfb : rank b + 1 < fuel)
    (hab : a ≠ b) (ha : profile_node s.clks a) (hb : profile_node s.clks b)
    (ha0 : (s.clks a).enabled = 0) (hb0 : (s.clks b).enabled = 0)
    (hq : s.requests = 0) (hs : all_succeed s)
    (hxy : (x = a ∧ y = b) ∨ (x = b ∧ y = a)) :
    ∃ s1 s2 s3 s4, clk_enable fuel (some a) s = some (0, s1) ∧
      clk_enable fuel (some b) s1 = some (0, s2) ∧
      clk_disable fuel (some x) s2 = some s3 ∧ clk_disable fuel (some y) s3 = some s4 ∧
      FloorLog 1 0 s s1 ∧ FloorLog 0 0 s1 s2 ∧ FloorLog 0 0 s2 s3 ∧ FloorLog 0 1 s3 s4 ∧
      s2.requests = 2 ∧ s4.requests = 0 := by
  have hua : uses_floor (s.clks a) := uses_floor_of_profile ha.1
  have hub : uses_floor (s.clks b) := uses_floor_of_profile hb.1
  -- first enable
  obtain ⟨s1, h1, r1, a1, l1, t1, c1, f1⟩ := profile_enable rank fuel a s hR hfa ha ha0 hs
    (by rw [hq]; norm_num)
  rw [hq] at r1 l1
  have hR1 := t1.rankedT hR
  have ha1 := profile_node_sameTopo t1 ha
  have hb1 := profile_node_sameTopo t1 hb
  have hb10 : (s1.clks b).enabled = 0 := by
    rw [f1 b (not_reach_of_profile ha hub hab)]; exact hb0
  -- second enable
  obtain ⟨s2, h2, r2, a2, l2, t2, c2, f2⟩ := profile_enable rank fuel b s1 hR1 hfb hb1 hb10 a1
    (by rw [r1]; norm_num)
  rw [r1] at r2 l2
  have hR2 := t2.rankedT hR1
  have ha2 := profile_node_sameTopo t2 ha1
  have hb2 := profile_node_sameTopo t2 hb1
  have hca2 : (s2.clks a).enabled = 1 := by
    rw [f2 a (not_reach_of_profile hb1 (uses_floor_of_profile ha1.1) (Ne.symm hab))]; exact c1
  have key : ∀ z, z = a ∨ z = b → profile_node s2.clks z ∧ (s2.clks z).enabled = 1 := by
    intro z hz
    rcases hz with rfl | rfl
    · exact ⟨ha2, hca2⟩
    · exact ⟨hb2, c2⟩
  have hx : x = a ∨ x = b := by rcases hxy with ⟨h, -⟩ | ⟨h, -⟩ <;> simp [h]
  have hy : y = a ∨ y = b := by rcases hxy with ⟨-, h⟩ | ⟨-, h⟩ <;> simp [h]
  have hne : x ≠ y := by
    rcases hxy with ⟨h, h'⟩ | ⟨h, h'⟩
    · rw [h, h']; exact hab
    · rw [h, h']; exact Ne.symm hab
  have hfx : rank x + 1 < fuel := by rcases hx with rfl | rfl <;> assumption
  have hfy : rank y + 1 < fuel := by rcases hy with rfl | rfl <;> assumption
  -- first disable
  obtain ⟨s3, h3, r3, a3, l3, t3, -, f3⟩ := profile_disable rank fuel x s2 hR2 hfx (key x hx).1
    (key x hx).2 a2 (by rw [r2]; norm_num) (by rw [r2]; norm_num)
  rw [r2] at r3 l3
  have hR3 := t3.rankedT hR2
  have hy3 : profile_node s3.clks y := profile_node_sameTopo t3 (key y hy).1
  have hcy3 : (s3.clks y).enabled = 1 := by
    rw [f3 y (not_reach_of_profile (key x hx).1 (uses_floor_of_profile (key y hy).1.1) hne)]
    exact (key y hy).2
  -- last disable
  obtain ⟨s4, h4, r4, -, l4, -, -, -⟩ := profile_disable rank fuel y s3 hR3 hfy hy3 hcy3 a3
    (by rw [r3]; norm_num) (by rw [r3]; norm_num)
  rw [r3] at r4 l4
  exact ⟨s1, s2, s3, s4, h1, h2, h3, h4, l1.castL (by simp) rfl, l2.castL (by simp) rfl,
    l3.castL rfl (by simp), l4.castL rfl (by simp), r2, r4⟩

theorem floor_ranked : Ranked floor_clks floor_rank := by
  intro n p h
  unfold floor_clks at h
  unfold floor_rank
  split_ifs at h with h0 h1 h2
  · subst h0
    rcases h with h | h | h <;> simp at h
    subst h
    simp
  · subst h1
    rcases h with h | h | h <;> simp at h
    subst h
    simp
  · rcases h with h | h | h <;> simp at h
  · rcases h with h | h | h <;> simp at h

theorem floor_reach_two (m : Nat) (h : Reach floor_clks 2 m) : m = 2 := by
  induction h with
  | here => rfl
  | next _ hp ih =>
    subst ih
    rcases hp with hp | hp | hp <;> simp [floor_clks] at hp

theorem floor_free_two : FloorFree floor_clks (some 2) := by
  intro x m hx hr
  cases hx
  rw [floor_reach_two m hr]
  unfold uses_floor
  simp [floor_clks, ops_enable_fn, ops_disable_fn, prcc_pclk_ops]

theorem floor_free_none (t : Nat → clk) : FloorFree t none := by
  intro x m hx
  cases hx

/-- C8 on the example `floor_clks`: enable `0`, enable `1`, disable `1`, disable `0`. -/
theorem C8_floor_counting_witness :
    ∃ s1 s2 s3 s4, clk_enable 3 (some 0) floor_state = some (0, s1) ∧
      clk_enable 3 (some 1) s1 = some (0, s2) ∧
      clk_disable 3 (some 1) s2 = some s3 ∧ clk_disable 3 (some 0) s3 = some s4 ∧
      FloorLog 1 0 floor_state s1 ∧ FloorLog 0 0 s1 s2 ∧ FloorLog 0 0 s2 s3 ∧
      FloorLog 0 1 s3 s4 ∧ s2.requests = 2 ∧ s4.requests = 0 :=
  C8_floor_counting floor_rank 3 0 1 1 0 floor_state floor_ranked (by decide) (by decide)
    (by decide) ⟨rfl, floor_free_none _, floor_free_two, floor_free_none _⟩
    ⟨rfl, floor_free_none _, floor_free_two, floor_free_none _⟩ rfl rfl rfl
    (fun x hx => absurd hx (List.not_mem_nil x)) (Or.inr ⟨rfl, rfl⟩)

/-! ### Enable of `NULL` (C9) -/

/-- C9 (counterexample): `clk_enable(NULL)` returns `-EINVAL` (`-22`), not `0`. -/
theorem C9_clk_enable_null_fails :
    (clk_enable 1 none demo_state).map Prod.fst = some (-22) ∧
    (clk_enable 1 none demo_state).map Prod.fst ≠ some 0 := by
  exact ⟨by decide, by decide⟩

/-- C9 (amended): the public `clk_enable(NULL)` changes no state and returns the error
`-EINVAL`; it is the internal `__clk_enable(NULL, lock)`, reached for an absent parent,
that is a no-op returning success. -/
theorem C9_clk_enable_null (fuel : Nat) (L : LockPtr) (s : State) :
    clk_enable fuel none s = some (-EINVAL, s) ∧ -EINVAL ≠ 0 ∧
    __clk_enable (fuel + 1) none L s = some (0, s) := by
  refine ⟨rfl, by decide, ?_⟩
  simp [__clk_enable]

/-! ### Rate rounding and setting (C10) -/

theorem round_rate_clks : ∀ (fuel n rate : Nat) (s : State) (v : Int) (s' : State),
    __clk_round_rate fuel n rate s = some (v, s') → s'.clks = s.clks := by
  intro fuel
  induction fuel with
  | zero => intro n rate s v s' h; simp [__clk_round_rate] at h
  | succ f ih =>
    intro n rate s v s' h
    simp only [__clk_round_rate] at h
    cases hfn : ops_round_rate_fn (s.clks n) with
    | none =>
      simp only [hfn, Option.some.injEq, Prod.mk.injEq] at h
      rw [← h.2]
    | some fn =>
      simp only [hfn] at h
      cases fn with
      | prcmu_clk_round_rate =>
        simp only [call_round_rate, Option.some.injEq] at h
        have h2 := congrArg (fun q => q.2.clks) h
        exact h2.symm
      | clk_round_rate_rec =>
        simp only [call_round_rate, clk_round_rate_rec] at h
        cases hp : (s.clks n).parent with
        | none =>
          simp only [hp, Option.some.injEq, Prod.mk.injEq] at h
          rw [← h.2]
        | some p =>
          simp only [hp] at h
          cases hr : __clk_round_rate f p rate (__clk_lock p (lockOf (s.clks n).mutex) s) with
          | none => simp [hr] at h
          | some q =>
            obtain ⟨v1, s1⟩ := q
            simp only [hr, Option.some.injEq, Prod.mk.injEq] at h
            rw [← h.2, clks_unlock, ih p rate _ v1 s1 hr, clks_lock]

theorem set_rate_clks : ∀ (fuel n rate : Nat) (s : State) (v : Int) (s' : State),
    __clk_set_rate fuel n rate s = some (v, s') → s'.clks = s.clks := by
  intro fuel
  induction fuel with
  | zero => intro n rate s v s' h; simp [__clk_set_rate] at h
  | succ f ih =>
    intro n rate s v s' h
    simp only [__clk_set_rate] at h
    cases hfn : ops_set_rate_fn (s.clks n) with
    | none =>
      simp only [hfn, Option.some.injEq, Prod.mk.injEq] at h
      rw [← h.2]
    | some fn =>
      simp only [hfn] at h
      cases fn with
      | prcmu_clk_set_rate =>
        simp only [call_set_rate, Option.some.injEq] at h
        have h2 := congrArg (fun q => q.2.clks) h
        exact h2.symm
      | clk_set_rate_rec =>
        simp only [call_set_rate, clk_set_rate_rec] at h
        cases hp : (s.clks n).parent with
        | none =>
          simp only [hp, Option.some.injEq, Prod.mk.injEq] at h
          rw [← h.2]
        | some p =>
          simp only [hp] at h
          cases hr : __clk_set_rate f p rate (__clk_lock p (lockOf (s.clks n).mutex) s) with
          | none => simp [hr] at h
          | some q =>
            obtain ⟨v1, s1⟩ := q
            simp only [hr, Option.some.injEq, Prod.mk.injEq] at h
            rw [← h.2, clks_unlock, ih p rate _ v1 s1 hr, clks_lock]

theorem round_rate_total (rank : Nat → Nat) : ∀ (fuel n rate : Nat) (s : State),
    ParentRanked s.clks rank → rank n < fuel →
    ∃ v s', __clk_round_rate fuel n rate s = some (v, s') := by
  intro fuel
  induction fuel with
  | zero => intro n rate s _ h; exact absurd h (Nat.not_lt_zero _)
  | succ f ih =>
    intro n rate s hR hn
    simp only [__clk_round_rate]
    cases hfn : ops_round_rate_fn (s.clks n) with
    | none => exact ⟨_, _, rfl⟩
    | some fn =>
      cases fn with
      | prcmu_clk_round_rate => exact ⟨_, _, rfl⟩
      | clk_round_rate_rec =>
        simp only [call_round_rate, clk_round_rate_rec]
        cases hp : (s.clks n).parent with
        | none => exact ⟨_, _, rfl⟩
        | some p =>
          have hlt : rank p < f := by
            have := hR n p hp
            omega
          obtain ⟨v1, s1, h1⟩ := ih p rate (__clk_lock p (lockOf (s.clks n).mutex) s)
            (by rw [clks_lock]; exact hR) hlt
          simp only [h1]
          exact ⟨_, _, rfl⟩

theorem set_rate_total (rank : Nat → Nat) : ∀ (fuel n rate : Nat) (s : State),
    ParentRanked s.clks rank → rank n < fuel →
    ∃ v s', __clk_set_rate fuel n rate s = some (v, s') := by
  intro fuel
  induction fuel with
  | zero => intro n rate s _ h; exact absurd h (Nat.not_lt_zero _)
  | succ f ih =>
    intro n rate s hR hn
    simp only [__clk_set_rate]
    cases hfn : ops_set_rate_fn (s.clks n) with
    | none => exact ⟨_, _, rfl⟩
    | some fn =>
      cases fn with
      | prcmu_clk_set_rate => exact ⟨_, _, rfl⟩
      | clk_set_rate_rec =>
        simp only [call_set_rate, clk_set_rate_rec]
        cases hp : (s.clks n).parent with
        | none => exact ⟨_, _, rfl⟩
        | some p =>
          have hlt : rank p < f := by
            have := hR n p hp
            omega
          obtain ⟨v1, s1, h1⟩ := ih p rate (__clk_lock p (lockOf (s.clks n).mutex) s)
            (by rw [clks_lock]; exact hR) hlt
          simp only [h1]
          exact ⟨_, _, rfl⟩

/-- C10: for a node `n` and a target `rate`, `clk_round_rate` and `clk_set_rate` take the
lock of `n`, return exactly the result of the node's own `round_rate` / `set_rate`
operation when the node has one, and `-ENOSYS` when `ops` is `NULL` or the operation is
absent, and release the lock; whatever they return, the table of nodes (every `enabled`
count and every parent reference) is unchanged; on acyclic `parent` chains both
return. -/
theorem C10_rate_ops_delegate (fuel n rate : Nat) (s : State) :
    (∀ fn, ops_round_rate_fn (s.clks n) = some fn →
      clk_round_rate (fuel + 1) (some n) rate s =
        (call_round_rate (__clk_round_rate fuel) fn n rate (__clk_lock n NO_LOCK s)).map
          (fun r => (r.1, __clk_unlock n NO_LOCK r.2))) ∧
    (ops_round_rate_fn (s.clks n) = none →
      clk_round_rate (fuel + 1) (some n) rate s =
        some (-ENOSYS, __clk_unlock n NO_LOCK (__clk_lock n NO_LOCK s))) ∧
    (∀ fn, ops_set_rate_fn (s.clks n) = some fn →
      clk_set_rate (fuel + 1) (some n) rate s =
        (call_set_rate (__clk_set_rate fuel) fn n rate (__clk_lock n NO_LOCK s)).map
          (fun r => (r.1, __clk_unlock n NO_LOCK r.2))) ∧
    (ops_set_rate_fn (s.clks n) = none →
      clk_set_rate (fuel + 1) (some n) rate s =
        some (-ENOSYS, __clk_unlock n NO_LOCK (__clk_lock n NO_LOCK s))) ∧
    (∀ v s', clk_round_rate fuel (some n) rate s = some (v, s') → s'.clks = s.clks) ∧
    (∀ v s', clk_set_rate fuel (some n) rate s = some (v, s') → s'.clks = s.clks) ∧
    (∀ rank, ParentRanked s.clks rank → rank n < fuel →
      (∃ v s', clk_round_rate fuel (some n) rate s = some (v, s')) ∧
      (∃ v s', clk_set_rate fuel (some n) rate s = some (v, s'))) := by
  refine ⟨?_, ?_, ?_, ?_, ?_, ?_, ?_⟩
  · intro fn hfn
    simp only [clk_round_rate, __clk_round_rate, clks_lock, hfn]
    cases call_round_rate (__clk_round_rate fuel) fn n rate (__clk_lock n NO_LOCK s) <;> rfl
  · intro hfn
    simp only [clk_round_rate, __clk_round_rate, clks_lock, hfn]
  · intro fn hfn
    simp only [clk_set_rate, __clk_set_rate, clks_lock, hfn]
    cases call_set_rate (__clk_set_rate fuel) fn n rate (__clk_lock n NO_LOCK s) <;> rfl
  · intro hfn
    simp only [clk_set_rate, __clk_set_rate, clks_lock, hfn]
  · intro v s' h
    simp only [clk_round_rate] at h
    cases hr : __clk_round_rate fuel n rate (__clk_lock n NO_LOCK s) with
    | none => simp [hr] at h
    | some q =>
      obtain ⟨v1, s1⟩ := q
      simp only [hr, Option.some.injEq, Prod.mk.injEq] at h
      rw [← h.2, clks_unlock, round_rate_clks fuel n rate _ v1 s1 hr, clks_lock]
  · intro v s' h
    simp only [clk_set_rate] at h
    cases hr : __clk_set_rate fuel n rate (__clk_lock n NO_LOCK s) with
    | none => simp [hr] at h
    | some q =>
      obtain ⟨v1, s1⟩ := q
      simp only [hr, Option.some.injEq, Prod.mk.injEq] at h
      rw [← h.2, clks_unlock, set_rate_clks fuel n rate _ v1 s1 hr, clks_lock]
  · intro rank hR hn
    constructor
    · obtain ⟨v1, s1, h1⟩ := round_rate_total rank fuel n rate (__clk_lock n NO_LOCK s)
        (by rw [clks_lock]; exact hR) hn
      exact ⟨v1, __clk_unlock n NO_LOCK s1, by simp only [clk_round_rate, h1]⟩
    · obtain ⟨v1, s1, h1⟩ := set_rate_total rank fuel n rate (__clk_lock n NO_LOCK s)
        (by rw [clks_lock]; exact hR) hn
      exact ⟨v1, __clk_unlock n NO_LOCK s1, by simp only [clk_set_rate, h1]⟩

/-- C10 on the example tree: node `1` has no `round_rate` operation, so `clk_round_rate` returns `-ENOSYS`. -/
theorem C10_rate_ops_delegate_witness :
    clk_round_rate 1 (some 1) 100 demo_state =
      some (-ENOSYS, __clk_unlock 1 NO_LOCK (__clk_lock 1 NO_LOCK demo_state)) :=
  (C10_rate_ops_delegate 0 1 100 demo_state).2.1 rfl

/-! ## The return paths of enable and disable -/

theorem enable_run_of_eq (f n : Nat) (L : LockPtr) (s : State) (r : Int) (s' : State)
    (h : __clk_enable (f + 1) (some n) L s = some (r, s')) : EnableRun f n L s r s' := by
  simp only [__clk_enable, clks_lock] at h
  by_cases hc : (s.clks n).enabled = 0
  swap
  · simp only [hc, if_false, enable_done, Option.some.injEq, Prod.mk.injEq] at h
    obtain ⟨rfl, rfl⟩ := h
    rw [clks_lock]
    exact EnableRun.already hc
  simp only [hc, if_true] at h
  cases h1 : __clk_enable f (s.clks n).bus_parent (lockOf (s.clks n).mutex) (__clk_lock n L s) with
  | none => simp [h1] at h
  | some p1 =>
    obtain ⟨r1, s1⟩ := p1
    simp only [h1] at h
    by_cases hr1 : r1 = 0
    swap
    · simp only [ne_eq, hr1, not_false_eq_true, if_true, Option.some.injEq, Prod.mk.injEq] at h
      obtain ⟨rfl, rfl⟩ := h
      exact EnableRun.bus_parent_error hc _ _ h1 hr1
    subst hr1
    simp only [ne_eq, not_true_eq_false, if_false] at h
    cases h2 : __clk_enable f (s1.clks n).parent (lockOf (s1.clks n).mutex) s1 with
    | none => simp [h2] at h
    | some p2 =>
      obtain ⟨r2, s2⟩ := p2
      simp only [h2] at h
      by_cases hr2 : r2 = 0
      swap
      · simp only [hr2, not_false_eq_true, if_true] at h
        cases h3 : __clk_disable f (s2.clks n).bus_parent (lockOf (s2.clks n).mutex) s2 with
        | none => simp [h3] at h
        | some s3 =>
          simp only [h3, Option.some.injEq, Prod.mk.injEq] at h
          obtain ⟨rfl, rfl⟩ := h
          exact EnableRun.parent_error hc _ h1 _ _ h2 hr2 _ h3
      subst hr2
      simp only [not_true_eq_false, if_false] at h
      cases h3 : invoke_enable (__clk_enable f) (__clk_disable f) n s2 with
      | none => simp [h3] at h
      | some p3 =>
        obtain ⟨r3, s3⟩ := p3
        simp only [h3] at h
        by_cases hr3 : r3 = 0
        swap
        · simp only [hr3, not_false_eq_true, if_true] at h
          cases h4 : __clk_disable f (s3.clks n).parent (lockOf (s3.clks n).mutex) s3 with
          | none => simp [h4] at h
          | some s4 =>
            simp only [h4] at h
            cases h5 : __clk_disable f (s4.clks n).bus_parent (lockOf (s4.clks n).mutex) s4 with
            | none => simp [h5] at h
            | some s5 =>
              simp only [h5, Option.some.injEq, Prod.mk.injEq] at h
              obtain ⟨rfl, rfl⟩ := h
              exact EnableRun.enable_error hc _ h1 _ h2 _ _ h3 hr3 _ h4 _ h5
        subst hr3
        simp only [not_true_eq_false, if_false, enable_done, Option.some.injEq,
          Prod.mk.injEq] at h
        obtain ⟨rfl, rfl⟩ := h
        exact EnableRun.done hc _ h1 _ h2 _ h3

theorem disable_run_of_eq (f n : Nat) (L : LockPtr) (s s' : State)
    (h : __clk_disable (f + 1) (some n) L s = some s') : DisableRun f n L s s' := by
  simp only [__clk_disable, clks_lock] at h
  by_cases hc : (s.clks n).enabled = 0
  · simp only [hc, ne_eq, not_true_eq_false, if_false, Option.some.injEq] at h
    subst h
    exact DisableRun.idle hc
  simp only [ne_eq, hc, not_false_eq_true, if_true, clks_set_enabled_self] at h
  by_cases hc1 : (s.clks n).enabled - 1 = 0
  swap
  · simp only [hc1, if_false, Option.some.injEq] at h
    subst h
    exact DisableRun.more hc hc1
  have h1 : (s.clks n).enabled = 1 := by omega
  rw [hc1] at h
  simp only [if_true] at h
  cases h2 : invoke_disable (__clk_enable f) (__clk_disable f) n
      (set_enabled n 0 (__clk_lock n L s)) with
  | none => simp [h2] at h
  | some s2 =>
    simp only [h2] at h
    cases h3 : __clk_disable f (s2.clks n).parent (lockOf (s2.clks n).mutex) s2 with
    | none => simp [h3] at h
    | some s3 =>
      simp only [h3] at h
      cases h4 : __clk_disable f (s3.clks n).bus_parent (lockOf (s3.clks n).mutex) s3 with
      | none => simp [h4] at h
      | some s4 =>
        simp only [h4, Option.some.injEq] at h
        subst h
        exact DisableRun.last h1 _ h2 _ h3 _ h4

/-! ## Results of enable and disable that are known to have returned -/

theorem enable_facts (rank : Nat → Nat) (f : Nat) (c : Option Nat) (L : LockPtr) (s : State)
    (r : Int) (s' : State) (hR : Ranked s.clks rank) (hf : orank rank c < f)
    (h : __clk_enable f c L s = some (r, s')) :
    Evolves rank (orank rank c) s s' ∧
    (r ≠ 0 → s'.clks = s.clks ∧ ∀ n, c = some n → (s.clks n).enabled = 0) ∧
    (r = 0 → (∀ n, c = some n → (s'.clks n).enabled = (s.clks n).enabled + 1) ∧
      Undo rank f c s.clks s'.clks) := by
  obtain ⟨r0, s0, h0, hev, hfail, hok⟩ := enable_spec rank f c L s hR hf
  rw [h] at h0
  simp only [Option.some.injEq, Prod.mk.injEq] at h0
  obtain ⟨rfl, rfl⟩ := h0
  exact ⟨hev, fun hr => ⟨(hfail hr).1, (hfail hr).2.1⟩,
    fun hr => ⟨fun n hn => ((hok hr).1 n hn).1, (hok hr).2⟩⟩

theorem disable_facts (rank : Nat → Nat) (f : Nat) (c : Option Nat) (L : LockPtr) (s : State)
    (s' : State) (hR : Ranked s.clks rank) (hf : orank rank c < f)
    (h : __clk_disable f c L s = some s') :
    Evolves rank (orank rank c) s s' ∧
    ∀ n, c = some n → (s'.clks n).enabled = (s.clks n).enabled - 1 := by
  obtain ⟨s0, h0, hev, hc⟩ := disable_spec rank f c L s hR hf
  rw [h] at h0
  simp only [Option.some.injEq] at h0
  subst h0
  exact ⟨hev, hc⟩

theorem invoke_enable_facts (rank : Nat → Nat) (f n : Nat) (s : State) (r : Int) (s' : State)
    (hR : Ranked s.clks rank) (hn : rank n < f)
    (h : invoke_enable (__clk_enable f) (__clk_disable f) n s = some (r, s')) :
    Keeps rank (rank n + 1) s s' := by
  obtain ⟨r0, s0, h0, hk, -, -⟩ := invoke_enable_keeps rank f
    (fun c L s hR hf => enable_spec rank f c L s hR hf) n s hR hn
  rw [h] at h0
  simp only [Option.some.injEq, Prod.mk.injEq] at h0
  obtain ⟨rfl, rfl⟩ := h0
  exact hk

theorem invoke_disable_facts (rank : Nat → Nat) (f n : Nat) (s s' : State)
    (hR : Ranked s.clks rank) (hn : rank n < f)
    (h : invoke_disable (__clk_enable f) (__clk_disable f) n s = some s') :
    Keeps rank (rank n + 1) s s' := by
  obtain ⟨s0, h0, hk⟩ := invoke_disable_keeps rank f
    (fun c L s hR hf => enable_spec rank f c L s hR hf) n s hR hn
  rw [h] at h0
  simp only [Option.some.injEq] at h0
  subst h0
  exact hk

/-! ## Held locks -/

theorem held_after_append (H : List LockPtr) (a b : List Ev) :
    held_after H (a ++ b) = held_after (held_after H a) b := by
  simp [held_after]

theorem held_after_cons (H : List LockPtr) (e : Ev) (l : List Ev) :
    held_after H (e :: l) = held_after (held_step H e) l := rfl

theorem lockNeutral_nil : LockNeutral [] := fun _ => rfl

theorem lockNeutral_append {a b : List Ev} (ha : LockNeutral a) (hb : LockNeutral b) :
    LockNeutral (a ++ b) := by
  intro H
  rw [held_after_append, ha, hb]

theorem held_step_quiet (H : List LockPtr) (e : Ev) (h : is_lock_event e = false) :
    held_step H e = H := by
  cases e <;> simp [is_lock_event] at h <;> rfl

theorem held_step_acquire (H : List LockPtr) (m : Option Nat) :
    ∃ x, held_step H (acquire_event m) = x :: H ∧
      ∀ H2, held_step (x :: H2) (release_event m) = H2 := by
  cases m with
  | none => exact ⟨LockPtr.clk_spin_lock, rfl, fun H2 => by simp [release_event, held_step]⟩
  | some k => exact ⟨LockPtr.mutex k, rfl, fun H2 => by simp [release_event, held_step]⟩

theorem nested_append {L : LockPtr} {a b : List Ev} (ha : Nested L a) (hb : Nested L b) :
    Nested L (a ++ b) := by
  induction ha with
  | nil L => exact hb
  | quiet L e rest he _ ih => exact Nested.quiet L e (rest ++ b) he (ih hb)
  | bracket L m inner rest hne hi _ _ ih =>
    have e : (acquire_event m :: (inner ++ release_event m :: rest)) ++ b
        = acquire_event m :: (inner ++ release_event m :: (rest ++ b)) := by
      simp [List.append_assoc]
    rw [e]
    exact Nested.bracket L m inner (rest ++ b) hne hi (ih hb)

theorem nested_single (L : LockPtr) (e : Ev) (h : is_lock_event e = false) : Nested L [e] :=
  Nested.quiet L e [] h (Nested.nil L)

/-- Events that respect the lock elision leave the held locks as they were. -/
theorem nested_neutral {L : LockPtr} {l : List Ev} (h : Nested L l) : LockNeutral l := by
  induction h with
  | nil L => exact lockNeutral_nil
  | quiet L e rest he _ ih =>
    intro H
    rw [held_after_cons, held_step_quiet H e he]
    exact ih H
  | bracket L m inner rest _ _ _ ihi ihr =>
    intro H
    obtain ⟨x, hx, hrel⟩ := held_step_acquire H m
    rw [held_after_cons, hx, held_after_append, ihi, held_after_cons, hrel]
    exact ihr H

/-- The acquisition of a lock through a reference other than `L`, events that respect
the elision under that reference, and the release respect the elision under `L`; without
the acquisition and the release the same holds when the reference is `L`. -/
theorem nested_shape (c : clk) (L : LockPtr) {mid : List Ev}
    (h : Nested (lockOf c.mutex) mid) :
    Nested L (acquire_events c L ++ mid ++ release_events c L) := by
  unfold acquire_events release_events
  by_cases hL : lockOf c.mutex = L
  · simp only [ne_eq, hL, not_true_eq_false, if_false, List.nil_append, List.append_nil]
    rw [← hL]; exact h
  · simp only [ne_eq, hL, not_false_eq_true, if_true, List.singleton_append,
      List.cons_append, List.nil_append]
    exact Nested.bracket L c.mutex mid [] hL h (Nested.nil L)

theorem log_lock (n : Nat) (L : LockPtr) (s : State) :
    (__clk_lock n L s).log = s.log ++ acquire_events (s.clks n) L := by
  unfold __clk_lock acquire_events acquire_event
  split
  · cases (s.clks n).mutex <;> rfl
  · simp

theorem log_unlock (n : Nat) (L : LockPtr) (s : State) :
    (__clk_unlock n L s).log = s.log ++ release_events (s.clks n) L := by
  unfold __clk_unlock release_events release_event
  split
  · cases (s.clks n).mutex <;> rfl
  · simp

theorem Nests.reflN (L : LockPtr) (s : State) : Nests L s s := ⟨[], by simp, Nested.nil L⟩

theorem Nests.transN {L : LockPtr} {a b c : State} (h1 : Nests L a b) (h2 : Nests L b c) :
    Nests L a c := by
  obtain ⟨x, hx, hxn⟩ := h1
  obtain ⟨y, hy, hyn⟩ := h2
  exact ⟨x ++ y, by rw [hy, hx, List.append_assoc], nested_append hxn hyn⟩

theorem Nests.of_log_eqN (L : LockPtr) {a b : State} (h : b.log = a.log) : Nests L a b :=
  ⟨[], by simp [h], Nested.nil L⟩

theorem nests_emit (L : LockPtr) (e : Ev) (s : State) (h : is_lock_event e = false) :
    Nests L s (emit e s) :=
  ⟨[e], rfl, nested_single L e h⟩

theorem nests_pop_emit (L : LockPtr) (e : Ev) (s : State) (h : is_lock_event e = false) :
    Nests L s (emit e (pop_oracle s)) :=
  ⟨[e], rfl, nested_single L e h⟩

theorem nests_prcmu_request_clock (L : LockPtr) (g : Nat) (e : Bool) (s : State) :
    Nests L s (prcmu_request_clock g e s).2 := nests_pop_emit L _ s rfl

theorem nests_request_ape_opp100 (L : LockPtr) (e : Bool) (s : State) :
    Nests L s (request_ape_opp100 e s).2 := by
  unfold request_ape_opp100
  cases e
  · simp only [Bool.false_eq_true, if_false]
    split
    · exact (Nests.of_log_eqN L (log_set_requests _ s)).transN (nests_emit L _ _ rfl)
    · exact Nests.of_log_eqN L (log_set_requests _ s)
  · simp only [if_true]
    split
    · exact (Nests.of_log_eqN L (log_set_requests _ s)).transN (nests_pop_emit L _ _ rfl)
    · exact Nests.of_log_eqN L (log_set_requests _ s)

theorem nests_prcmu_clk_disable (L : LockPtr) (n : Nat) (s : State) :
    Nests L s (prcmu_clk_disable n s) := by
  unfold prcmu_clk_disable
  have h := nests_prcmu_request_clock L (s.clks n).cg_sel false s
  dsimp only
  split
  · exact h.transN (nests_emit L _ _ rfl)
  · exact h

theorem nests_prcmu_opp100_clk_enable (L : LockPtr) (n : Nat) (s : State) :
    Nests L s (prcmu_opp100_clk_enable n s).2 := by
  unfold prcmu_opp100_clk_enable
  have h := nests_request_ape_opp100 L true s
  dsimp only
  split
  · exact h.transN (nests_emit L _ _ rfl)
  · exact h.transN (nests_prcmu_request_clock L _ _ _)

theorem nests_prcmu_opp100_clk_disable (L : LockPtr) (n : Nat) (s : State) :
    Nests L s (prcmu_opp100_clk_disable n s) := by
  unfold prcmu_opp100_clk_disable
  have h := nests_prcmu_request_clock L (s.clks n).cg_sel false s
  dsimp only
  split
  · exact h.transN (nests_emit L _ _ rfl)
  · have h2 := nests_request_ape_opp100 L false
      (prcmu_request_clock (s.clks n).cg_sel false s).2
    split
    · exact (h.transN h2).transN (nests_emit L _ _ rfl)
    · exact h.transN h2

theorem nests_writel (L : LockPtr) (v a : Nat) (s : State) : Nests L s (writel v a s) :=
  nests_emit L _ s rfl

/-- A call that holds the lock of node `n` around events that respect the elision under
the lock reference of `n` has the lock discipline `LockShape`. -/
theorem lockShape_of_nests (n : Nat) (L : LockPtr) (s sx : State)
    (h : Nests (lockOf (s.clks n).mutex) (__clk_lock n L s) sx)
    (hm : (sx.clks n).mutex = (s.clks n).mutex) :
    LockShape (s.clks n) L s (__clk_unlock n L sx) := by
  obtain ⟨mid, hmid, hn⟩ := h
  refine ⟨mid, ?_, hn, nested_shape _ L hn, nested_neutral hn,
    nested_neutral (nested_shape _ L hn)⟩
  have e : release_events (sx.clks n) L = release_events (s.clks n) L := by
    unfold release_events
    rw [hm]
  rw [log_unlock, hmid, log_lock, e]
  simp only [List.append_assoc]

theorem LockShape.nestsS {c : clk} {L : LockPtr} {s s' : State} (h : LockShape c L s s') :
    Nests L s s' := by
  obtain ⟨mid, hl, -, hn, -, -⟩ := h
  exact ⟨_, hl, hn⟩

/-! ## The lock discipline of enable and disable -/

theorem call_enable_nests (rank : Nat → Nat) (f : Nat)
    (hE : ∀ c L s r s', Ranked s.clks rank → orank rank c < f →
      __clk_enable f c L s = some (r, s') → Nests L s s')
    (hD : ∀ c L s s', Ranked s.clks rank → orank rank c < f →
      __clk_disable f c L s = some s' → Nests L s s')
    (fn : EnableFn) (n : Nat) (s : State) (r : Int) (s' : State)
    (hR : Ranked s.clks rank) (hn : rank n < f)
    (h : call_enable (__clk_enable f) (__clk_disable f) fn n s = some (r, s')) :
    Nests (lockOf (s.clks n).mutex) s s' := by
  cases fn with
  | prcmu_clk_enable =>
    simp only [call_enable, Option.some.injEq] at h
    have e : s' = (prcmu_clk_enable n s).2 := by rw [h]
    rw [e]; exact nests_prcmu_request_clock _ _ _ s
  | prcmu_opp100_clk_enable =>
    simp only [call_enable, Option.some.injEq] at h
    have e : s' = (prcmu_opp100_clk_enable n s).2 := by rw [h]
    rw [e]; exact nests_prcmu_opp100_clk_enable _ n s
  | prcc_pclk_enable =>
    simp only [call_enable, Option.some.injEq] at h
    have e : s' = (prcc_pclk_enable n s).2 := by rw [h]
    rw [e]; exact nests_writel _ _ _ s
  | prcc_kclk_enable =>
    have hle : orank rank (s.clks n).clock ≤ rank n :=
      orank_le_of_edge hR n _ (Or.inr (Or.inr rfl))
    simp only [call_enable, prcc_kclk_enable] at h
    cases h1 : __clk_enable f (s.clks n).clock (lockOf (s.clks n).mutex) s with
    | none => simp [h1] at h
    | some p1 =>
      obtain ⟨r1, s1⟩ := p1
      simp only [h1] at h
      have b1 := hE _ _ _ _ _ hR (lt_of_le_of_lt hle hn) h1
      have f1 := enable_facts rank f _ _ s r1 s1 hR (lt_of_le_of_lt hle hn) h1
      by_cases hr1 : r1 = 0
      swap
      · simp only [ne_eq, hr1, not_false_eq_true, if_true, Option.some.injEq,
          Prod.mk.injEq] at h
        obtain ⟨-, rfl⟩ := h
        exact b1
      subst hr1
      simp only [ne_eq, not_true_eq_false, if_false] at h
      have hR2 : Ranked (writel (s1.clks n).cg_sel ((s1.clks n).io_base + PRCC_KCKEN) s1).clks
          rank := f1.1.1.rankedT hR
      have hm : ((writel (s1.clks n).cg_sel ((s1.clks n).io_base + PRCC_KCKEN) s1).clks n).mutex
          = (s.clks n).mutex := f1.1.1.mutexT n
      cases h3 : __clk_disable f
          ((writel (s1.clks n).cg_sel ((s1.clks n).io_base + PRCC_KCKEN) s1).clks n).clock
          (lockOf ((writel (s1.clks n).cg_sel ((s1.clks n).io_base + PRCC_KCKEN) s1).clks n).mutex)
          (writel (s1.clks n).cg_sel ((s1.clks n).io_base + PRCC_KCKEN) s1) with
      | none => simp [h3] at h
      | some s3 =>
        simp only [h3, Option.some.injEq, Prod.mk.injEq] at h
        obtain ⟨-, rfl⟩ := h
        have b3 := hD _ _ _ _ hR2
          (lt_of_le_of_lt (orank_le_of_edge hR2 n _ (Or.inr (Or.inr rfl))) hn) h3
        rw [hm] at b3
        exact (b1.transN (nests_writel _ _ _ s1)).transN b3

theorem call_disable_nests (rank : Nat → Nat) (f : Nat)
    (hE : ∀ c L s r s', Ranked s.clks rank → orank rank c < f →
      __clk_enable f c L s = some (r, s') → Nests L s s')
    (hD : ∀ c L s s', Ranked s.clks rank → orank rank c < f →
      __clk_disable f c L s = some s' → Nests L s s')
    (fn : DisableFn) (n : Nat) (s s' : State)
    (hR : Ranked s.clks rank) (hn : rank n < f)
    (h : call_disable (__clk_enable f) (__clk_disable f) fn n s = some s') :
    Nests (lockOf (s.clks n).mutex) s s' := by
  cases fn with
  | prcmu_clk_disable =>
    simp only [call_disable, Option.some.injEq] at h
    rw [← h]; exact nests_prcmu_clk_disable _ n s
  | prcmu_opp100_clk_disable =>
    simp only [call_disable, Option.some.injEq] at h
    rw [← h]; exact nests_prcmu_opp100_clk_disable _ n s
  | prcc_pclk_disable =>
    simp only [call_disable, Option.some.injEq] at h
    rw [← h]; exact nests_writel _ _ _ s
  | prcc_kclk_disable =>
    have hle : orank rank (s.clks n).clock ≤ rank n :=
      orank_le_of_edge hR n _ (Or.inr (Or.inr rfl))
    simp only [call_disable, prcc_kclk_disable] at h
    cases h1 : __clk_enable f (s.clks n).clock (lockOf (s.clks n).mutex) s with
    | none => simp [h1] at h
    | some p1 =>
      obtain ⟨r1, s1⟩ := p1
      simp only [h1] at h
      have b1 := hE _ _ _ _ _ hR (lt_of_le_of_lt hle hn) h1
      have f1 := enable_facts rank f _ _ s r1 s1 hR (lt_of_le_of_lt hle hn) h1
      have hR2 : Ranked (writel (s1.clks n).cg_sel ((s1.clks n).io_base + PRCC_KCKDIS) s1).clks
          rank := f1.1.1.rankedT hR
      have hm : ((writel (s1.clks n).cg_sel ((s1.clks n).io_base + PRCC_KCKDIS) s1).clks n).mutex
          = (s.clks n).mutex := f1.1.1.mutexT n
      have b3 := hD _ _ _ _ hR2
        (lt_of_le_of_lt (orank_le_of_edge hR2 n _ (Or.inr (Or.inr rfl))) hn) h
      rw [hm] at b3
      exact (b1.transN (nests_writel _ _ _ s1)).transN b3

theorem invoke_enable_nests (rank : Nat → Nat) (f : Nat)
    (hE : ∀ c L s r s', Ranked s.clks rank → orank rank c < f →
      __clk_enable f c L s = some (r, s') → Nests L s s')
    (hD : ∀ c L s s', Ranked s.clks rank → orank rank c < f →
      __clk_disable f c L s = some s' → Nests L s s')
    (n : Nat) (s : State) (r : Int) (s' : State)
    (hR : Ranked s.clks rank) (hn : rank n < f)
    (h : invoke_enable (__clk_enable f) (__clk_disable f) n s = some (r, s')) :
    Nests (lockOf (s.clks n).mutex) s s' := by
  unfold invoke_enable at h
  cases hfn : ops_enable_fn (s.clks n) with
  | none =>
    simp only [hfn, Option.some.injEq, Prod.mk.injEq] at h
    rw [← h.2]; exact Nests.reflN _ s
  | some fn =>
    simp only [hfn] at h
    cases hc : call_enable (__clk_enable f) (__clk_disable f) fn n s with
    | none => simp [hc] at h
    | some p =>
      obtain ⟨r1, s1⟩ := p
      simp only [hc, Option.some.injEq, Prod.mk.injEq] at h
      rw [← h.2]
      exact (call_enable_nests rank f hE hD fn n s r1 s1 hR hn hc).transN
        (nests_emit _ _ _ rfl)

theorem invoke_disable_nests (rank : Nat → Nat) (f : Nat)
    (hE : ∀ c L s r s', Ranked s.clks rank → orank rank c < f →
      __clk_enable f c L s = some (r, s') → Nests L s s')
    (hD : ∀ c L s s', Ranked s.clks rank → orank rank c < f →
      __clk_disable f c L s = some s' → Nests L s s')
    (n : Nat) (s s' : State) (hR : Ranked s.clks rank) (hn : rank n < f)
    (h : invoke_disable (__clk_enable f) (__clk_disable f) n s = some s') :
    Nests (lockOf (s.clks n).mutex) s s' := by
  unfold invoke_disable at h
  cases hfn : ops_disable_fn (s.clks n) with
  | none =>
    simp only [hfn, Option.some.injEq] at h
    rw [← h]; exact Nests.reflN _ s
  | some fn =>
    simp only [hfn] at h
    exact (nests_emit _ (Ev.ops_disable n) s rfl).transN
      (call_disable_nests rank f hE hD fn n _ s' hR hn h)

theorem enable_lock_step (rank : Nat → Nat) (f : Nat)
    (hE : ∀ c L s r s', Ranked s.clks rank → orank rank c < f →
      __clk_enable f c L s = some (r, s') → Nests L s s')
    (hD : ∀ c L s s', Ranked s.clks rank → orank rank c < f →
      __clk_disable f c L s = some s' → Nests L s s')
    (n : Nat) (L : LockPtr) (s : State) (r : Int) (s' : State)
    (hR : Ranked s.clks rank) (hn : rank n < f)
    (h : __clk_enable (f + 1) (some n) L s = some (r, s')) :
    LockShape (s.clks n) L s s' := by
  have hR0 : Ranked (__clk_lock n L s).clks rank := by rw [clks_lock]; exact hR
  have hbus : orank rank (s.clks n).bus_parent < f :=
    lt_of_le_of_lt (orank_le_of_edge hR n _ (Or.inr (Or.inl rfl))) hn
  have edge : ∀ x : State, Ranked x.clks rank →
      orank rank (x.clks n).parent < f ∧ orank rank (x.clks n).bus_parent < f :=
    fun x hx => ⟨lt_of_le_of_lt (orank_le_of_edge hx n _ (Or.inl rfl)) hn,
      lt_of_le_of_lt (orank_le_of_edge hx n _ (Or.inr (Or.inl rfl))) hn⟩
  -- a step that leaves the topology as it was leaves the lock reference of `n` as it was
  have keep : ∀ x y : State, (x.clks n).mutex = (s.clks n).mutex → SameTopo x.clks y.clks →
      (y.clks n).mutex = (s.clks n).mutex := fun x y hx ht => (ht.mutexT n).trans hx
  have hm0 : ((__clk_lock n L s).clks n).mutex = (s.clks n).mutex := by rw [clks_lock]
  cases enable_run_of_eq f n L s r s' h with
  | already hc =>
    exact lockShape_of_nests n L s _ (Nests.of_log_eqN _ rfl) (by simp)
  | bus_parent_error hc r1 s1 h1 hr1 =>
    have f1 := enable_facts rank f _ _ _ _ _ hR0 hbus h1
    exact lockShape_of_nests n L s s1 (hE _ _ _ _ _ hR0 hbus h1) (keep _ _ hm0 f1.1.1)
  | parent_error hc s1 h1 r2 s2 h2 hr2 s3 h3 =>
    have f1 := enable_facts rank f _ _ _ _ _ hR0 hbus h1
    have hR1 := f1.1.1.rankedT hR0
    have hm1 := keep _ _ hm0 f1.1.1
    have f2 := enable_facts rank f _ _ _ _ _ hR1 (edge s1 hR1).1 h2
    have hR2 := f2.1.1.rankedT hR1
    have hm2 := keep _ _ hm1 f2.1.1
    have f3 := disable_facts rank f _ _ _ _ hR2 (edge s2 hR2).2 h3
    have b2 := hE _ _ _ _ _ hR1 (edge s1 hR1).1 h2
    have b3 := hD _ _ _ _ hR2 (edge s2 hR2).2 h3
    rw [hm1] at b2
    rw [hm2] at b3
    exact lockShape_of_nests n L s s3 (((hE _ _ _ _ _ hR0 hbus h1).transN b2).transN b3)
      (keep _ _ hm2 f3.1.1)
  | enable_error hc s1 h1 s2 h2 r3 s3 h3 hr3 s4 h4 s5 h5 =>
    have f1 := enable_facts rank f _ _ _ _ _ hR0 hbus h1
    have hR1 := f1.1.1.rankedT hR0
    have hm1 := keep _ _ hm0 f1.1.1
    have f2 := enable_facts rank f _ _ _ _ _ hR1 (edge s1 hR1).1 h2
    have hR2 := f2.1.1.rankedT hR1
    have hm2 := keep _ _ hm1 f2.1.1
    have k3 := invoke_enable_facts rank f n s2 _ s3 hR2 hn h3
    have hR3 : Ranked s3.clks rank := by rw [k3.1]; exact hR2
    have hm3 : (s3.clks n).mutex = (s.clks n).mutex := by rw [k3.1]; exact hm2
    have f4 := disable_facts rank f _ _ _ _ hR3 (edge s3 hR3).1 h4
    have hR4 := f4.1.1.rankedT hR3
    have hm4 := keep _ _ hm3 f4.1.1
    have f5 := disable_facts rank f _ _ _ _ hR4 (edge s4 hR4).2 h5
    have b2 := hE _ _ _ _ _ hR1 (edge s1 hR1).1 h2
    have b3 := invoke_enable_nests rank f hE hD n s2 _ s3 hR2 hn h3
    have b4 := hD _ _ _ _ hR3 (edge s3 hR3).1 h4
    have b5 := hD _ _ _ _ hR4 (edge s4 hR4).2 h5
    rw [hm1] at b2
    rw [hm2] at b3
    rw [hm3] at b4
    rw [hm4] at b5
    exact lockShape_of_nests n L s s5
      (((((hE _ _ _ _ _ hR0 hbus h1).transN b2).transN b3).transN b4).transN b5)
      (keep _ _ hm4 f5.1.1)
  | done hc s1 h1 s2 h2 s3 h3 =>
    have f1 := enable_facts rank f _ _ _ _ _ hR0 hbus h1
    have hR1 := f1.1.1.rankedT hR0
    have hm1 := keep _ _ hm0 f1.1.1
    have f2 := enable_facts rank f _ _ _ _ _ hR1 (edge s1 hR1).1 h2
    have hR2 := f2.1.1.rankedT hR1
    have hm2 := keep _ _ hm1 f2.1.1
    have k3 := invoke_enable_facts rank f n s2 0 s3 hR2 hn h3
    have hm3 : (s3.clks n).mutex = (s.clks n).mutex := by rw [k3.1]; exact hm2
    have b2 := hE _ _ _ _ _ hR1 (edge s1 hR1).1 h2
    have b3 := invoke_enable_nests rank f hE hD n s2 0 s3 hR2 hn h3
    rw [hm1] at b2
    rw [hm2] at b3
    exact lockShape_of_nests n L s _
      ((((hE _ _ _ _ _ hR0 hbus h1).transN b2).transN b3).transN (Nests.of_log_eqN _ rfl))
      (keep _ _ hm3 (sameTopo_set_enabled n _ s3))

theorem disable_lock_step (rank : Nat → Nat) (f : Nat)
    (hE : ∀ c L s r s', Ranked s.clks rank → orank rank c < f →
      __clk_enable f c L s = some (r, s') → Nests L s s')
    (hD : ∀ c L s s', Ranked s.clks rank → orank rank c < f →
      __clk_disable f c L s = some s' → Nests L s s')
    (n : Nat) (L : LockPtr) (s s' : State)
    (hR : Ranked s.clks rank) (hn : rank n < f)
    (h : __clk_disable (f + 1) (some n) L s = some s') :
    LockShape (s.clks n) L s s' := by
  have edge : ∀ x : State, Ranked x.clks rank →
      orank rank (x.clks n).parent < f ∧ orank rank (x.clks n).bus_parent < f :=
    fun x hx => ⟨lt_of_le_of_lt (orank_le_of_edge hx n _ (Or.inl rfl)) hn,
      lt_of_le_of_lt (orank_le_of_edge hx n _ (Or.inr (Or.inl rfl))) hn⟩
  have keep : ∀ x y : State, (x.clks n).mutex = (s.clks n).mutex → SameTopo x.clks y.clks →
      (y.clks n).mutex = (s.clks n).mutex := fun x y hx ht => (ht.mutexT n).trans hx
  cases disable_run_of_eq f n L s s' h with
  | idle hc => exact lockShape_of_nests n L s _ (Nests.reflN _ _) (by simp)
  | more hc hc1 => exact lockShape_of_nests n L s _ (Nests.of_log_eqN _ rfl) (by simp)
  | last hc s2 h2 s3 h3 s4 h4 =>
    have ev1 : Evolves rank (rank n + 1) s (set_enabled n 0 (__clk_lock n L s)) :=
      (evolves_lock rank _ n L s).transE (evolves_set_enabled rank n 0 (__clk_lock n L s))
    have hR1 : Ranked (set_enabled n 0 (__clk_lock n L s)).clks rank := ev1.1.rankedT hR
    have hm1 : ((set_enabled n 0 (__clk_lock n L s)).clks n).mutex = (s.clks n).mutex :=
      ev1.1.mutexT n
    have k2 := invoke_disable_facts rank f n _ s2 hR1 hn h2
    have hR2 : Ranked s2.clks rank := by rw [k2.1]; exact hR1
    have hm2 : (s2.clks n).mutex = (s.clks n).mutex := by rw [k2.1]; exact hm1
    have f3 := disable_facts rank f _ _ _ _ hR2 (edge s2 hR2).1 h3
    have hR3 := f3.1.1.rankedT hR2
    have hm3 := keep _ _ hm2 f3.1.1
    have f4 := disable_facts rank f _ _ _ _ hR3 (edge s3 hR3).2 h4
    have b2 := invoke_disable_nests rank f hE hD n _ s2 hR1 hn h2
    have b3 := hD _ _ _ _ hR2 (edge s2 hR2).1 h3
    have b4 := hD _ _ _ _ hR3 (edge s3 hR3).2 h4
    rw [hm1] at b2
    rw [hm2] at b3
    rw [hm3] at b4
    exact lockShape_of_nests n L s s4
      ((((Nests.of_log_eqN _ rfl).transN b2).transN b3).transN b4) (keep _ _ hm3 f4.1.1)

/-- In an acyclic tree the events of every `__clk_enable` and `__clk_disable` that
returns respect the lock elision under the lock reference the call was made with. -/
theorem enable_disable_nests (rank : Nat → Nat) : ∀ f : Nat,
    (∀ c L s r s', Ranked s.clks rank → orank rank c < f →
      __clk_enable f c L s = some (r, s') → Nests L s s') ∧
    (∀ c L s s', Ranked s.clks rank → orank rank c < f →
      __clk_disable f c L s = some s' → Nests L s s') := by
  intro f
  induction f with
  | zero => exact ⟨fun _ _ _ _ _ _ h => absurd h (Nat.not_lt_zero _),
      fun _ _ _ _ _ h => absurd h (Nat.not_lt_zero _)⟩
  | succ f ih =>
    obtain ⟨hE, hD⟩ := ih
    constructor
    · intro c L s r s' hR hlt h
      cases c with
      | none =>
        simp only [__clk_enable, Option.some.injEq, Prod.mk.injEq] at h
        rw [← h.2]; exact Nests.reflN L s
      | some n =>
        exact (enable_lock_step rank f hE hD n L s r s' hR (by simpa [orank] using hlt)
          h).nestsS
    · intro c L s s' hR hlt h
      cases c with
      | none =>
        simp only [__clk_disable, Option.some.injEq] at h
        rw [← h]; exact Nests.reflN L s
      | some n =>
        exact (disable_lock_step rank f hE hD n L s s' hR (by simpa [orank] using hlt)
          h).nestsS

/-- The lock discipline of `__clk_get_rate`. -/
theorem get_rate_lock : ∀ (f : Nat) (c : Option Nat) (L : LockPtr) (s : State) (v : Nat)
    (s' : State), __clk_get_rate f c L s = some (v, s') →
    Nests L s s' ∧ ∀ n, c = some n → LockShape (s.clks n) L s s' := by
  intro f
  induction f with
  | zero => intro c L s v s' h; simp [__clk_get_rate] at h
  | succ f ih =>
    intro c L s v s' h
    cases c with
    | none =>
      simp only [__clk_get_rate, Option.some.injEq, Prod.mk.injEq] at h
      rw [← h.2]
      exact ⟨Nests.reflN L s, fun n hn => (by cases hn)⟩
    | some n =>
      have key : LockShape (s.clks n) L s s' := by
        simp only [__clk_get_rate, clks_lock] at h
        cases hfn : ops_get_rate_fn (s.clks n) with
        | some fn =>
          simp only [hfn, Option.some.injEq, Prod.mk.injEq] at h
          rw [← h.2]
          refine lockShape_of_nests n L s _ ?_ (by rw [call_get_rate_clks, clks_lock])
          cases fn with
          | prcmu_clk_get_rate => exact nests_pop_emit _ _ _ rfl
          | clk_smp_twd_get_rate => exact nests_pop_emit _ _ _ rfl
        | none =>
          simp only [hfn] at h
          by_cases hr : (s.clks n).rate = 0
          swap
          · simp only [ne_eq, hr, not_false_eq_true, if_true, Option.some.injEq,
              Prod.mk.injEq] at h
            rw [← h.2]
            exact lockShape_of_nests n L s _ (Nests.reflN _ _) (by rw [clks_lock])
          simp only [ne_eq, hr, not_true_eq_false, if_false] at h
          cases h1 : __clk_get_rate f (s.clks n).parent (lockOf (s.clks n).mutex)
              (__clk_lock n L s) with
          | none => simp [h1] at h
          | some p =>
            obtain ⟨v1, s1⟩ := p
            simp only [h1, Option.some.injEq, Prod.mk.injEq] at h
            rw [← h.2]
            have hc1 : s1.clks = s.clks :=
              (get_rate_internal f _ _ (__clk_lock n L s) s (clks_lock n L s)
                (oracle_lock n L s)).2 v1 s1 h1
            exact lockShape_of_nests n L s s1 (ih _ _ _ _ _ h1).1 (by rw [hc1])
      exact ⟨key.nestsS, fun m hm => by cases hm; exact key⟩

/-! ## The liveness invariant under a successful enable -/

theorem live_step {t t' : Nat → clk} (hl : Live t) (ht : SameTopo t t')
    (hm : ∀ m, (t m).enabled ≤ (t' m).enabled)
    (hnew : ∀ x, (t' x).enabled ≠ 0 → (t x).enabled = 0 →
      (∀ p, (t x).parent = some p → (t' p).enabled ≠ 0) ∧
      (∀ b, (t x).bus_parent = some b → (t' b).enabled ≠ 0)) : Live t' := by
  intro x hx
  rw [ht.parentT, ht.bus_parentT]
  by_cases h0 : (t x).enabled = 0
  · exact hnew x hx h0
  · refine ⟨fun p hp => ?_, fun b hb => ?_⟩
    · have h1 := (hl x h0).1 p hp
      have h2 := hm p
      omega
    · have h1 := (hl x h0).2 b hb
      have h2 := hm b
      omega

theorem ancestor_sameTopo {t t' : Nat → clk} (ht : SameTopo t t') {a m : Nat}
    (h : Ancestor t a m) : Ancestor t' a m := by
  induction h with
  | base h => exact Ancestor.base (by rw [ht.parentT, ht.bus_parentT]; exact h)
  | step _ h ih => exact Ancestor.step ih (by rw [ht.parentT, ht.bus_parentT]; exact h)

/-- In a tree with the liveness invariant, a node whose parents are enabled has every
transitive ancestor enabled. -/
theorem ancestors_live {t : Nat → clk} (hl : Live t) {a : Nat}
    (hp : ∀ p, (t a).parent = some p ∨ (t a).bus_parent = some p → (t p).enabled ≠ 0) :
    ∀ m, Ancestor t a m → (t m).enabled ≠ 0 := by
  intro m hm
  induction hm with
  | base h => exact hp _ h
  | step _ h ih =>
    rcases h with h | h
    · exact (hl _ ih).1 _ h
    · exact (hl _ ih).2 _ h

/-- A successful `__clk_enable` keeps the liveness invariant and lowers no count. -/
theorem enable_live (rank : Nat → Nat) : ∀ (f : Nat) (c : Option Nat) (L : LockPtr)
    (s : State) (r : Int) (s' : State), Ranked s.clks rank → orank rank c < f →
    Live s.clks → __clk_enable f c L s = some (r, s') → r = 0 →
    Live s'.clks ∧ ∀ m, (s.clks m).enabled ≤ (s'.clks m).enabled := by
  intro f
  induction f with
  | zero => intro c L s r s' _ h; exact absurd h (Nat.not_lt_zero _)
  | succ f ih =>
    intro c L s r s' hR hlt hl h hr
    cases c with
    | none =>
      simp only [__clk_enable, Option.some.injEq, Prod.mk.injEq] at h
      rw [← h.2]
      exact ⟨hl, fun _ => le_refl _⟩
    | some n =>
      have hn : rank n < f := by simpa [orank] using hlt
      have hR0 : Ranked (__clk_lock n L s).clks rank := by rw [clks_lock]; exact hR
      have hbus : orank rank (s.clks n).bus_parent < f :=
        lt_of_le_of_lt (orank_le_of_edge hR n _ (Or.inr (Or.inl rfl))) hn
      cases enable_run_of_eq f n L s r s' h with
      | already hc =>
        have hmono : ∀ m, (s.clks m).enabled ≤ ((__clk_unlock n L (set_enabled n
            ((s.clks n).enabled + 1) (__clk_lock n L s))).clks m).enabled := by
          intro m
          by_cases hmn : m = n
          · subst hmn; simp
          · simp [clks_set_enabled_other _ _ _ _ hmn]
        refine ⟨live_step hl ?_ hmono ?_, hmono⟩
        · exact ((evolves_lock rank 0 n L s).1.transT (sameTopo_set_enabled n _ _)).transT
            (evolves_unlock rank 0 n L _).1
        · intro x hx h0
          by_cases hxn : x = n
          · subst hxn; exact absurd h0 hc
          · rw [clks_unlock, clks_set_enabled_other _ _ _ _ hxn, clks_lock] at hx
            exact absurd h0 hx
      | bus_parent_error hc r1 s1 h1 hr1 => exact absurd hr hr1
      | parent_error hc s1 h1 r2 s2 h2 hr2 s3 h3 => exact absurd hr hr2
      | enable_error hc s1 h1 s2 h2 r3 s3 h3 hr3 s4 h4 s5 h5 => exact absurd hr hr3
      | done hc s1 h1 s2 h2 s3 h3 =>
        have f1 := enable_facts rank f _ _ _ _ _ hR0 hbus h1
        have hR1 := f1.1.1.rankedT hR0
        have hpar : orank rank (s1.clks n).parent < f :=
          lt_of_le_of_lt (orank_le_of_edge hR1 n _ (Or.inl rfl)) hn
        have f2 := enable_facts rank f _ _ _ _ _ hR1 hpar h2
        have hR2 := f2.1.1.rankedT hR1
        have k3 := (invoke_enable_facts rank f n s2 0 s3 hR2 hn h3).1
        obtain ⟨l1, m1⟩ := ih _ _ _ _ _ hR0 hbus (by rw [clks_lock]; exact hl) h1 rfl
        obtain ⟨l2, m2⟩ := ih _ _ _ _ _ hR1 hpar l1 h2 rfl
        rw [clks_lock] at m1
        have t01 : SameTopo s.clks s1.clks := by
          have := f1.1.1; rwa [clks_lock] at this
        have hfin : ∀ m, (s2.clks m).enabled ≤ ((__clk_unlock n L (set_enabled n
            ((s3.clks n).enabled + 1) s3)).clks m).enabled := by
          intro m
          by_cases hmn : m = n
          · subst hmn; simp [k3]
          · simp [clks_set_enabled_other _ _ _ _ hmn, k3]
        refine ⟨live_step l2 ?_ hfin ?_, fun m => le_trans (le_trans (m1 m) (m2 m)) (hfin m)⟩
        · have e : SameTopo s2.clks s3.clks := SameTopo.of_eqT k3
          exact (e.transT (sameTopo_set_enabled n _ _)).transT (evolves_unlock rank 0 n L _).1
        · intro x hx h0
          by_cases hxn : x = n
          swap
          · rw [clks_unlock, clks_set_enabled_other _ _ _ _ hxn, k3] at hx
            exact absurd h0 hx
          subst hxn
          refine ⟨fun p hp => ?_, fun b hb => ?_⟩
          · have e1 := (f2.2.2 rfl).1 p (by rw [← f2.1.1.parentT]; exact hp)
            have e2 := hfin p
            omega
          · have hb1 : (s.clks x).bus_parent = some b := by
              rw [← t01.bus_parentT, ← f2.1.1.bus_parentT]; exact hb
            have e1 := (f1.2.2 rfl).1 b hb1
            have e2 := m2 b
            have e3 := hfin b
            omega
/-! ## The accounting invariant -/

theorem add_ref_apply (c : Option Nat) (refs : Nat → Nat) (m : Nat) :
    add_ref c refs m = refs m + (if c = some m then 1 else 0) := by
  unfold add_ref
  split <;> rfl

theorem drop_add_ref (c : Option Nat) (refs : Nat → Nat) :
    drop_ref c (add_ref c refs) = refs := by
  funext m
  unfold drop_ref add_ref
  split <;> simp

/-- Changing a predicate at one element of a list without duplicates changes the count by
that element. -/
theorem countP_flip (p q : Nat → Bool) (n : Nat) (hpq : ∀ m, m ≠ n → q m = p m) :
    ∀ V : List Nat, V.Nodup → n ∈ V →
      V.countP q + (if p n = true then 1 else 0) = V.countP p + (if q n = true then 1 else 0) := by
  have hout : ∀ V : List Nat, n ∉ V → V.countP q = V.countP p := by
    intro V hn
    apply List.countP_congr
    intro m hm
    rw [hpq m (fun e => hn (e ▸ hm))]
  intro V
  induction V with
  | nil => intro _ h; cases h
  | cons a V ih =>
    intro hV hn
    have ha : a ∉ V := (List.nodup_cons.mp hV).1
    have hV' : V.Nodup := (List.nodup_cons.mp hV).2
    rw [List.countP_cons, List.countP_cons]
    by_cases han : a = n
    · subst han
      rw [hout V ha]
      omega
    · have hnV : n ∈ V := by
        rcases List.mem_cons.mp hn with h | h
        · exact absurd h.symm han
        · exact h
      rw [hpq a han]
      have := ih hV' hnV
      omega

/-- The table after the store `clk->enabled = v` for node `n`. -/
theorem set_enabled_clks (n v : Nat) (s : State) (m : Nat) :
    (set_enabled n v s).clks m = if m = n then { s.clks n with enabled := v } else s.clks m :=
  rfl

theorem child_refs_same (t t' : Nat → clk) (V : List Nat) (m : Nat)
    (h : ∀ x, ((t' x).enabled ≠ 0 ↔ (t x).enabled ≠ 0) ∧ (t' x).parent = (t x).parent ∧
      (t' x).bus_parent = (t x).bus_parent) :
    child_refs t' V m = child_refs t V m := by
  unfold child_refs
  congr 1
  · apply List.countP_congr
    intro x _
    simp only [decide_eq_true_eq, (h x).1, (h x).2.1]
  · apply List.countP_congr
    intro x _
    simp only [decide_eq_true_eq, (h x).1, (h x).2.2]

/-- The effect on `child_refs` of a change of the `enabled` field of node `n`. -/
theorem child_refs_flip (t t' : Nat → clk) (V : List Nat) (hV : V.Nodup) (n : Nat)
    (hn : n ∈ V) (m : Nat) (hother : ∀ x, x ≠ n → t' x = t x)
    (hp : (t' n).parent = (t n).parent) (hb : (t' n).bus_parent = (t n).bus_parent) :
    child_refs t' V m
      + ((if (t n).enabled ≠ 0 ∧ (t n).parent = some m then 1 else 0)
        + (if (t n).enabled ≠ 0 ∧ (t n).bus_parent = some m then 1 else 0))
    = child_refs t V m
      + ((if (t' n).enabled ≠ 0 ∧ (t n).parent = some m then 1 else 0)
        + (if (t' n).enabled ≠ 0 ∧ (t n).bus_parent = some m then 1 else 0)) := by
  unfold child_refs
  have h1 := countP_flip (fun x => decide ((t x).enabled ≠ 0 ∧ (t x).parent = some m))
    (fun x => decide ((t' x).enabled ≠ 0 ∧ (t' x).parent = some m)) n
    (fun x hx => by simp only [hother x hx]) V hV hn
  have h2 := countP_flip (fun x => decide ((t x).enabled ≠ 0 ∧ (t x).bus_parent = some m))
    (fun x => decide ((t' x).enabled ≠ 0 ∧ (t' x).bus_parent = some m)) n
    (fun x hx => by simp only [hother x hx]) V hV hn
  simp only [decide_eq_true_eq, hp, hb] at h1 h2
  omega

theorem accounted_increment {t t' : Nat → clk} {refs : Nat → Nat} {V : List Nat} {n : Nat}
    (ha : Accounted t refs V) (hc : (t n).enabled ≠ 0)
    (ht : ∀ m, t' m = if m = n then { t n with enabled := (t n).enabled + 1 } else t m) :
    Accounted t' (add_ref (some n) refs) V := by
  have hsame : ∀ x, ((t' x).enabled ≠ 0 ↔ (t x).enabled ≠ 0) ∧ (t' x).parent = (t x).parent ∧
      (t' x).bus_parent = (t x).bus_parent := by
    intro x
    rw [ht x]
    by_cases hx : x = n
    · subst hx; simp [hc]
    · simp [hx]
  refine ⟨fun m => ?_, fun x hx => ha.2 x ((hsame x).1.mp hx)⟩
  rw [child_refs_same t t' V m hsame, add_ref_apply, ht m]
  have := ha.1 m
  by_cases hm : m = n
  · subst hm; simp only [if_true]; omega
  · have hm' : ¬ (some n = some m) := fun e => hm (Option.some.inj e).symm
    simp only [hm, hm', if_false]; omega

theorem accounted_decrement {t t' : Nat → clk} {refs : Nat → Nat} {V : List Nat} {n : Nat}
    (ha : Accounted t refs V) (hc : (t n).enabled - 1 ≠ 0) (hr : refs n ≠ 0)
    (ht : ∀ m, t' m = if m = n then { t n with enabled := (t n).enabled - 1 } else t m) :
    Accounted t' (drop_ref (some n) refs) V := by
  have hc0 : (t n).enabled ≠ 0 := by omega
  have hsame : ∀ x, ((t' x).enabled ≠ 0 ↔ (t x).enabled ≠ 0) ∧ (t' x).parent = (t x).parent ∧
      (t' x).bus_parent = (t x).bus_parent := by
    intro x
    rw [ht x]
    by_cases hx : x = n
    · subst hx; simp [hc, hc0]
    · simp [hx]
  refine ⟨fun m => ?_, fun x hx => ha.2 x ((hsame x).1.mp hx)⟩
  rw [child_refs_same t t' V m hsame, ht m]
  have := ha.1 m
  unfold drop_ref
  by_cases hm : m = n
  · subst hm; simp only [if_true]; omega
  · have hm' : ¬ (some n = some m) := fun e => hm (Option.some.inj e).symm
    simp only [hm, hm', if_false]; omega

theorem accounted_activate {t t' : Nat → clk} {refs : Nat → Nat} {V : List Nat} {n : Nat}
    (hV : V.Nodup) (hn : n ∈ V)
    (ha : Accounted t (add_ref (t n).parent (add_ref (t n).bus_parent refs)) V)
    (hz : (t n).enabled = 0)
    (ht : ∀ m, t' m = if m = n then { t n with enabled := 1 } else t m) :
    Accounted t' (add_ref (some n) refs) V := by
  have hother : ∀ x, x ≠ n → t' x = t x := fun x hx => by rw [ht x, if_neg hx]
  have hn' : t' n = { t n with enabled := 1 } := by rw [ht n, if_pos rfl]
  have hp : (t' n).parent = (t n).parent := by rw [hn']
  have hb : (t' n).bus_parent = (t n).bus_parent := by rw [hn']
  have he : (t' n).enabled = 1 := by rw [hn']
  refine ⟨fun m => ?_, fun x hx => ?_⟩
  · have hf := child_refs_flip t t' V hV n hn m hother hp hb
    have hm0 := ha.1 m
    rw [add_ref_apply, add_ref_apply] at hm0
    rw [add_ref_apply]
    simp only [hz, he, ne_eq, not_true_eq_false, false_and, if_false, one_ne_zero,
      not_false_eq_true, true_and] at hf
    by_cases hm : m = n
    · subst hm
      rw [he]
      rw [hz] at hm0
      simp only [if_true]
      omega
    · have hm' : ¬ (some n = some m) := fun e => hm (Option.some.inj e).symm
      rw [hother m hm]
      simp only [hm', if_false]
      omega
  · by_cases hxn : x = n
    · subst hxn; exact hn
    · rw [hother x hxn] at hx
      exact ha.2 x hx

theorem accounted_deactivate {t t' : Nat → clk} {refs : Nat → Nat} {V : List Nat} {n : Nat}
    (hV : V.Nodup) (hn : n ∈ V) (ha : Accounted t refs V)
    (h1 : (t n).enabled = 1) (hr : refs n ≠ 0)
    (hpn : (t n).parent ≠ some n) (hbn : (t n).bus_parent ≠ some n)
    (ht : ∀ m, t' m = if m = n then { t n with enabled := 0 } else t m) :
    Accounted t' (add_ref (t n).parent (add_ref (t n).bus_parent (drop_ref (some n) refs))) V := by
  have hother : ∀ x, x ≠ n → t' x = t x := fun x hx => by rw [ht x, if_neg hx]
  have hn' : t' n = { t n with enabled := 0 } := by rw [ht n, if_pos rfl]
  have hp : (t' n).parent = (t n).parent := by rw [hn']
  have hb : (t' n).bus_parent = (t n).bus_parent := by rw [hn']
  have he : (t' n).enabled = 0 := by rw [hn']
  refine ⟨fun m => ?_, fun x hx => ?_⟩
  · have hf := child_refs_flip t t' V hV n hn m hother hp hb
    have hm0 := ha.1 m
    rw [add_ref_apply, add_ref_apply]
    unfold drop_ref
    simp only [h1, he, ne_eq, not_true_eq_false, false_and, if_false, one_ne_zero,
      not_false_eq_true, true_and] at hf
    by_cases hm : m = n
    · subst hm
      rw [he]
      rw [h1] at hm0
      simp only [if_true, hpn, hbn, if_false] at hf ⊢
      omega
    · have hm' : ¬ (some n = some m) := fun e => hm (Option.some.inj e).symm
      rw [hother m hm]
      simp only [hm', if_false]
      omega
  · by_cases hxn : x = n
    · subst hxn; exact hn
    · rw [hother x hxn] at hx
      exact ha.2 x hx

theorem live_of_accounted {t : Nat → clk} {refs : Nat → Nat} {V : List Nat}
    (ha : Accounted t refs V) : Live t := by
  intro n hn
  have hnV := ha.2 n hn
  refine ⟨fun p hp => ?_, fun b hb => ?_⟩
  · have h := ha.1 p
    have hpos : 0 < V.countP (fun x => decide ((t x).enabled ≠ 0 ∧ (t x).parent = some p)) :=
      List.countP_pos_iff.mpr ⟨n, hnV, by simp [hn, hp]⟩
    unfold child_refs at h
    omega
  · have h := ha.1 b
    have hpos : 0 < V.countP (fun x => decide ((t x).enabled ≠ 0 ∧ (t x).bus_parent = some b)) :=
      List.countP_pos_iff.mpr ⟨n, hnV, by simp [hn, hb]⟩
    unfold child_refs at h
    omega

theorem accounted_of_all_disabled {t : Nat → clk} (V : List Nat)
    (h : ∀ n, (t n).enabled = 0) : Accounted t (fun _ => 0) V := by
  refine ⟨fun m => ?_, fun n hn => absurd (h n) hn⟩
  have e1 : V.countP (fun n => decide ((t n).enabled ≠ 0 ∧ (t n).parent = some m)) = 0 :=
    List.countP_eq_zero.mpr (fun x _ => by simp [h x])
  have e2 : V.countP (fun n => decide ((t n).enabled ≠ 0 ∧ (t n).bus_parent = some m)) = 0 :=
    List.countP_eq_zero.mpr (fun x _ => by simp [h x])
  unfold child_refs
  rw [h m, e1, e2]

theorem closed_sameTopo {t t' : Nat → clk} {V : List Nat} (ht : SameTopo t t')
    (h : Closed t V) : Closed t' V := by
  intro n hn
  rw [ht.parentT, ht.bus_parentT]
  exact h n hn

/-- A successful `__clk_enable` of `c` keeps the accounting invariant, with one more
reference to `c`. -/
theorem enable_accounted (rank : Nat → Nat) (V : List Nat) (hV : V.Nodup) :
    ∀ (f : Nat) (c : Option Nat) (L : LockPtr) (s : State) (refs : Nat → Nat) (r : Int)
      (s' : State), Ranked s.clks rank → orank rank c < f → (∀ n, c = some n → n ∈ V) →
      Closed s.clks V → Accounted s.clks refs V → __clk_enable f c L s = some (r, s') →
      r = 0 → Accounted s'.clks (add_ref c refs) V := by
  intro f
  induction f with
  | zero => intro c L s refs r s' _ h; exact absurd h (Nat.not_lt_zero _)
  | succ f ih =>
    intro c L s refs r s' hR hlt hcV hcl ha h hr
    cases c with
    | none =>
      simp only [__clk_enable, Option.some.injEq, Prod.mk.injEq] at h
      rw [← h.2]
      have e : add_ref none refs = refs := by
        funext m; simp [add_ref]
      rw [e]; exact ha
    | some n =>
      have hn : rank n < f := by simpa [orank] using hlt
      have hnV : n ∈ V := hcV n rfl
      have hR0 : Ranked (__clk_lock n L s).clks rank := by rw [clks_lock]; exact hR
      have hbusle : orank rank (s.clks n).bus_parent ≤ rank n :=
        orank_le_of_edge hR n _ (Or.inr (Or.inl rfl))
      cases enable_run_of_eq f n L s r s' h with
      | already hc =>
        refine accounted_increment ha hc (fun m => ?_)
        rw [clks_unlock, set_enabled_clks, clks_lock]
      | bus_parent_error hc r1 s1 h1 hr1 => exact absurd hr hr1
      | parent_error hc s1 h1 r2 s2 h2 hr2 s3 h3 => exact absurd hr hr2
      | enable_error hc s1 h1 s2 h2 r3 s3 h3 hr3 s4 h4 s5 h5 => exact absurd hr hr3
      | done hc s1 h1 s2 h2 s3 h3 =>
        have f1 := enable_facts rank f _ _ _ _ _ hR0 (lt_of_le_of_lt hbusle hn) h1
        have hR1 := f1.1.1.rankedT hR0
        have hn1 : s1.clks n = s.clks n := by
          have := f1.1.2.1 n hbusle
          rwa [clks_lock] at this
        have hparle : orank rank (s1.clks n).parent ≤ rank n :=
          orank_le_of_edge hR1 n _ (Or.inl rfl)
        have f2 := enable_facts rank f _ _ _ _ _ hR1 (lt_of_le_of_lt hparle hn) h2
        have hR2 := f2.1.1.rankedT hR1
        have hn2 : s2.clks n = s.clks n := (f2.1.2.1 n hparle).trans hn1
        have k3 := (invoke_enable_facts rank f n s2 0 s3 hR2 hn h3).1
        have hn3 : s3.clks n = s.clks n := by rw [k3]; exact hn2
        have hcl0 : Closed (__clk_lock n L s).clks V := by rw [clks_lock]; exact hcl
        have hcl1 : Closed s1.clks V := closed_sameTopo f1.1.1 hcl0
        have a1 := ih _ _ _ refs _ _ hR0 (lt_of_le_of_lt hbusle hn)
          (fun b hb => (hcl n hnV).2 b hb) hcl0 (by rw [clks_lock]; exact ha) h1 rfl
        have a2 := ih _ _ _ _ _ _ hR1 (lt_of_le_of_lt hparle hn)
          (fun p hp => (hcl1 n hnV).1 p hp) hcl1 a1 h2 rfl
        have hz : (s3.clks n).enabled = 0 := by rw [hn3]; exact hc
        refine accounted_activate hV hnV ?_ hz (fun m => ?_)
        · rw [hn1] at a2
          rw [k3, hn2]; exact a2
        · rw [clks_unlock, set_enabled_clks, hz]

/-- A `__clk_disable` of `c` that takes a reference to `c` away keeps the accounting
invariant. -/
theorem disable_accounted (rank : Nat → Nat) (V : List Nat) (hV : V.Nodup) :
    ∀ (f : Nat) (c : Option Nat) (L : LockPtr) (s : State) (refs : Nat → Nat)
      (s' : State), Ranked s.clks rank → orank rank c < f → (∀ n, c = some n → n ∈ V) →
      Closed s.clks V → Accounted s.clks refs V → (∀ n, c = some n → refs n ≠ 0) →
      __clk_disable f c L s = some s' → Accounted s'.clks (drop_ref c refs) V := by
  intro f
  induction f with
  | zero => intro c L s refs s' _ h; exact absurd h (Nat.not_lt_zero _)
  | succ f ih =>
    intro c L s refs s' hR hlt hcV hcl ha hpos h
    cases c with
    | none =>
      simp only [__clk_disable, Option.some.injEq] at h
      rw [← h]
      have e : drop_ref none refs = refs := by
        funext m; simp [drop_ref]
      rw [e]; exact ha
    | some n =>
      have hn : rank n < f := by simpa [orank] using hlt
      have hnV : n ∈ V := hcV n rfl
      have hrn : refs n ≠ 0 := hpos n rfl
      have hen := ha.1 n
      cases disable_run_of_eq f n L s s' h with
      | idle hc => omega
      | more hc hc1 =>
        refine accounted_decrement ha hc1 hrn (fun m => ?_)
        rw [clks_unlock, set_enabled_clks, clks_lock]
      | last hc s2 h2 s3 h3 s4 h4 =>
        have ev1 : Evolves rank (rank n + 1) s (set_enabled n 0 (__clk_lock n L s)) :=
          (evolves_lock rank _ n L s).transE (evolves_set_enabled rank n 0 _)
        have hR1 : Ranked (set_enabled n 0 (__clk_lock n L s)).clks rank := ev1.1.rankedT hR
        have k2 := (invoke_disable_facts rank f n _ s2 hR1 hn h2).1
        have hR2 : Ranked s2.clks rank := by rw [k2]; exact hR1
        have hcl2 : Closed s2.clks V := by rw [k2]; exact closed_sameTopo ev1.1 hcl
        have hn2 : s2.clks n = { s.clks n with enabled := 0 } := by
          rw [k2, set_enabled_clks, if_pos rfl, clks_lock]
        have hparle : orank rank (s2.clks n).parent ≤ rank n :=
          orank_le_of_edge hR2 n _ (Or.inl rfl)
        have f3 := disable_facts rank f _ _ _ _ hR2 (lt_of_le_of_lt hparle hn) h3
        have hR3 := f3.1.1.rankedT hR2
        have hcl3 : Closed s3.clks V := closed_sameTopo f3.1.1 hcl2
        have hn3 : s3.clks n = s2.clks n := f3.1.2.1 n hparle
        have hbusle : orank rank (s3.clks n).bus_parent ≤ rank n :=
          orank_le_of_edge hR3 n _ (Or.inr (Or.inl rfl))
        have hpn : (s.clks n).parent ≠ some n := fun e =>
          absurd (hR n n (Or.inl e)) (Nat.lt_irrefl _)
        have hbn : (s.clks n).bus_parent ≠ some n := fun e =>
          absurd (hR n n (Or.inr (Or.inl e))) (Nat.lt_irrefl _)
        have a1 : Accounted s2.clks (add_ref (s.clks n).parent
            (add_ref (s.clks n).bus_parent (drop_ref (some n) refs))) V := by
          rw [k2]
          refine accounted_deactivate hV hnV ha hc hrn hpn hbn (fun m => ?_)
          rw [set_enabled_clks, clks_lock]
        have hp2 : (s2.clks n).parent = (s.clks n).parent := by rw [hn2]
        have hb3 : (s3.clks n).bus_parent = (s.clks n).bus_parent := by rw [hn3, hn2]
        rw [← hp2] at a1
        have a3 := ih _ _ _ _ _ hR2 (lt_of_le_of_lt hparle hn)
          (fun p hp => (hcl2 n hnV).1 p hp) hcl2 a1
          (fun p hp => by rw [add_ref_apply, if_pos hp]; omega) h3
        rw [drop_add_ref, ← hb3] at a3
        have a4 := ih _ _ _ _ _ hR3 (lt_of_le_of_lt hbusle hn)
          (fun b hb => (hcl3 n hnV).2 b hb) hcl3 a3
          (fun b hb => by rw [add_ref_apply, if_pos hb]; omega) h4
        rw [drop_add_ref] at a4
        rw [clks_unlock]
        exact a4

/-! ## Claims, continued -/

/-! ### C11: an excess release of the performance floor -/

/-- A release through `request_ape_opp100` returns `0` whatever the count is. -/
theorem release_returns_zero (s : State) : (request_ape_opp100 false s).1 = 0 := by
  unfold request_ape_opp100
  simp only [Bool.false_eq_true, if_false]
  split <;> rfl

/-- A release through `request_ape_opp100` at a count other than `1` produces no
event. -/
theorem release_log (s : State) (h1 : s.requests ≠ 1) :
    (request_ape_opp100 false s).2.log = s.log := by
  unfold request_ape_opp100
  generalize (s.requests + 4294967296 - 1) % 4294967296 = v
  rw [if_neg Bool.false_ne_true, if_neg h1]
  exact log_set_requests v s

/-- C11 (counterexample): on the example `floor_clks` with a requester count of `0`
the release of the floor reached through `prcmu_opp100_clk_disable` is absorbed:
`request_ape_opp100(false)` returns `0`, the only event is the clock request, there is no
diagnostic event, and the count has wrapped to `2^32 - 1`. -/
theorem C11_excess_release_silent :
    floor_state.requests = 0 ∧ (request_ape_opp100 false floor_state).1 = 0 ∧
    (prcmu_opp100_clk_disable 0 floor_state).log = [Ev.prcmu_request_clock 11 false 0] ∧
    (prcmu_opp100_clk_disable 0 floor_state).log.filter is_diagnostic = [] ∧
    (prcmu_opp100_clk_disable 0 floor_state).requests = 4294967295 := by
  decide

/-- C11 (amended): an excess release of the performance floor is not reported.  At a
requester count of `0`, `request_ape_opp100(false)` returns `0` and produces no event (no
diagnostic, no release of the floor), and `prcmu_opp100_clk_disable` produces the clock
request and, only when that request fails, one `pr_err`. -/
theorem C11_excess_release_not_reported (n : Nat) (s : State) (h : s.requests = 0) :
    (request_ape_opp100 false s).1 = 0 ∧ (request_ape_opp100 false s).2.log = s.log ∧
    (prcmu_opp100_clk_disable n s).log =
      s.log ++ Ev.prcmu_request_clock (s.clks n).cg_sel false (next_ret s) ::
        (if next_ret s ≠ 0 then [Ev.pr_err n] else []) := by
  have h1 : s.requests ≠ 1 := by rw [h]; exact Nat.zero_ne_one
  refine ⟨release_returns_zero s, release_log s h1, ?_⟩
  unfold prcmu_opp100_clk_disable prcmu_request_clock
  by_cases hr : next_ret s = 0
  · have h1' : (emit (Ev.prcmu_request_clock (s.clks n).cg_sel false (next_ret s))
        (pop_oracle s)).requests ≠ 1 := h1
    simp only [ne_eq, hr, not_true_eq_false, if_false, release_returns_zero]
    rw [← hr, release_log _ h1', log_emit, log_pop_oracle]
  · simp only [ne_eq, hr, not_false_eq_true, if_true, log_emit, log_pop_oracle,
      List.append_assoc, List.singleton_append]

/-- C11 (amended) on the example `floor_clks`. -/
theorem C11_excess_release_not_reported_witness :
    floor_state.requests = 0 ∧
    ((request_ape_opp100 false floor_state).1 = 0 ∧
      (request_ape_opp100 false floor_state).2.log = floor_state.log ∧
      (prcmu_opp100_clk_disable 0 floor_state).log =
        floor_state.log ++ Ev.prcmu_request_clock (floor_state.clks 0).cg_sel false
          (next_ret floor_state) ::
          (if next_ret floor_state ≠ 0 then [Ev.pr_err 0] else [])) :=
  ⟨rfl, C11_excess_release_not_reported 0 floor_state rfl⟩

theorem invoke_enable_calls (rank : Nat → Nat) (f n : Nat) (s : State) (r : Int) (s' : State)
    (hR : Ranked s.clks rank) (hn : rank n < f)
    (h : invoke_enable (__clk_enable f) (__clk_disable f) n s = some (r, s')) :
    Calls n (if (ops_enable_fn (s.clks n)).isSome then 1 else 0) s s' := by
  obtain ⟨r0, s0, h0, -, -, hc⟩ := invoke_enable_keeps rank f
    (fun c L s hR hf => enable_spec rank f c L s hR hf) n s hR hn
  rw [h] at h0
  simp only [Option.some.injEq, Prod.mk.injEq] at h0
  obtain ⟨rfl, rfl⟩ := h0
  exact hc

/-! ### C12: the ancestors are live before the own hardware action -/

/-- C12: in an acyclic tree with the liveness invariant, `__clk_enable` of a disabled
node `n` first activates the bus parent.  When that fails the call returns the error and
the own `enable` operation of `n` is not invoked.  Otherwise the bus parent has a count
above `0` and the functional parent is activated.  When that fails the call returns the
error and the own operation is not invoked.  Otherwise the own operation, not invoked so
far, is invoked (once if the node has one) in a state `s2` in which every transitive
ancestor of `n` has a count above `0` and the liveness invariant holds; the call returns
what the own operation returned and does not invoke it again. -/
theorem C12_ancestors_live_before_own_enable (rank : Nat → Nat) (f n : Nat) (L : LockPtr)
    (s : State) (hR : Ranked s.clks rank) (hn : rank n < f) (hl : Live s.clks)
    (hc : (s.clks n).enabled = 0) :
    ∃ r1 s1, __clk_enable f (s.clks n).bus_parent (lockOf (s.clks n).mutex)
        (__clk_lock n L s) = some (r1, s1) ∧
      (r1 ≠ 0 → ∃ s', __clk_enable (f + 1) (some n) L s = some (r1, s') ∧ Calls n 0 s s') ∧
      (r1 = 0 → (∀ b, (s.clks n).bus_parent = some b → (s1.clks b).enabled ≠ 0) ∧
        ∃ r2 s2, __clk_enable f (s.clks n).parent (lockOf (s.clks n).mutex) s1
            = some (r2, s2) ∧
          (r2 ≠ 0 → ∃ s', __clk_enable (f + 1) (some n) L s = some (r2, s') ∧
            Calls n 0 s s') ∧
          (r2 = 0 → (∀ m, Ancestor s.clks n m → (s2.clks m).enabled ≠ 0) ∧ Live s2.clks ∧
            Calls n 0 s s2 ∧
            ∃ r3 s3 s', invoke_enable (__clk_enable f) (__clk_disable f) n s2 = some (r3, s3) ∧
              Calls n (if (ops_enable_fn (s.clks n)).isSome then 1 else 0) s2 s3 ∧
              __clk_enable (f + 1) (some n) L s = some (r3, s') ∧ Calls n 0 s3 s')) := by
  obtain ⟨r, s', h, -⟩ := enable_spec rank (f + 1) (some n) L s hR (Nat.succ_lt_succ hn)
  have hR0 : Ranked (__clk_lock n L s).clks rank := by rw [clks_lock]; exact hR
  have hl0 : Live (__clk_lock n L s).clks := by rw [clks_lock]; exact hl
  have hbusle : orank rank (s.clks n).bus_parent ≤ rank n :=
    orank_le_of_edge hR n _ (Or.inr (Or.inl rfl))
  have hbus : orank rank (s.clks n).bus_parent < f := lt_of_le_of_lt hbusle hn
  have c0 : Calls n 0 s (__clk_lock n L s) :=
    Calls.of_belowC (logBelow_lock rank 0 n L s) (Nat.zero_le _)
  have cu : ∀ x, Calls n 0 x (__clk_unlock n L x) := fun x =>
    Calls.of_belowC (logBelow_unlock rank 0 n L x) (Nat.zero_le _)
  -- what is known after the activation of the bus parent
  have after1 : ∀ r1 s1, __clk_enable f (s.clks n).bus_parent (lockOf (s.clks n).mutex)
      (__clk_lock n L s) = some (r1, s1) →
      Ranked s1.clks rank ∧ s1.clks n = s.clks n ∧ SameTopo s.clks s1.clks ∧
      Calls n 0 s s1 := by
    intro r1 s1 h1
    have f1 := enable_facts rank f _ _ _ _ _ hR0 hbus h1
    refine ⟨f1.1.1.rankedT hR0, ?_, ?_, ?_⟩
    · have := f1.1.2.1 n hbusle
      rwa [clks_lock] at this
    · have := f1.1.1
      rwa [clks_lock] at this
    · exact (c0.transC (Calls.of_belowC f1.1.2.2 hbusle)).castC rfl
  -- what is known after the activation of the functional parent
  have after2 : ∀ s1 r2 s2, Ranked s1.clks rank → s1.clks n = s.clks n →
      __clk_enable f (s1.clks n).parent (lockOf (s1.clks n).mutex) s1 = some (r2, s2) →
      Ranked s2.clks rank ∧ s2.clks n = s.clks n ∧ SameTopo s1.clks s2.clks ∧
      Calls n 0 s1 s2 := by
    intro s1 r2 s2 hR1 hn1 h2
    have hple : orank rank (s1.clks n).parent ≤ rank n := orank_le_of_edge hR1 n _ (Or.inl rfl)
    have f2 := enable_facts rank f _ _ _ _ _ hR1 (lt_of_le_of_lt hple hn) h2
    exact ⟨f2.1.1.rankedT hR1, (f2.1.2.1 n hple).trans hn1, f2.1.1,
      Calls.of_belowC f2.1.2.2 hple⟩
  have dis0 : ∀ (c : Option Nat) (x y : State) (Lx : LockPtr), Ranked x.clks rank →
      orank rank c ≤ rank n → __clk_disable f c Lx x = some y →
      Ranked y.clks rank ∧ y.clks n = x.clks n ∧ Calls n 0 x y := by
    intro c x y Lx hx hle hd
    have fd := disable_facts rank f c Lx x y hx (lt_of_le_of_lt hle hn) hd
    exact ⟨fd.1.1.rankedT hx, fd.1.2.1 n hle, Calls.of_belowC fd.1.2.2 hle⟩
  cases enable_run_of_eq f n L s r s' h with
  | already hc' => exact absurd hc hc'
  | bus_parent_error _ r1 s1 h1 hr1 =>
    obtain ⟨-, -, -, c1⟩ := after1 _ s1 h1
    exact ⟨_, s1, h1, fun _ => ⟨_, h, (c1.transC (cu s1)).castC rfl⟩, fun h0 => absurd h0 hr1⟩
  | parent_error _ s1 h1 r2 s2 h2 hr2 s3 h3 =>
    obtain ⟨hR1, hn1, t1, c1⟩ := after1 _ s1 h1
    obtain ⟨hR2, hn2, -, c2⟩ := after2 s1 _ s2 hR1 hn1 h2
    obtain ⟨-, -, c3⟩ := dis0 _ s2 s3 _ hR2 (orank_le_of_edge hR2 n _ (Or.inr (Or.inl rfl))) h3
    have f1 := enable_facts rank f _ _ _ _ _ hR0 hbus h1
    refine ⟨0, s1, h1, fun h0 => absurd rfl h0, fun _ => ⟨?_, _, s2, ?_,
      fun _ => ⟨_, h, (((c1.transC c2).transC c3).transC (cu s3)).castC rfl⟩,
      fun h0 => absurd h0 hr2⟩⟩
    · intro b hb
      have := (f1.2.2 rfl).1 b hb
      omega
    · rw [← hn1]; exact h2
  | enable_error _ s1 h1 s2 h2 r3 s3 h3 hr3 s4 h4 s5 h5 =>
    obtain ⟨hR1, hn1, t1, c1⟩ := after1 _ s1 h1
    obtain ⟨hR2, hn2, t2, c2⟩ := after2 s1 _ s2 hR1 hn1 h2
    have f1 := enable_facts rank f _ _ _ _ _ hR0 hbus h1
    have hple : orank rank (s1.clks n).parent ≤ rank n := orank_le_of_edge hR1 n _ (Or.inl rfl)
    have f2 := enable_facts rank f _ _ _ _ _ hR1 (lt_of_le_of_lt hple hn) h2
    obtain ⟨l1, m1⟩ := enable_live rank f _ _ _ _ _ hR0 hbus hl0 h1 rfl
    obtain ⟨l2, m2⟩ := enable_live rank f _ _ _ _ _ hR1 (lt_of_le_of_lt hple hn) l1 h2 rfl
    have k3 := invoke_enable_facts rank f n s2 _ s3 hR2 hn h3
    have c3 := invoke_enable_calls rank f n s2 _ s3 hR2 hn h3
    have hR3 : Ranked s3.clks rank := by rw [k3.1]; exact hR2
    obtain ⟨hR4, -, c4⟩ := dis0 _ s3 s4 _ hR3 (orank_le_of_edge hR3 n _ (Or.inl rfl)) h4
    obtain ⟨-, -, c5⟩ := dis0 _ s4 s5 _ hR4 (orank_le_of_edge hR4 n _ (Or.inr (Or.inl rfl))) h5
    have hb2 : ∀ b, (s.clks n).bus_parent = some b → (s2.clks b).enabled ≠ 0 := by
      intro b hb
      have e1 := (f1.2.2 rfl).1 b hb
      have e2 := m2 b
      omega
    have hp2 : ∀ p, (s.clks n).parent = some p → (s2.clks p).enabled ≠ 0 := by
      intro p hp
      have e1 := (f2.2.2 rfl).1 p (by rw [hn1]; exact hp)
      omega
    refine ⟨0, s1, h1, fun h0 => absurd rfl h0, fun _ => ⟨?_, 0, s2, ?_,
      fun h0 => absurd rfl h0, fun _ => ⟨?_, l2, (c1.transC c2).castC rfl, _, s3, _, h3, ?_,
        h, ?_⟩⟩⟩
    · intro b hb
      have := (f1.2.2 rfl).1 b hb
      omega
    · rw [← hn1]; exact h2
    · intro m hm
      refine ancestors_live l2 ?_ m (ancestor_sameTopo (t1.transT t2) hm)
      intro p hp
      rw [hn2] at hp
      rcases hp with hp | hp
      · exact hp2 p hp
      · exact hb2 p hp
    · rw [hn2] at c3; exact c3
    · exact ((c4.transC c5).transC (cu s5)).castC rfl
  | done _ s1 h1 s2 h2 s3 h3 =>
    obtain ⟨hR1, hn1, t1, c1⟩ := after1 _ s1 h1
    obtain ⟨hR2, hn2, t2, c2⟩ := after2 s1 _ s2 hR1 hn1 h2
    have f1 := enable_facts rank f _ _ _ _ _ hR0 hbus h1
    have hple : orank rank (s1.clks n).parent ≤ rank n := orank_le_of_edge hR1 n _ (Or.inl rfl)
    have f2 := enable_facts rank f _ _ _ _ _ hR1 (lt_of_le_of_lt hple hn) h2
    obtain ⟨l1, m1⟩ := enable_live rank f _ _ _ _ _ hR0 hbus hl0 h1 rfl
    obtain ⟨l2, m2⟩ := enable_live rank f _ _ _ _ _ hR1 (lt_of_le_of_lt hple hn) l1 h2 rfl
    have c3 := invoke_enable_calls rank f n s2 _ s3 hR2 hn h3
    have c4 : Calls n 0 s3 (set_enabled n ((s3.clks n).enabled + 1) s3) :=
      Calls.of_belowC (LogBelow.of_log_eqB rfl : LogBelow rank 0 _ _) (Nat.zero_le _)
    have hb2 : ∀ b, (s.clks n).bus_parent = some b → (s2.clks b).enabled ≠ 0 := by
      intro b hb
      have e1 := (f1.2.2 rfl).1 b hb
      have e2 := m2 b
      omega
    have hp2 : ∀ p, (s.clks n).parent = some p → (s2.clks p).enabled ≠ 0 := by
      intro p hp
      have e1 := (f2.2.2 rfl).1 p (by rw [hn1]; exact hp)
      omega
    refine ⟨0, s1, h1, fun h0 => absurd rfl h0, fun _ => ⟨?_, 0, s2, ?_,
      fun h0 => absurd rfl h0, fun _ => ⟨?_, l2, (c1.transC c2).castC rfl, _, s3, _, h3, ?_,
        h, ?_⟩⟩⟩
    · intro b hb
      have := (f1.2.2 rfl).1 b hb
      omega
    · rw [← hn1]; exact h2
    · intro m hm
      refine ancestors_live l2 ?_ m (ancestor_sameTopo (t1.transT t2) hm)
      intro p hp
      rw [hn2] at hp
      rcases hp with hp | hp
      · exact hp2 p hp
      · exact hb2 p hp
    · rw [hn2] at c3; exact c3
    · exact (c4.transC (cu _)).castC rfl

theorem demo_all_disabled (n : Nat) : (demo_clks n).enabled = 0 := by
  unfold demo_clks
  split_ifs <;> rfl

theorem live_of_all_disabled {t : Nat → clk} (h : ∀ n, (t n).enabled = 0) : Live t :=
  fun n hn => absurd (h n) hn

/-- C12 on the example tree `demo_clks` with every node disabled: `__clk_enable` of
node `0`. -/
theorem C12_ancestors_live_before_own_enable_witness :
    Ranked demo_state.clks demo_rank ∧ demo_rank 0 < 3 ∧ Live demo_state.clks ∧
    (demo_state.clks 0).enabled = 0 ∧
    ∃ r1 s1, __clk_enable 3 (demo_state.clks 0).bus_parent (lockOf (demo_state.clks 0).mutex)
        (__clk_lock 0 NO_LOCK demo_state) = some (r1, s1) ∧
      (r1 ≠ 0 → ∃ s', __clk_enable (3 + 1) (some 0) NO_LOCK demo_state = some (r1, s') ∧
        Calls 0 0 demo_state s') ∧
      (r1 = 0 → (∀ b, (demo_state.clks 0).bus_parent = some b → (s1.clks b).enabled ≠ 0) ∧
        ∃ r2 s2, __clk_enable 3 (demo_state.clks 0).parent (lockOf (demo_state.clks 0).mutex) s1
            = some (r2, s2) ∧
          (r2 ≠ 0 → ∃ s', __clk_enable (3 + 1) (some 0) NO_LOCK demo_state = some (r2, s') ∧
            Calls 0 0 demo_state s') ∧
          (r2 = 0 → (∀ m, Ancestor demo_state.clks 0 m → (s2.clks m).enabled ≠ 0) ∧
            Live s2.clks ∧ Calls 0 0 demo_state s2 ∧
            ∃ r3 s3 s', invoke_enable (__clk_enable 3) (__clk_disable 3) 0 s2 = some (r3, s3) ∧
              Calls 0 (if (ops_enable_fn (demo_state.clks 0)).isSome then 1 else 0) s2 s3 ∧
              __clk_enable (3 + 1) (some 0) NO_LOCK demo_state = some (r3, s') ∧
              Calls 0 0 s3 s')) :=
  ⟨demo_ranked, by decide, live_of_all_disabled demo_all_disabled, rfl,
    C12_ancestors_live_before_own_enable demo_rank 3 0 NO_LOCK demo_state demo_ranked
      (by decide) (live_of_all_disabled demo_all_disabled) rfl⟩

/-- The order of the events of `clk_enable` of node `0` of the example tree: the own
operation of the functional parent `1` has returned before the own operation of node `0`
is invoked; with a failing clock request below node `1` the own operation of node `0` is
not invoked at all. -/
theorem enable_order_example :
    (clk_enable 4 (some 0) demo_state).map
      (fun r => (r.1, r.2.log.filter (fun e => (ev_node e).isSome)))
      = some (0, [Ev.ops_enable 3 0, Ev.ops_disable 3, Ev.ops_enable 1 0, Ev.ops_enable 0 0]) ∧
    (clk_enable 4 (some 0) demo_fail_state).map
      (fun r => (r.1, r.2.log.filter (fun e => (ev_node e).isSome)))
      = some (-5, [Ev.ops_enable 3 (-5), Ev.ops_enable 1 (-5)]) := by
  decide
/-! ### C13: one step of disable -/

theorem DCalls.reflD (n : Nat) (s : State) : DCalls n 0 s s := ⟨[], by simp, rfl⟩

theorem DCalls.transD {n j j' : Nat} {a b c : State} (h1 : DCalls n j a b)
    (h2 : DCalls n j' b c) : DCalls n (j + j') a c := by
  obtain ⟨x, hx, hxc⟩ := h1
  obtain ⟨y, hy, hyc⟩ := h2
  refine ⟨x ++ y, by rw [hy, hx, List.append_assoc], ?_⟩
  unfold disable_calls at *
  rw [List.countP_append, hxc, hyc]

theorem DCalls.of_belowD {rank : Nat → Nat} {k n : Nat} {a b : State}
    (h : LogBelow rank k a b) (hk : k ≤ rank n) : DCalls n 0 a b := by
  obtain ⟨x, hx, hxb⟩ := h
  refine ⟨x, hx, ?_⟩
  unfold disable_calls
  rw [List.countP_eq_zero]
  intro e he hen
  have hb := hxb e he
  cases e with
  | ops_disable m =>
    have hm : m = n := by simpa [is_disable_of] using hen
    subst hm
    simp only [ev_node, orank] at hb
    omega
  | _ => simp [is_disable_of] at hen

theorem DCalls.of_emit_disableD (n : Nat) (s : State) :
    DCalls n 1 s (emit (Ev.ops_disable n) s) :=
  ⟨[Ev.ops_disable n], rfl, by simp [disable_calls, is_disable_of]⟩

theorem DCalls.castD {n j j' : Nat} {a b : State} (h : DCalls n j a b) (e : j = j') :
    DCalls n j' a b := e ▸ h

/-- The own `disable` operation of a node is invoked once when the node has one, and
leaves the table of nodes as it was. -/
theorem invoke_disable_calls (rank : Nat → Nat) (f n : Nat) (s : State)
    (hR : Ranked s.clks rank) (hn : rank n < f) :
    ∃ s', invoke_disable (__clk_enable f) (__clk_disable f) n s = some s' ∧
      Keeps rank (rank n + 1) s s' ∧
      DCalls n (if (ops_disable_fn (s.clks n)).isSome then 1 else 0) s s' := by
  unfold invoke_disable
  cases ops_disable_fn (s.clks n) with
  | none => exact ⟨s, rfl, Keeps.reflK _ _ s, DCalls.reflD n s⟩
  | some fn =>
    obtain ⟨s1, h1, hk⟩ := call_disable_keeps rank f
      (fun c L s hR hf => enable_spec rank f c L s hR hf) fn n (emit (Ev.ops_disable n) s) hR hn
    have he : Keeps rank (rank n + 1) s (emit (Ev.ops_disable n) s) :=
      ⟨rfl, logBelow_emit rank (rank n + 1) (Ev.ops_disable n) s (le_refl _)⟩
    exact ⟨s1, h1, he.transK (hk.monoK (Nat.le_succ _)),
      ((DCalls.of_emit_disableD n s).transD (DCalls.of_belowD hk.2 (le_refl _))).castD
        (by simp)⟩

/-- C13: `__clk_disable` of a node `n` of count `c > 0` in an acyclic tree returns with
the count of `n` at `c - 1`.  When `c > 1` the call is the lock, the store of the count
and the unlock: no other node changes and every new event is a lock event.  When
`c == 1` the call invokes the own `disable` operation of `n` (once if the node has one,
the table of nodes being left as it was, and never again after it has returned), then
disables the functional parent, then the bus parent, each by one call that returns and
takes one from the count of that node, and unlocks. -/
theorem C13_disable_step (rank : Nat → Nat) (fuel n : Nat) (L : LockPtr) (s : State)
    (hR : Ranked s.clks rank) (hn : rank n < fuel) (hc : (s.clks n).enabled ≠ 0) :
    ∃ s', __clk_disable (fuel + 1) (some n) L s = some s' ∧
      (s'.clks n).enabled = (s.clks n).enabled - 1 ∧
      ((s.clks n).enabled ≠ 1 →
        s' = __clk_unlock n L (set_enabled n ((s.clks n).enabled - 1) (__clk_lock n L s)) ∧
        (∀ m, m ≠ n → s'.clks m = s.clks m) ∧
        ∃ new, s'.log = s.log ++ new ∧ ∀ e ∈ new, is_lock_event e = true) ∧
      ((s.clks n).enabled = 1 →
        ∃ s2 s3 s4,
          invoke_disable (__clk_enable fuel) (__clk_disable fuel) n
            (set_enabled n 0 (__clk_lock n L s)) = some s2 ∧
          s2.clks = (set_enabled n 0 (__clk_lock n L s)).clks ∧
          __clk_disable fuel (s.clks n).parent (lockOf (s.clks n).mutex) s2 = some s3 ∧
          __clk_disable fuel (s.clks n).bus_parent (lockOf (s.clks n).mutex) s3 = some s4 ∧
          s' = __clk_unlock n L s4 ∧
          DCalls n (if (ops_disable_fn (s.clks n)).isSome then 1 else 0) s s' ∧
          DCalls n 0 s2 s' ∧
          (∀ p, (s.clks n).parent = some p →
            (s3.clks p).enabled = (s2.clks p).enabled - 1) ∧
          (∀ b, (s.clks n).bus_parent = some b →
            (s4.clks b).enabled = (s3.clks b).enabled - 1)) := by
  have ev1 : Evolves rank (orank rank (some n)) s
      (set_enabled n ((s.clks n).enabled - 1) (__clk_lock n L s)) :=
    (evolves_lock _ _ n L s).transE (evolves_set_enabled rank n _ _)
  by_cases hc1 : (s.clks n).enabled = 1
  · have hR1 : Ranked (set_enabled n 0 (__clk_lock n L s)).clks rank := by
      have := ev1.1.rankedT hR
      rwa [hc1] at this
    have hs1n : ((set_enabled n 0 (__clk_lock n L s)).clks n) =
        { s.clks n with enabled := 0 } := by simp
    obtain ⟨sa, ha, hka, hda⟩ := invoke_disable_calls rank fuel n _ hR1 hn
    have hRa : Ranked sa.clks rank := by rw [hka.1]; exact hR1
    have hna : sa.clks n = { s.clks n with enabled := 0 } := by rw [hka.1]; exact hs1n
    have hpa : (sa.clks n).parent = (s.clks n).parent := by rw [hna]
    have hma : (sa.clks n).mutex = (s.clks n).mutex := by rw [hna]
    obtain ⟨sb, hb, hevb, hcb⟩ := disable_spec rank fuel (sa.clks n).parent
      (lockOf (sa.clks n).mutex) sa hRa
      (lt_of_le_of_lt (orank_le_of_edge hRa n _ (Or.inl rfl)) hn)
    have hRb : Ranked sb.clks rank := hevb.1.rankedT hRa
    have hnb : sb.clks n = sa.clks n := hevb.2.1 n (orank_le_of_edge hRa n _ (Or.inl rfl))
    have hpb : (sb.clks n).bus_parent = (s.clks n).bus_parent := by rw [hnb, hna]
    have hmb : (sb.clks n).mutex = (s.clks n).mutex := by rw [hnb, hna]
    obtain ⟨sc, hc', hevc, hcc⟩ := disable_spec rank fuel (sb.clks n).bus_parent
      (lockOf (sb.clks n).mutex) sb hRb
      (lt_of_le_of_lt (orank_le_of_edge hRb n _ (Or.inr (Or.inl rfl))) hn)
    have hnc : sc.clks n = sb.clks n :=
      hevc.2.1 n (orank_le_of_edge hRb n _ (Or.inr (Or.inl rfl)))
    have hrun : __clk_disable (fuel + 1) (some n) L s = some (__clk_unlock n L sc) := by
      have e0 : ((set_enabled n 0 (__clk_lock n L s)).clks n).enabled = 0 := by simp
      simp only [__clk_disable, clks_lock, ne_eq, hc, not_false_eq_true, if_true, hc1,
        Nat.sub_self, e0]
      simp only [ha, hb, hc', one_ne_zero, not_false_eq_true, if_true]
    refine ⟨__clk_unlock n L sc, hrun, by simp [hnc, hnb, hna, hc1], fun h => absurd hc1 h,
      fun _ => ⟨sa, sb, sc, ha, hka.1, by rw [← hpa, ← hma]; exact hb,
        by rw [← hpb, ← hmb]; exact hc', rfl, ?_, ?_, ?_, ?_⟩⟩
    rotate_left 1
    · exact (((DCalls.of_belowD hevb.2.2 (orank_le_of_edge hRa n _ (Or.inl rfl))).transD
        (DCalls.of_belowD hevc.2.2 (orank_le_of_edge hRb n _ (Or.inr (Or.inl rfl))))).transD
        (DCalls.of_belowD (logBelow_unlock rank 0 n L sc) (Nat.zero_le _))).castD rfl
    rotate_left 2
    · have d0 : DCalls n 0 s (set_enabled n 0 (__clk_lock n L s)) :=
        DCalls.of_belowD ((logBelow_lock rank 0 n L s).transB (LogBelow.of_log_eqB rfl))
          (Nat.zero_le _)
      have d1 : DCalls n 0 sa sb :=
        DCalls.of_belowD hevb.2.2 (orank_le_of_edge hRa n _ (Or.inl rfl))
      have d2 : DCalls n 0 sb sc :=
        DCalls.of_belowD hevc.2.2 (orank_le_of_edge hRb n _ (Or.inr (Or.inl rfl)))
      have d3 : DCalls n 0 sc (__clk_unlock n L sc) :=
        DCalls.of_belowD (logBelow_unlock rank 0 n L sc) (Nat.zero_le _)
      exact ((((d0.transD hda).transD d1).transD d2).transD d3).castD (by simp [ops_disable_fn])
    · intro p hp
      exact hcb p (by rw [hpa]; exact hp)
    · intro b hb'
      exact hcc b (by rw [hpb]; exact hb')
  · have hc2 : (s.clks n).enabled - 1 ≠ 0 := by omega
    refine ⟨__clk_unlock n L (set_enabled n ((s.clks n).enabled - 1) (__clk_lock n L s)),
      ?_, by simp, fun _ => ⟨rfl, ?_, ?_⟩, fun h => absurd h hc1⟩
    · simp only [__clk_disable, clks_lock, ne_eq, hc, not_false_eq_true, if_true,
        clks_set_enabled_self, hc2, if_false]
    · intro m hm
      rw [clks_unlock, clks_set_enabled_other _ _ _ _ hm, clks_lock]
    · exact (lock_set_unlock_effect n _ L s).2.2

/-- C13 on the example `mux_clks`: node `0` has a count of `1` and the functional
parent `1`. -/
theorem C13_disable_step_witness :
    Ranked mux_state.clks mux_rank ∧ mux_rank 0 < 3 ∧ (mux_state.clks 0).enabled ≠ 0 ∧
    ∃ s', __clk_disable (3 + 1) (some 0) NO_LOCK mux_state = some s' ∧
      (s'.clks 0).enabled = (mux_state.clks 0).enabled - 1 ∧
      ((mux_state.clks 0).enabled ≠ 1 →
        s' = __clk_unlock 0 NO_LOCK (set_enabled 0 ((mux_state.clks 0).enabled - 1)
          (__clk_lock 0 NO_LOCK mux_state)) ∧
        (∀ m, m ≠ 0 → s'.clks m = mux_state.clks m) ∧
        ∃ new, s'.log = mux_state.log ++ new ∧ ∀ e ∈ new, is_lock_event e = true) ∧
      ((mux_state.clks 0).enabled = 1 →
        ∃ s2 s3 s4,
          invoke_disable (__clk_enable 3) (__clk_disable 3) 0
            (set_enabled 0 0 (__clk_lock 0 NO_LOCK mux_state)) = some s2 ∧
          s2.clks = (set_enabled 0 0 (__clk_lock 0 NO_LOCK mux_state)).clks ∧
          __clk_disable 3 (mux_state.clks 0).parent (lockOf (mux_state.clks 0).mutex) s2
            = some s3 ∧
          __clk_disable 3 (mux_state.clks 0).bus_parent (lockOf (mux_state.clks 0).mutex) s3
            = some s4 ∧
          s' = __clk_unlock 0 NO_LOCK s4 ∧
          DCalls 0 (if (ops_disable_fn (mux_state.clks 0)).isSome then 1 else 0)
            mux_state s' ∧
          DCalls 0 0 s2 s' ∧
          (∀ p, (mux_state.clks 0).parent = some p →
            (s3.clks p).enabled = (s2.clks p).enabled - 1) ∧
          (∀ b, (mux_state.clks 0).bus_parent = some b →
            (s4.clks b).enabled = (s3.clks b).enabled - 1)) :=
  ⟨mux_ranked, by decide, by decide,
    C13_disable_step mux_rank 3 0 NO_LOCK mux_state mux_ranked (by decide) (by decide)⟩

/-! ### C14: the performance-floor invariant -/

theorem floor_registered_append (l l2 : List Ev) :
    floor_registered (l ++ l2) = l2.foldl floor_step (floor_registered l) := by
  simp [floor_registered]

/-- The enable operation of the full-performance profile keeps the performance-floor
invariant when every external call succeeds. -/
theorem floor_inv_enable_ok (a : Nat) (s : State) (hs : all_succeed s)
    (hq : s.requests + 1 < 4294967296) (hi : FloorInv s) :
    FloorInv (prcmu_opp100_clk_enable a s).2 := by
  have hmod : (s.requests + 1) % 4294967296 = s.requests + 1 := Nat.mod_eq_of_lt hq
  have hs1 : all_succeed (set_requests (s.requests + 1) s) := all_succeed_of_oracle hs rfl
  unfold FloorInv at hi ⊢
  unfold prcmu_opp100_clk_enable request_ape_opp100
  rw [hmod]
  by_cases h0 : s.requests = 0
  · have hs2 : all_succeed (emit (Ev.prcmu_qos_add_requirement 0)
        (pop_oracle (set_requests (s.requests + 1) s))) :=
      all_succeed_of_oracle (all_succeed_pop _ hs1) rfl
    simp only [if_true, if_pos h0, prcmu_qos_add_requirement, next_ret_of_all_succeed _ hs1,
      ne_eq, not_true_eq_false, if_false]
    rw [request_clock_ok _ _ _ hs2]
    simp [floor_registered_append, floor_step]
  · simp only [if_true, if_neg h0, ne_eq, not_true_eq_false, if_false]
    rw [request_clock_ok _ _ _ hs1]
    simp [floor_registered_append, floor_step, hi, h0]

/-- The disable operation of the full-performance profile keeps the performance-floor
invariant when every external call succeeds and the requester count is not `0`. -/
theorem floor_inv_disable_ok (a : Nat) (s : State) (hs : all_succeed s)
    (hq : 0 < s.requests) (hq2 : s.requests < 4294967296) (hi : FloorInv s) :
    FloorInv (prcmu_opp100_clk_disable a s) := by
  have hmod : (s.requests + 4294967296 - 1) % 4294967296 = s.requests - 1 := by omega
  unfold FloorInv at hi ⊢
  unfold prcmu_opp100_clk_disable
  rw [request_clock_ok _ _ _ hs]
  unfold request_ape_opp100
  simp only [requests_emit, requests_pop_oracle]
  rw [hmod]
  by_cases h1 : s.requests = 1
  · simp only [ne_eq, not_true_eq_false, if_false, Bool.false_eq_true, if_pos h1]
    simp [prcmu_qos_remove_requirement, floor_registered_append, floor_step, h1]
  · simp only [ne_eq, not_true_eq_false, if_false, Bool.false_eq_true, if_neg h1]
    have h0 : s.requests ≠ 0 := by omega
    have h2 : s.requests - 1 ≠ 0 := by omega
    simp [floor_registered_append, floor_step, hi, h0, h2]

/-- C14 (the code at the failing input): on the example `floor_clks` with a requester
count of `0` the external floor request is refused with `-5`.  `clk_enable` of node `0`
returns `-5` and leaves node `0` disabled, but the requester count is `1` while no floor
requirement is registered; the following `clk_enable` of node `1` succeeds without
requesting the floor, so a clock of the full-performance profile runs with a count of `2`
and no registered floor requirement. -/
theorem C14_floor_lost_after_refusal :
    floor_refused_state.requests = 0 ∧ floor_registered floor_refused_state.log = false ∧
    (clk_enable 3 (some 0) floor_refused_state).map
      (fun r => (r.1, (r.2.clks 0).enabled, r.2.requests, floor_registered r.2.log))
      = some (-5, 0, 1, false) ∧
    ((clk_enable 3 (some 0) floor_refused_state).bind
      (fun r => clk_enable 3 (some 1) r.2)).map
      (fun r => (r.1, (r.2.clks 1).enabled, r.2.requests, floor_registered r.2.log,
        floor_adds r.2.log))
      = some (0, 1, 2, false, 1) := by
  decide

/-- The other failing external call: on the example `floor_clks` the floor request is
accepted and the clock request is refused with `-5`.  `clk_enable` of node `0` returns
`-5` and leaves every node disabled, and the requester count stays `1` with the floor
requirement registered: no later call releases it. -/
theorem floor_kept_after_clock_refusal :
    (clk_enable 3 (some 0) floor_clock_refused_state).map
      (fun r => (r.1, (r.2.clks 0).enabled, (r.2.clks 1).enabled, (r.2.clks 2).enabled,
        r.2.requests, floor_registered r.2.log))
      = some (-5, 0, 0, 0, 1, true) := by
  decide

/-! ### C15: lock elision and balance -/

/-- An acquisition that opens events respecting the lock elision under `L` goes through
a lock reference other than `L`. -/
theorem nested_cons_acquire {L : LockPtr} {m : Option Nat} {rest : List Ev}
    (h : Nested L (acquire_event m :: rest)) : lockOf m ≠ L := by
  generalize hl : acquire_event m :: rest = l at h
  cases h with
  | nil => cases hl
  | quiet _ e r he _ =>
    have e1 : acquire_event m = e := (List.cons.inj hl).1
    rw [← e1] at he
    cases m <;> simp [acquire_event, is_lock_event] at he
  | bracket _ m2 inner rest2 hne _ _ =>
    have e1 : acquire_event m = acquire_event m2 := (List.cons.inj hl).1
    have e : m = m2 := by
      cases m <;> cases m2 <;> simp_all [acquire_event]
    rw [e]; exact hne

/-- What `__clk_lock` and `__clk_unlock` do: nothing when the lock reference of the node
is the caller's lock, the acquisition and the release of the node's lock otherwise. -/
theorem lock_elision (n : Nat) (L : LockPtr) (x : State) :
    (lockOf (x.clks n).mutex = L → __clk_lock n L x = x ∧ __clk_unlock n L x = x) ∧
    (lockOf (x.clks n).mutex ≠ L →
      __clk_lock n L x = emit (acquire_event (x.clks n).mutex) x ∧
      __clk_unlock n L x = emit (release_event (x.clks n).mutex) x) := by
  unfold __clk_lock __clk_unlock acquire_event release_event
  refine ⟨fun h => ?_, fun h => ?_⟩
  · simp only [ne_eq, h, not_true_eq_false, if_false, and_self]
  · simp only [ne_eq, h, not_false_eq_true, if_true]
    cases (x.clks n).mutex <;> exact ⟨rfl, rfl⟩

/-- C15: lock elision and balance.  For a node `n` and a caller's lock `L`, `__clk_lock`
and `__clk_unlock` do nothing in a state in which the lock reference `clk->mutex` of `n`
is `L`, and acquire and release the lock of `n` (its mutex, or `clk_spin_lock` when it
has none) in a state in which it is not.  In an acyclic tree each of `__clk_enable`,
`__clk_disable` and `__clk_get_rate` called on `n` with `L` returns, and its events have
the shape `LockShape`: the acquisition of the lock of `n` exactly when `clk->mutex` is
not `L`, then events that respect the elision under `clk->mutex` at every depth of the
recursion, then the matching release, on every return path; when `clk->mutex` is `L` the
call acquires no lock through that reference; the held locks after the call are the held
locks before it. -/
theorem C15_lock_elision_balance (rank : Nat → Nat) (fuel n : Nat) (L : LockPtr) (s : State)
    (hR : Ranked s.clks rank) (hf : rank n + 1 < fuel) :
    (∀ x : State,
      (lockOf (x.clks n).mutex = L → __clk_lock n L x = x ∧ __clk_unlock n L x = x) ∧
      (lockOf (x.clks n).mutex ≠ L →
        __clk_lock n L x = emit (acquire_event (x.clks n).mutex) x ∧
        __clk_unlock n L x = emit (release_event (x.clks n).mutex) x)) ∧
    (∃ r s', __clk_enable fuel (some n) L s = some (r, s') ∧ LockShape (s.clks n) L s s') ∧
    (∃ s', __clk_disable fuel (some n) L s = some s' ∧ LockShape (s.clks n) L s s') ∧
    (∃ v s', __clk_get_rate fuel (some n) L s = some (v, s') ∧
      LockShape (s.clks n) L s s') := by
  obtain ⟨f, rfl⟩ : ∃ f, fuel = f + 1 := ⟨fuel - 1, by omega⟩
  have hn : rank n < f := by omega
  obtain ⟨hE, hD⟩ := enable_disable_nests rank f
  refine ⟨lock_elision n L, ?_, ?_, ?_⟩
  · obtain ⟨r, s', h, -⟩ := enable_spec rank (f + 1) (some n) L s hR hf
    exact ⟨r, s', h, enable_lock_step rank f hE hD n L s r s' hR hn h⟩
  · obtain ⟨s', h, -⟩ := disable_spec rank (f + 1) (some n) L s hR hf
    exact ⟨s', h, disable_lock_step rank f hE hD n L s s' hR hn h⟩
  · have hP : ParentRanked s.clks rank := fun a p hp => hR a p (Or.inl hp)
    obtain ⟨v, hv⟩ := get_rate_ref_total rank s hP (f + 1) (some n) hf
    have hmap := (get_rate_internal (f + 1) (some n) L s s rfl rfl).1
    rw [hv] at hmap
    cases hg : __clk_get_rate (f + 1) (some n) L s with
    | none => simp [hg] at hmap
    | some p =>
      obtain ⟨v', s'⟩ := p
      exact ⟨v', s', rfl, (get_rate_lock (f + 1) (some n) L s v' s' hg).2 n rfl⟩

/-- C15 on the example tree `demo_clks`, node `0` called without a held lock. -/
theorem C15_lock_elision_balance_witness :
    Ranked demo_state.clks demo_rank ∧ demo_rank 0 + 1 < 4 ∧
    ((∀ x : State,
      (lockOf (x.clks 0).mutex = NO_LOCK →
        __clk_lock 0 NO_LOCK x = x ∧ __clk_unlock 0 NO_LOCK x = x) ∧
      (lockOf (x.clks 0).mutex ≠ NO_LOCK →
        __clk_lock 0 NO_LOCK x = emit (acquire_event (x.clks 0).mutex) x ∧
        __clk_unlock 0 NO_LOCK x = emit (release_event (x.clks 0).mutex) x)) ∧
    (∃ r s', __clk_enable 4 (some 0) NO_LOCK demo_state = some (r, s') ∧
      LockShape (demo_state.clks 0) NO_LOCK demo_state s') ∧
    (∃ s', __clk_disable 4 (some 0) NO_LOCK demo_state = some s' ∧
      LockShape (demo_state.clks 0) NO_LOCK demo_state s') ∧
    (∃ v s', __clk_get_rate 4 (some 0) NO_LOCK demo_state = some (v, s') ∧
      LockShape (demo_state.clks 0) NO_LOCK demo_state s')) :=
  ⟨demo_ranked, by decide,
    C15_lock_elision_balance demo_rank 4 0 NO_LOCK demo_state demo_ranked (by decide)⟩

/-- The lock discipline forbids a call that takes the lock of its node although the
lock reference of the node is the caller's lock: such events do not have the shape
`LockShape`. -/
theorem lockShape_excludes_reacquire (c : clk) (s s' : State) (rest : List Ev)
    (hlog : s'.log = s.log ++ acquire_event c.mutex :: rest) :
    ¬ LockShape c (lockOf c.mutex) s s' := by
  rintro ⟨mid, hl, hn, -, -, -⟩
  have e : acquire_events c (lockOf c.mutex) = [] := by simp [acquire_events]
  have e2 : release_events c (lockOf c.mutex) = [] := by simp [release_events]
  rw [e, e2, hlog] at hl
  simp only [List.nil_append, List.append_nil] at hl
  have hmid : mid = acquire_event c.mutex :: rest := (List.append_cancel_left hl).symm
  rw [hmid] at hn
  exact nested_cons_acquire hn rfl

/-- The lock events of `clk_enable` of node `0` of the example tree: node `0` has no
mutex and is called with `&clk_spin_lock`, so it takes the spin lock; its parents `1` and
`2` have the lock reference `NULL` of node `0` and take nothing; the auxiliary clock `3`
has a mutex of its own, which is taken and released by the temporary enable and again by
the disable that follows it.  With a failing clock request of node `3` every lock taken is
released on the error path. -/
theorem lock_events_example :
    (clk_enable 4 (some 0) demo_state).map
      (fun r => (r.1, r.2.log.filter is_lock_event, held_after [] r.2.log))
      = some (0, [Ev.spin_lock_irqsave, Ev.mutex_lock 7, Ev.mutex_unlock 7,
          Ev.mutex_lock 7, Ev.mutex_unlock 7, Ev.spin_unlock_irqrestore], []) ∧
    (clk_enable 4 (some 0) demo_fail_state).map
      (fun r => (r.1, r.2.log.filter is_lock_event, held_after [] r.2.log))
      = some (-5, [Ev.spin_lock_irqsave, Ev.mutex_lock 7, Ev.mutex_unlock 7,
          Ev.spin_unlock_irqrestore], []) := by
  decide

/-- The elision compares the lock reference of a node with the reference of its direct
caller only.  On the example `chain_clks` node `0` takes the spin lock, its parent `1`
takes the mutex `5`, and node `2`, whose lock reference `NULL` is not the reference of
node `1`, takes the spin lock again below the two: the events respect the elision at
every depth and every lock taken is released. -/
theorem nested_reacquire_example :
    (clk_enable 4 (some 0) chain_state).map
      (fun r => (r.1, r.2.log, held_after [] r.2.log))
      = some (0, [Ev.spin_lock_irqsave, Ev.mutex_lock 5, Ev.spin_lock_irqsave,
          Ev.spin_unlock_irqrestore, Ev.mutex_unlock 5, Ev.spin_unlock_irqrestore], []) := by
  decide

/-! ### C16: the gated kernel clock and its auxiliary clock -/

/-- C16: in an acyclic tree `prcc_kclk_enable` and `prcc_kclk_disable` of node `n`
return and leave the table of nodes as it was, so the count of the auxiliary clock
`clk->clock` and of every ancestor of it is the same after the call as before it.  When
the temporary enable of the auxiliary clock fails, the count of that clock was `0`,
`prcc_kclk_enable` returns the error in the state the failed enable left (nothing is
written to the gate register afterwards), and `prcc_kclk_disable` still ends with the
table it started from. -/
theorem C16_kclk_no_net_effect (rank : Nat → Nat) (f n : Nat) (s : State)
    (hR : Ranked s.clks rank) (hn : rank n < f) :
    (∃ r s', prcc_kclk_enable (__clk_enable f) (__clk_disable f) n s = some (r, s') ∧
      s'.clks = s.clks ∧
      (r ≠ 0 → __clk_enable f (s.clks n).clock (lockOf (s.clks n).mutex) s = some (r, s') ∧
        ∀ k, (s.clks n).clock = some k → (s.clks k).enabled = 0) ∧
      (r = 0 → Emitted s s' (Ev.writel (s.clks n).cg_sel ((s.clks n).io_base + PRCC_KCKEN)))) ∧
    (∃ s', prcc_kclk_disable (__clk_enable f) (__clk_disable f) n s = some s' ∧
      s'.clks = s.clks ∧
      (∀ r s1, __clk_enable f (s.clks n).clock (lockOf (s.clks n).mutex) s = some (r, s1) →
        r ≠ 0 → ∀ k, (s.clks n).clock = some k →
          (s.clks k).enabled = 0 ∧ (s'.clks k).enabled = 0) ∧
      Emitted s s' (Ev.writel (s.clks n).cg_sel ((s.clks n).io_base + PRCC_KCKDIS))) := by
  have hle : orank rank (s.clks n).clock ≤ rank n :=
    orank_le_of_edge hR n _ (Or.inr (Or.inr rfl))
  obtain ⟨r, s1, h1, hev, hfail, hok⟩ :=
    enable_spec rank f (s.clks n).clock (lockOf (s.clks n).mutex) s hR (lt_of_le_of_lt hle hn)
  have hn1 : s1.clks n = s.clks n := hev.2.1 n hle
  constructor
  · have hw := keeps_writel rank (rank n) (s1.clks n).cg_sel
      ((s1.clks n).io_base + PRCC_KCKEN) s1
    by_cases hr : r = 0
    · obtain ⟨-, hundo⟩ := hok hr
      have hc : ((writel (s1.clks n).cg_sel ((s1.clks n).io_base + PRCC_KCKEN) s1).clks n).clock
          = (s.clks n).clock := by
        rw [hw.1]; exact hev.1.clockT n
      obtain ⟨s3, h3, h3c, h3l⟩ := hundo
        (lockOf ((writel (s1.clks n).cg_sel ((s1.clks n).io_base + PRCC_KCKEN) s1).clks n).mutex)
        (writel (s1.clks n).cg_sel ((s1.clks n).io_base + PRCC_KCKEN) s1) hw.1
      refine ⟨0, s3, ?_, h3c, fun h => absurd rfl h, fun _ => ?_⟩
      · simp only [prcc_kclk_enable, h1, hr, ne_eq, not_true_eq_false, if_false, hc, h3]
      · have he : Emitted s1 (writel (s1.clks n).cg_sel ((s1.clks n).io_base + PRCC_KCKEN) s1)
            (Ev.writel (s.clks n).cg_sel ((s.clks n).io_base + PRCC_KCKEN)) := by
          rw [hn1]; exact Emitted.of_emitM _ s1
        exact Emitted.monoM hev.2.2.extB he h3l.extB
    · obtain ⟨-, hz, -⟩ := hfail hr
      refine ⟨r, s1, ?_, (hfail hr).1, fun _ => ⟨h1, hz⟩, fun h => absurd h hr⟩
      simp only [prcc_kclk_enable, h1, hr, ne_eq, not_false_eq_true, if_true]
  · have hw := keeps_writel rank (rank n) (s1.clks n).cg_sel
      ((s1.clks n).io_base + PRCC_KCKDIS) s1
    have hc : ((writel (s1.clks n).cg_sel ((s1.clks n).io_base + PRCC_KCKDIS) s1).clks n).clock
        = (s.clks n).clock := by
      rw [hw.1]; exact hev.1.clockT n
    have he : Emitted s1 (writel (s1.clks n).cg_sel ((s1.clks n).io_base + PRCC_KCKDIS) s1)
        (Ev.writel (s.clks n).cg_sel ((s.clks n).io_base + PRCC_KCKDIS)) := by
      rw [hn1]; exact Emitted.of_emitM _ s1
    by_cases hr : r = 0
    · obtain ⟨-, hundo⟩ := hok hr
      obtain ⟨s3, h3, h3c, h3l⟩ := hundo
        (lockOf ((writel (s1.clks n).cg_sel ((s1.clks n).io_base + PRCC_KCKDIS) s1).clks n).mutex)
        (writel (s1.clks n).cg_sel ((s1.clks n).io_base + PRCC_KCKDIS) s1) hw.1
      refine ⟨s3, ?_, h3c, ?_, Emitted.monoM hev.2.2.extB he h3l.extB⟩
      · simp only [prcc_kclk_disable, h1, hc, h3]
      · intro r' s1' h' hr'
        rw [h1] at h'
        simp only [Option.some.injEq, Prod.mk.injEq] at h'
        exact absurd (h'.1 ▸ hr) hr'
    · obtain ⟨hcl, hz, -⟩ := hfail hr
      obtain ⟨f', rfl⟩ : ∃ f', f = f' + 1 := ⟨f - 1, by omega⟩
      obtain ⟨s3, h3, h3k⟩ := disable_zero rank (rank n) f' (s.clks n).clock
        (lockOf ((writel (s1.clks n).cg_sel ((s1.clks n).io_base + PRCC_KCKDIS) s1).clks n).mutex)
        (writel (s1.clks n).cg_sel ((s1.clks n).io_base + PRCC_KCKDIS) s1)
        (fun k hk' => by rw [hw.1, hcl]; exact hz k hk')
      have h3c : s3.clks = s.clks := (h3k.1.trans hw.1).trans hcl
      refine ⟨s3, ?_, h3c, ?_, Emitted.monoM hev.2.2.extB he h3k.2.extB⟩
      · simp only [prcc_kclk_disable, h1, hc, h3]
      · intro _ _ _ _ k hk
        exact ⟨hz k hk, by rw [h3c]; exact hz k hk⟩

/-- C16 on the example tree `demo_clks`: node `1` is a gated kernel clock with the
auxiliary clock `3`. -/
theorem C16_kclk_no_net_effect_witness :
    Ranked demo_state.clks demo_rank ∧ demo_rank 1 < 2 ∧
    ((∃ r s', prcc_kclk_enable (__clk_enable 2) (__clk_disable 2) 1 demo_state = some (r, s') ∧
      s'.clks = demo_state.clks ∧
      (r ≠ 0 → __clk_enable 2 (demo_state.clks 1).clock (lockOf (demo_state.clks 1).mutex)
          demo_state = some (r, s') ∧
        ∀ k, (demo_state.clks 1).clock = some k → (demo_state.clks k).enabled = 0) ∧
      (r = 0 → Emitted demo_state s'
        (Ev.writel (demo_state.clks 1).cg_sel ((demo_state.clks 1).io_base + PRCC_KCKEN)))) ∧
    (∃ s', prcc_kclk_disable (__clk_enable 2) (__clk_disable 2) 1 demo_state = some s' ∧
      s'.clks = demo_state.clks ∧
      (∀ r s1, __clk_enable 2 (demo_state.clks 1).clock (lockOf (demo_state.clks 1).mutex)
          demo_state = some (r, s1) →
        r ≠ 0 → ∀ k, (demo_state.clks 1).clock = some k →
          (demo_state.clks k).enabled = 0 ∧ (s'.clks k).enabled = 0) ∧
      Emitted demo_state s'
        (Ev.writel (demo_state.clks 1).cg_sel ((demo_state.clks 1).io_base + PRCC_KCKDIS)))) :=
  ⟨demo_ranked, by decide, C16_kclk_no_net_effect demo_rank 2 1 demo_state demo_ranked (by decide)⟩

/-- The failure path of C16 on the example tree: the clock request of the auxiliary
clock `3` is refused with `-5`.  `prcc_kclk_enable` of node `1` returns `-5`, has written
no register, and the count of node `3` is `0` as before; `prcc_kclk_disable` writes the
gate register and leaves the count of node `3` at `0`. -/
theorem kclk_failure_example :
    (prcc_kclk_enable (__clk_enable 2) (__clk_disable 2) 1 demo_fail_state).map
      (fun r => (r.1, (r.2.clks 3).enabled, r.2.log.filter
        (fun e => decide (e = Ev.writel 2 (4096 + PRCC_KCKEN)))))
      = some (-5, 0, []) ∧
    (prcc_kclk_disable (__clk_enable 2) (__clk_disable 2) 1 demo_fail_state).map
      (fun r => ((r.clks 3).enabled, r.log.filter
        (fun e => decide (e = Ev.writel 2 (4096 + PRCC_KCKDIS)))))
      = some (0, [Ev.writel 2 (4096 + PRCC_KCKDIS)]) := by
  decide


/-- Every sequence of `clk_enable` and `clk_disable` calls that respects the outstanding
references of the callers returns and keeps the accounting invariant. -/
theorem run_accounted (rank : Nat → Nat) (fuel : Nat) (V : List Nat) (hV : V.Nodup)
    (hfuel : ∀ n ∈ V, rank n + 1 < fuel) :
    ∀ (calls : List Call) (s : State) (refs : Nat → Nat), Ranked s.clks rank →
      Closed s.clks V → Accounted s.clks refs V → (∀ c ∈ calls, c.node ∈ V) →
      disciplined fuel calls s refs = true →
      ∃ s' refs', run_calls fuel calls s refs = some (s', refs') ∧
        Accounted s'.clks refs' V := by
  intro calls
  induction calls with
  | nil => intro s refs _ _ ha _ _; exact ⟨s, refs, rfl, ha⟩
  | cons c rest ih =>
    intro s refs hR hcl ha hnodes hd
    have hrest : ∀ c' ∈ rest, c'.node ∈ V := fun c' hc' => hnodes c' (List.mem_cons_of_mem _ hc')
    cases c with
    | enable n =>
      have hnV : n ∈ V := hnodes (Call.enable n) (List.mem_cons_self _ _)
      have hf : orank rank (some n) < fuel := hfuel n hnV
      obtain ⟨r, s1, h, hev, hfail, -⟩ := enable_spec rank fuel (some n) NO_LOCK s hR hf
      have hce : clk_enable fuel (some n) s = some (r, s1) := h
      simp only [disciplined, hce] at hd
      simp only [run_calls, hce]
      have hR1 : Ranked s1.clks rank := hev.1.rankedT hR
      have hcl1 : Closed s1.clks V := closed_sameTopo hev.1 hcl
      by_cases hr : r = 0
      · have a1 := enable_accounted rank V hV fuel (some n) NO_LOCK s refs r s1 hR hf
          (fun m hm => by cases hm; exact hnV) hcl ha h hr
        simp only [hr, if_true] at hd ⊢
        exact ih s1 _ hR1 hcl1 a1 hrest hd
      · have a1 : Accounted s1.clks refs V := by rw [(hfail hr).1]; exact ha
        simp only [hr, if_false] at hd ⊢
        exact ih s1 _ hR1 hcl1 a1 hrest hd
    | disable n =>
      have hnV : n ∈ V := hnodes (Call.disable n) (List.mem_cons_self _ _)
      have hf : orank rank (some n) < fuel := hfuel n hnV
      simp only [disciplined, Bool.and_eq_true, decide_eq_true_eq] at hd
      obtain ⟨hrn, hd⟩ := hd
      have hen : (s.clks n).enabled ≠ 0 := by
        have := ha.1 n
        omega
      obtain ⟨s1, h, hev, -⟩ := disable_spec rank fuel (some n) NO_LOCK s hR hf
      have hcd : clk_disable fuel (some n) s = some s1 := by
        simp only [clk_disable, if_neg hen]; exact h
      simp only [hcd] at hd
      simp only [run_calls, hcd]
      have a1 := disable_accounted rank V hV fuel (some n) NO_LOCK s refs s1 hR hf
        (fun m hm => by cases hm; exact hnV) hcl ha (fun m hm => by cases hm; exact hrn) h
      exact ih s1 _ (hev.1.rankedT hR) (closed_sameTopo hev.1 hcl) a1 hrest hd

/-! ### C17: the liveness invariant of the reachable states -/

/-- C17: take an acyclic clock tree whose nodes are listed in `V`, with every count at
`0`, and any sequence of `clk_enable` and `clk_disable` calls on nodes of `V` in which no
`clk_disable` comes without an outstanding reference of a caller (a successful
`clk_enable` of that node not yet given back).  Every call returns, and in the state
reached every node with a count above `0` has its functional parent and its bus parent
(when present) at a count above `0`; the count of every node is the number of outstanding
references of callers plus the number of enabled nodes that name it as functional parent
plus the number of enabled nodes that name it as bus parent. -/
theorem C17_reachable_liveness (rank : Nat → Nat) (fuel : Nat) (V : List Nat)
    (calls : List Call) (s : State) (hR : Ranked s.clks rank) (hV : V.Nodup)
    (hcl : Closed s.clks V) (hfuel : ∀ n ∈ V, rank n + 1 < fuel)
    (hzero : ∀ n, (s.clks n).enabled = 0) (hnodes : ∀ c ∈ calls, c.node ∈ V)
    (hd : disciplined fuel calls s (fun _ => 0) = true) :
    ∃ s' refs, run_calls fuel calls s (fun _ => 0) = some (s', refs) ∧ Live s'.clks ∧
      (∀ m, (s'.clks m).enabled = refs m + child_refs s'.clks V m) ∧
      ∀ n, (s'.clks n).enabled ≠ 0 → n ∈ V := by
  obtain ⟨s', refs, hrun, ha⟩ := run_accounted rank fuel V hV hfuel calls s (fun _ => 0) hR hcl
    (accounted_of_all_disabled V hzero) hnodes hd
  exact ⟨s', refs, hrun, live_of_accounted ha, ha.1, ha.2⟩

theorem demo_closed : Closed demo_clks [0, 1, 2, 3] := by
  intro n hn
  simp only [List.mem_cons, List.mem_singleton, List.not_mem_nil, or_false] at hn
  rcases hn with rfl | rfl | rfl | rfl <;> simp [demo_clks]

/-- C17 on the example tree `demo_clks`: enable `0`, enable `1`, disable `0`,
disable `1`. -/
theorem C17_reachable_liveness_witness :
    Ranked demo_state.clks demo_rank ∧ [0, 1, 2, 3].Nodup ∧ Closed demo_state.clks [0, 1, 2, 3] ∧
    (∀ n ∈ [0, 1, 2, 3], demo_rank n + 1 < 4) ∧ (∀ n, (demo_state.clks n).enabled = 0) ∧
    (∀ c ∈ [Call.enable 0, Call.enable 1, Call.disable 0, Call.disable 1],
      c.node ∈ [0, 1, 2, 3]) ∧
    disciplined 4 [Call.enable 0, Call.enable 1, Call.disable 0, Call.disable 1] demo_state
      (fun _ => 0) = true ∧
    ∃ s' refs, run_calls 4 [Call.enable 0, Call.enable 1, Call.disable 0, Call.disable 1]
        demo_state (fun _ => 0) = some (s', refs) ∧ Live s'.clks ∧
      (∀ m, (s'.clks m).enabled = refs m + child_refs s'.clks [0, 1, 2, 3] m) ∧
      ∀ n, (s'.clks n).enabled ≠ 0 → n ∈ [0, 1, 2, 3] :=
  ⟨demo_ranked, by decide, demo_closed, by decide, demo_all_disabled, by decide, by decide,
    C17_reachable_liveness demo_rank 4 [0, 1, 2, 3]
      [Call.enable 0, Call.enable 1, Call.disable 0, Call.disable 1] demo_state demo_ranked
      (by decide) demo_closed (by decide) demo_all_disabled (by decide) (by decide)⟩

/-- The counts of the example tree along a sequence of calls: after `clk_enable` of nodes
`0` and `1` node `2` is referenced by the enabled node `0` (bus parent) and by the enabled
node `1` (functional parent), node `1` by a caller and by node `0`; after `clk_disable` of
node `1` it stays enabled for node `0`. -/
theorem counts_example :
    (run_calls 4 [Call.enable 0, Call.enable 1] demo_state (fun _ => 0)).map
      (fun r => ([(r.1.clks 0).enabled, (r.1.clks 1).enabled, (r.1.clks 2).enabled,
        (r.1.clks 3).enabled], [r.2 0, r.2 1, r.2 2, r.2 3]))
      = some ([1, 2, 2, 0], [1, 1, 0, 0]) ∧
    (run_calls 4 [Call.enable 0, Call.enable 1, Call.disable 1] demo_state (fun _ => 0)).map
      (fun r => ([(r.1.clks 0).enabled, (r.1.clks 1).enabled, (r.1.clks 2).enabled,
        (r.1.clks 3).enabled], [r.2 0, r.2 1, r.2 2, r.2 3]))
      = some ([1, 1, 2, 0], [1, 0, 0, 0]) := by
  decide

end Ux500Clock
